import Mathlib

/-!
Verification of `rewrite_permalinks.py`, a one-shot HTML post-processor that
rewrites the permalink anchor and the "exported" marker inside `dfn-panel`
widgets of a parsed document (`process_file`), with a `.bak` backup and a
simple CLI driver.

The parsed document is embedded as a tree of nodes.  Element nodes carry a
unique numeric identifier `uid`: the Python code works on *object references*
into a mutable tree (BeautifulSoup), and the `uid` plays the role of object
identity, so that "mutate this node in place" becomes "rewrite the unique
subtree whose root carries this uid".  Text nodes model `NavigableString`s.

BeautifulSoup behaviour captured by the embedding (from bs4's `element.py`):
* `find`/`find_all` walk the *descendants* of the queried node in document
  (preorder) order; a tag-name filter only ever matches element nodes;
* a `class_` string filter matches a tag whose class token list contains the
  string, or whose tokens joined by single spaces equal the string (this is
  how `class_='marker dfn-exported'` matches a two-token class);
* a dict comprehension over `find_all` results gives last-write-wins on
  duplicate keys;
* `tag.insert(0, x)` prepends, `tag.append(x)` appends, `a.insert_after(x)`
  inserts `x` directly after `a` among its parent's children,
  `tag.decompose()` removes the tag together with its whole subtree;
* `tag.string = s` replaces all of the tag's children by the single text `s`;
* in a boolean context a `Tag` is always truthy (`Tag.__bool__` returns
  `True`), while a `NavigableString` is truthy iff it is non-empty, and
  `None` is falsy — this decides `if a.next_sibling:`.

Only the attributes the script ever reads or writes are modelled: `id`,
`class` (as the parsed token list), presence of `data-export`, `href`,
`aria-label` and `title`.
-/

/-- Attributes of an element node.  `classes` is the parsed token list of the
`class` attribute; `dataExport` records presence of the boolean `data-export`
attribute. -/
structure Attrs where
  id : Option String := none
  classes : List String := []
  dataExport : Bool := false
  href : Option String := none
  ariaLabel : Option String := none
  title : Option String := none
  deriving Repr, DecidableEq

/-- A markup node: a text node (`NavigableString`) or an element with a
unique identifier `uid`, a tag name, attributes and a list of children. -/
inductive Node : Type where
  | text : String → Node
  | elem : Nat → String → Attrs → List Node → Node
  deriving Repr

mutual

/-- Structural decidable equality on nodes. -/
def Node.decEq : (m n : Node) → Decidable (m = n)
  | .text s, .text t =>
    if h : s = t then .isTrue (by rw [h]) else .isFalse (by simp [h])
  | .text _, .elem _ _ _ _ => .isFalse (by simp)
  | .elem _ _ _ _, .text _ => .isFalse (by simp)
  | .elem u t a cs, .elem u' t' a' cs' =>
    if h1 : u = u' then
      if h2 : t = t' then
        if h3 : a = a' then
          match Node.decEqL cs cs' with
          | .isTrue h4 => .isTrue (by rw [h1, h2, h3, h4])
          | .isFalse h4 => .isFalse (by simp [h4])
        else .isFalse (by simp [h3])
      else .isFalse (by simp [h2])
    else .isFalse (by simp [h1])

/-- Structural decidable equality on node lists. -/
def Node.decEqL : (ms ns : List Node) → Decidable (ms = ns)
  | [], [] => .isTrue rfl
  | [], _ :: _ => .isFalse (by simp)
  | _ :: _, [] => .isFalse (by simp)
  | m :: ms, n :: ns =>
    match Node.decEq m n, Node.decEqL ms ns with
    | .isTrue h, .isTrue h' => .isTrue (by rw [h, h'])
    | .isFalse h, _ => .isFalse (by simp [h])
    | _, .isFalse h' => .isFalse (by simp [h'])

end

instance : DecidableEq Node := Node.decEq

/-- The uid of an element node (text nodes have none). -/
def Node.uid? : Node → Option Nat
  | .text _ => none
  | .elem u _ _ _ => some u

/-- The uid of an element node, defaulting to 0 on text nodes. -/
def Node.uidD (n : Node) : Nat := n.uid?.getD 0

/-- The attributes of a node (default attributes on text nodes). -/
def Node.attrsD : Node → Attrs
  | .text _ => {}
  | .elem _ _ a _ => a

/-- The children of a node. -/
def Node.children : Node → List Node
  | .text _ => []
  | .elem _ _ _ cs => cs

/-- Python truthiness of a node in a boolean context: a `Tag` is always
truthy (bs4 `Tag.__bool__`), a `NavigableString` iff non-empty. -/
def Node.truthy : Node → Bool
  | .text s => s ≠ ""
  | .elem _ _ _ _ => true

mutual

/-- Preorder (document-order) traversal of a node: the node followed by its
descendants. -/
def Node.pre : Node → List Node
  | .text s => [.text s]
  | .elem u t a cs => .elem u t a cs :: Node.preL cs

/-- Preorder traversal of a list of sibling nodes. -/
def Node.preL : List Node → List Node
  | [] => []
  | c :: cs => c.pre ++ Node.preL cs

end

/-- The descendants of a node in document order, excluding the node itself:
this is the search space of bs4 `find` / `find_all` called on the node. -/
def Node.descendants : Node → List Node
  | .text _ => []
  | .elem _ _ _ cs => Node.preL cs

/-- The uids of all element nodes in a subtree, in document order. -/
def Node.uids (t : Node) : List Nat := t.pre.filterMap Node.uid?

/-- Matching of a bs4 `class_` string filter against a parsed class token
list: the filter matches one of the tokens, or the whole space-joined list. -/
def classMatch (q : String) (cs : List String) : Bool :=
  cs.contains q || String.intercalate " " cs == q

/-- Filter for `soup.find_all('dfn')` results kept by the dict comprehension
on line 28: a `dfn` element with a truthy (present and non-empty) `id`. -/
def Node.isDfnWithId : Node → Bool
  | .elem _ t a _ => t == "dfn" && (a.id.getD "") != ""
  | _ => false

/-- Filter of line 31, `soup.find_all('div', class_='dfn-panel')`. -/
def Node.isPanel : Node → Bool
  | .elem _ t a _ => t == "div" && classMatch "dfn-panel" a.classes
  | _ => false

/-- Filter of line 50, `panel.find('a', class_='self-link')`. -/
def Node.isSelfLink : Node → Bool
  | .elem _ t a _ => t == "a" && classMatch "self-link" a.classes
  | _ => false

/-- Filter of line 62, `panel.find('span', class_='marker dfn-exported')`:
this is the "exported marker" of the specification. -/
def Node.isMarker : Node → Bool
  | .elem _ t a _ => t == "span" && classMatch "marker dfn-exported" a.classes
  | _ => false

/-- Filter behind the `panel.div` attribute access (first `div` descendant,
the panel's "inner container"). -/
def Node.isDiv : Node → Bool
  | .elem _ t _ _ => t == "div"
  | _ => false

/-- Line 28, the pairs of the dict comprehension
`{tag.get('id'): tag for tag in soup.find_all('dfn') if tag.get('id')}`,
in document order. -/
def dfnPairs (root : Node) : List (String × Node) :=
  (root.descendants.filter Node.isDfnWithId).map fun n => (n.attrsD.id.getD "", n)

/-- Lookup in `dfn_map`: a Python dict overwrites on duplicate keys, so a
lookup returns the value of the *last* pair carrying the key. -/
def dfnLookup (root : Node) (k : String) : Option Node :=
  ((dfnPairs root).reverse.find? fun p => p.1 == k).map Prod.snd

/-- The keys of `dfn_map` (each key once, at its first occurrence). -/
def dfnKeys (root : Node) : List String :=
  ((dfnPairs root).map Prod.fst).dedup

/-- Line 36, `re.match(r'dfn-panel-for-(?:dfn-)?(.+)', pid)`: returns
`group(1)` when the regex matches, `none` otherwise.  `re.match` anchors at
the start only, `.` does not match a newline, and `(?:dfn-)?` backtracks when
`(.+)` would otherwise be empty, so: the id must start with the literal
`dfn-panel-for-`; writing `rest` for the maximal newline-free run that
follows, the group is `rest` minus a leading `dfn-` when that leaves at least
one character, else `rest` itself when non-empty, else there is no match. -/
def strStartsWith (s p : String) : Bool := p.data.isPrefixOf s.data

/-- Line 36 continued; string slicing is on code points, as in Python. -/
def panelSuffix (pid : String) : Option String :=
  if strStartsWith pid "dfn-panel-for-" then
    let rest := (pid.data.drop 14).takeWhile fun c => c ≠ '\n'
    if "dfn-".data.isPrefixOf rest && decide (4 < rest.length) then
      some (String.mk (rest.drop 4))
    else if 1 ≤ rest.length then some (String.mk rest)
    else none
  else none

/-- Line 42, `dfn_id = 'dfn-' + dfn_suffix if not dfn_suffix.startswith('dfn-')
else dfn_suffix`. -/
def dfnIdOf (sfx : String) : String :=
  if strStartsWith sfx "dfn-" then sfx else "dfn-" ++ sfx

/-- Line 63, `dfn_tag is not None and ('export' in (dfn_tag.get('class') or [])
or dfn_tag.has_attr('data-export'))`. -/
def exportStatus : Option Node → Bool
  | some n => n.attrsD.classes.contains "export" || n.attrsD.dataExport
  | none => false

mutual

/-- In-place mutation of the element with uid `u`: replace the unique subtree
rooted at `u` by `f` of it (identity elsewhere). -/
def updateByUid (u : Nat) (f : Node → Node) : Node → Node
  | .text s => .text s
  | .elem w t a cs =>
    if w = u then f (.elem w t a cs) else .elem w t a (updateByUidL u f cs)

/-- updateByUid on a list of siblings. -/
def updateByUidL (u : Nat) (f : Node → Node) : List Node → List Node
  | [] => []
  | c :: cs => updateByUid u f c :: updateByUidL u f cs

end

mutual

/-- bs4 `insert_after`: insert `m` directly after the element with uid `u`
among its parent's children. -/
def insertAfterUid (u : Nat) (m : Node) : Node → Node
  | .text s => .text s
  | .elem w t a cs => .elem w t a (insertAfterUidL u m cs)

/-- insertAfterUid on a list of siblings. -/
def insertAfterUidL (u : Nat) (m : Node) : List Node → List Node
  | [] => []
  | c :: cs =>
    if c.uid? = some u then c :: m :: insertAfterUidL u m cs
    else insertAfterUid u m c :: insertAfterUidL u m cs

end

mutual

/-- bs4 `decompose`: remove the element with uid `u` together with its whole
subtree. -/
def removeByUid (u : Nat) : Node → Node
  | .text s => .text s
  | .elem w t a cs => .elem w t a (removeByUidL u cs)

/-- removeByUid on a list of siblings. -/
def removeByUidL (u : Nat) : List Node → List Node
  | [] => []
  | c :: cs =>
    if c.uid? = some u then removeByUidL u cs
    else removeByUid u c :: removeByUidL u cs

end

/-- Locate the node with uid `u` in a tree (object-identity lookup). -/
def findByUid (u : Nat) (t : Node) : Option Node :=
  t.pre.find? fun n => n.uid? == some u

mutual

/-- bs4 `next_sibling` of the element with uid `u`, searched inside tree `t`:
the node directly after it in its parent's child list, if any. -/
def nextSib? (u : Nat) : Node → Option Node
  | .text _ => none
  | .elem _ _ _ cs => nextSibL u cs

/-- nextSib? on a list of siblings. -/
def nextSibL (u : Nat) : List Node → Option Node
  | [] => none
  | c :: cs =>
    if c.uid? = some u then cs.head?
    else (nextSib? u c).orElse fun _ => nextSibL u cs

end

/-- Truthiness of `a.next_sibling` in the `if` on line 70: the sibling exists
and is truthy. -/
def nextSibTruthy (u : Nat) (t : Node) : Bool :=
  match nextSib? u t with
  | some n => n.truthy
  | none => false

/-- Lines 56-58 applied to the ensured anchor `a`: set `href` to the bare
fragment `#dfn_id`, replace the contents by the text `Permalink`
(`a.string = 'Permalink'`), and set the `aria-label`. -/
def setAnchor (dfnId : String) : Node → Node
  | .elem w t a _ =>
    .elem w t
      { a with
        href := some ("#" ++ dfnId)
        ariaLabel := some ("Permalink for definition: " ++ dfnId ++
          ". Activate to close this dialog.") }
      [.text "Permalink"]
  | n => n

/-- Line 53, `soup.new_tag('a', **{'class': 'self-link'})` with a fresh uid. -/
def newAnchor (u : Nat) : Node :=
  .elem u "a" { classes := ["self-link"] } []

/-- Lines 65-68: the freshly created exported-marker span. -/
def newMarker (u : Nat) : Node :=
  .elem u "span"
    { classes := ["marker", "dfn-exported"]
      title := some "Definition can be referenced by other specifications" }
    [.text "exported"]

/-- bs4 `tag.insert(0, m)` on the element with uid `u` (line 54). -/
def insertFirstUid (u : Nat) (m : Node) : Node → Node :=
  updateByUid u fun n =>
    match n with
    | .elem w t a cs => .elem w t a (m :: cs)
    | n => n

/-- bs4 `tag.append(m)` on the element with uid `u` (line 73). -/
def appendChildUid (u : Nat) (m : Node) : Node → Node :=
  updateByUid u fun n =>
    match n with
    | .elem w t a cs => .elem w t a (cs ++ [m])
    | n => n

/-- The one kind of failure the rewriter's own per-panel logic can raise: an
`AttributeError` from calling a method on `None` (a missing `panel.div`) or
from touching a tag destroyed by an earlier `decompose`. -/
inductive PyErr : Type where
  | attrError
  deriving Repr, DecidableEq

/-- Lines 35-76, the body of the per-panel loop of `process_file`, acting on
the subtree of one entry of the `panels` list.  `fname` is `p.name`,
`lookup` is the `dfn_map` lookup, `fresh` supplies uids for created nodes.
Returns the rewritten panel subtree (all reads and writes of the loop body
stay inside the panel's subtree) and the next fresh uid. -/
def processPanel (fname : String) (lookup : String → Option Node) (fresh : Nat)
    (panel : Node) : Except PyErr (Node × Nat) :=
  -- line 35: pid = panel.get('id') or ''
  let pid := panel.attrsD.id.getD ""
  -- lines 36-40: regex match, else skip the panel (continue)
  match panelSuffix pid with
  | none => .ok (panel, fresh)
  | some dfnSuffix =>
    -- line 42
    let dfnId := dfnIdOf dfnSuffix
    -- lines 44-47: lookup with fallback to the raw suffix
    let dfnTag := (lookup dfnId).orElse fun _ => lookup dfnSuffix
    -- lines 50-54: locate the permalink anchor, else create one as first
    -- child of panel.div; panel.div = None raises AttributeError
    (match panel.descendants.find? Node.isSelfLink with
     | some a => Except.ok (a.uidD, panel, fresh)
     | none =>
       match panel.descendants.find? Node.isDiv with
       | none => Except.error PyErr.attrError
       | some d =>
         Except.ok (fresh, insertFirstUid d.uidD (newAnchor fresh) panel, fresh + 1))
    |>.bind fun (aUid, panel1, fresh1) =>
    -- line 55: filename-qualified form, computed but never used afterwards
    let _link := if dfnId ≠ "" then fname ++ "#" ++ dfnId else "#" ++ dfnSuffix
    -- lines 56-58
    let panel2 := updateByUid aUid (setAnchor dfnId) panel1
    -- line 62
    let existingMarker := panel2.descendants.find? Node.isMarker
    -- lines 63-76
    if exportStatus dfnTag then
      match existingMarker with
      | none =>
        -- lines 64-73: create the marker and place it
        let mk := newMarker fresh1
        if nextSibTruthy aUid panel2 then
          Except.ok (insertAfterUid aUid mk panel2, fresh1 + 1)
        else
          match panel2.descendants.find? Node.isDiv with
          | none => Except.error PyErr.attrError
          | some d => Except.ok (appendChildUid d.uidD mk panel2, fresh1 + 1)
      | some _ => Except.ok (panel2, fresh1)
    else
      match existingMarker with
      | some mk => Except.ok (removeByUid mk.uidD panel2, fresh1)
      | none => Except.ok (panel2, fresh1)

/-- An upper bound for the uids present in a tree. -/
def Node.maxUid (t : Node) : Nat := t.uids.foldr max 0

/-- The uids of the entries of the `panels` list of line 31, in document
order. -/
def panelUids (root : Node) : List Nat :=
  (root.descendants.filter Node.isPanel).filterMap Node.uid?

/-- The loop of lines 33-76: process each panel of the materialised `panels`
list in order.  Each panel is located by identity (uid) in the current tree —
touching a panel destroyed by an earlier iteration's `decompose` raises — and
its subtree is rewritten in place by `processPanel`. -/
def processPanels (fname : String) (lookup : String → Option Node) :
    List Nat → Nat → Node → Except PyErr Node
  | [], _, t => .ok t
  | u :: us, fresh, t =>
    match findByUid u t with
    | none => .error .attrError
    | some p =>
      (processPanel fname lookup fresh p).bind fun (p', fresh') =>
        processPanels fname lookup us fresh' (updateByUid u (fun _ => p') t)

/-- The in-memory document transform of `process_file` (lines 25-76): build
`dfn_map` and the `panels` list from the loaded document, then run the
per-panel loop.  `fname` is `p.name`. -/
def transformDoc (fname : String) (root : Node) : Except PyErr Node :=
  processPanels fname (dfnLookup root) (panelUids root) (root.maxUid + 1) root

/-- Line 63's reads on the `dfn_map` entry, with live reference semantics:
`dfn_map` holds object references, so `dfn_tag.get('class')` raises
`AttributeError` if the referenced tag was destroyed by an earlier
iteration's `decompose` (which clears the tag); otherwise the tag still
carries its load-time attributes (nothing ever writes a `dfn`'s
attributes). -/
def exportStatusLive (destroyed : List Nat) : Option Node → Except PyErr Bool
  | some n =>
    if n.uidD ∈ destroyed then .error .attrError
    else .ok (n.attrsD.classes.contains "export" || n.attrsD.dataExport)
  | none => .ok false

/-- Lines 35-76 with live object semantics: as `processPanel`, but the
export check of line 63 reads the live `dfn` tag — raising on a destroyed
one — and `existing_marker.decompose()` (line 76) destroys the marker with
its whole subtree, adding their uids to the destroyed set.  (The permalink
step's `a.string = 'Permalink'` only extracts the anchor's old children
without destroying them, so it adds nothing.) -/
def processPanelLive (fname : String) (lookup : String → Option Node)
    (destroyed : List Nat) (fresh : Nat) (panel : Node) :
    Except PyErr (Node × Nat × List Nat) :=
  let pid := panel.attrsD.id.getD ""
  match panelSuffix pid with
  | none => .ok (panel, fresh, destroyed)
  | some dfnSuffix =>
    let dfnId := dfnIdOf dfnSuffix
    let dfnTag := (lookup dfnId).orElse fun _ => lookup dfnSuffix
    (match panel.descendants.find? Node.isSelfLink with
     | some a => Except.ok (a.uidD, panel, fresh)
     | none =>
       match panel.descendants.find? Node.isDiv with
       | none => Except.error PyErr.attrError
       | some d =>
         Except.ok (fresh, insertFirstUid d.uidD (newAnchor fresh) panel, fresh + 1))
    |>.bind fun (aUid, panel1, fresh1) =>
    let _link := if dfnId ≠ "" then fname ++ "#" ++ dfnId else "#" ++ dfnSuffix
    let panel2 := updateByUid aUid (setAnchor dfnId) panel1
    let existingMarker := panel2.descendants.find? Node.isMarker
    (exportStatusLive destroyed dfnTag).bind fun exp =>
    if exp then
      match existingMarker with
      | none =>
        let mk := newMarker fresh1
        if nextSibTruthy aUid panel2 then
          Except.ok (insertAfterUid aUid mk panel2, fresh1 + 1, destroyed)
        else
          match panel2.descendants.find? Node.isDiv with
          | none => Except.error PyErr.attrError
          | some d =>
            Except.ok (appendChildUid d.uidD mk panel2, fresh1 + 1, destroyed)
      | some _ => Except.ok (panel2, fresh1, destroyed)
    else
      match existingMarker with
      | some mk =>
        Except.ok (removeByUid mk.uidD panel2, fresh1, destroyed ++ mk.uids)
      | none => Except.ok (panel2, fresh1, destroyed)

/-- The loop of lines 33-76 with live references: as `processPanels`, but
threading the set of uids destroyed by `decompose` through the
iterations. -/
def processPanelsLive (fname : String) (lookup : String → Option Node) :
    List Nat → Nat → List Nat → Node → Except PyErr Node
  | [], _, _, t => .ok t
  | u :: us, fresh, destroyed, t =>
    match findByUid u t with
    | none => .error .attrError
    | some p =>
      (processPanelLive fname lookup destroyed fresh p).bind
        fun (p', fresh', destroyed') =>
          processPanelsLive fname lookup us fresh' destroyed'
            (updateByUid u (fun _ => p') t)

/-- The in-memory transform of `process_file` with live `dfn_map`
references: the map is built once at load time (line 28), but line 63 reads
the live referenced tags, so a panel's export check can raise on a `dfn`
destroyed mid-run by an earlier panel's marker `decompose`. -/
def transformDocLive (fname : String) (root : Node) : Except PyErr Node :=
  processPanelsLive fname (dfnLookup root) (panelUids root) (root.maxUid + 1)
    [] root

/-- No `dfn` carrying an id lies inside any panel of the `panels` list.
Then no marker `decompose` — markers are only decomposed inside their own
panel's subtree — can destroy a tag held by `dfn_map`. -/
def dfnsOutsidePanels (root : Node) : Bool :=
  (root.descendants.filter Node.isPanel).all fun p =>
    (p.descendants.filter Node.isDfnWithId).isEmpty

/-- A document on which the snapshot reading and the live reading of
`dfn_map` diverge: the first panel's marker holds the `dfn` the second
panel resolves, so the first panel's `decompose` destroys it and the second
panel's live export check raises, while a load-time snapshot would not. -/
def crashDoc : Node :=
  .elem 0 "[document]" {}
    [.elem 1 "div" { id := some "dfn-panel-for-a", classes := ["dfn-panel"] }
      [.elem 2 "div" {}
        [.elem 3 "a" { classes := ["self-link"] } [],
         .elem 4 "span" { classes := ["marker", "dfn-exported"] }
           [.elem 5 "dfn" { id := some "dfn-b", classes := ["export"] } []]]],
     .elem 6 "div" { id := some "dfn-panel-for-b", classes := ["dfn-panel"] }
       [.elem 7 "div" {} [.elem 8 "a" { classes := ["self-link"] } []]]]

/-- Backup path of lines 93: `p.with_suffix(p.suffix + '.bak')`.  Whether the
final component has a suffix (replace `s` by `s + '.bak'`) or not (append
`'.bak'`), the result is the original path with `.bak` appended. -/
def bakPath (p : String) : String := p ++ ".bak"

/-- The observable effects of one `process_file` call: file writes in the
order performed, and printed lines. -/
structure FileRun where
  writes : List (String × String)
  stdout : List String
  deriving Repr, DecidableEq

/-- Lines 23-96, `process_file(p)`, given the raw bytes `html` of the file,
its parse `doc` (the parser is an external collaborator, so the pair
`(html, doc)` stands for `BeautifulSoup(html, 'html.parser')`), and the
external serializer `serialize` standing for `str(soup)`.  On success the
writes are, in order: the backup with the original bytes (line 94), then the
original path with the serialized edited document (line 95). -/
def process_file (serialize : Node → String) (fname html : String) (doc : Node) :
    Except PyErr FileRun :=
  match transformDoc fname doc with
  | .error e => .error e
  | .ok out =>
    .ok { writes := [(bakPath fname, html), (fname, serialize out)]
          stdout := ["Processed " ++ fname ++ " -> backup " ++ bakPath fname] }

/-- Reasons a file's processing can abort the run: the rewriter's own error,
or a failure of the filesystem/parsing layer (file unreadable, unparseable). -/
inductive RunErr : Type where
  | pyErr (e : PyErr)
  | ioOrParse
  deriving Repr, DecidableEq

/-- The usage line printed on line 101. -/
def usageMsg : String := "Usage: rewrite_permalinks.py file1.html [file2.html ...]"

/-- Outcome of a whole CLI invocation. -/
inductive CliRun : Type where
  | usageExit (msg : String)
  | completed (runs : List (String × FileRun))
  | aborted (runs : List (String × FileRun)) (failedFile : String) (e : RunErr)
  deriving Repr, DecidableEq

/-- The exit status of the Python process for each outcome: `sys.exit(2)` on
usage error, 0 on success, 1 for an uncaught propagating exception. -/
def CliRun.exitCode : CliRun → Nat
  | .usageExit _ => 2
  | .completed _ => 0
  | .aborted _ _ _ => 1

/-- Lines 103-104: process the files in argument order; the first failure
propagates and ends the run.  `fs` models the filesystem + parser: for a
path, the raw bytes and their parse, or `none` when reading/parsing fails. -/
def runFiles (serialize : Node → String) (fs : String → Option (String × Node)) :
    List String → List (String × FileRun) × Option (String × RunErr)
  | [] => ([], none)
  | f :: rest =>
    match fs f with
    | none => ([], some (f, .ioOrParse))
    | some (html, doc) =>
      match process_file serialize f html doc with
      | .error e => ([], some (f, .pyErr e))
      | .ok r =>
        let (rs, err) := runFiles serialize fs rest
        ((f, r) :: rs, err)

/-- Lines 99-104, the `__main__` block. `files` is `sys.argv[1:]`. -/
def mainRun (serialize : Node → String) (fs : String → Option (String × Node))
    (files : List String) : CliRun :=
  if files.isEmpty then .usageExit usageMsg
  else
    match runFiles serialize fs files with
    | (rs, none) => .completed rs
    | (rs, some (f, e)) => .aborted rs f e

/-! ## Basic lemmas about the tree model -/

instance {e a : Type} [DecidableEq e] [DecidableEq a] : DecidableEq (Except e a) :=
  fun x y =>
  match x, y with
  | .ok v, .ok w =>
    if h : v = w then .isTrue (by rw [h]) else .isFalse (by simp [h])
  | .error v, .error w =>
    if h : v = w then .isTrue (by rw [h])
    else .isFalse fun he => h (by injection he)
  | .ok _, .error _ => .isFalse (by simp)
  | .error _, .ok _ => .isFalse (by simp)

@[simp] theorem Node.descendants_text (s : String) :
    (Node.text s).descendants = [] := rfl

@[simp] theorem Node.descendants_elem (u : Nat) (t : String) (a : Attrs) (cs : List Node) :
    (Node.elem u t a cs).descendants = Node.preL cs := rfl

/-- Uids of the subtrees of a list of siblings. -/
def Node.uidsL (cs : List Node) : List Nat :=
  (Node.preL cs).filterMap Node.uid?

/-- Lookup among siblings. -/
def findByUidL (u : Nat) (cs : List Node) : Option Node :=
  (Node.preL cs).find? fun n => n.uid? == some u

/-- The view of a node: everything except an element's child list.  All the
finder predicates of the script factor through the view, and the per-panel
edits preserve the views of all nodes other than the edited one, which makes
preorder lists of views the right level for reasoning about `find`. -/
inductive View : Type where
  | vtext (s : String)
  | velem (u : Nat) (tag : String) (a : Attrs)
  deriving Repr, DecidableEq

/-- View of a node. -/
def Node.view : Node → View
  | .text s => .vtext s
  | .elem u t a _ => .velem u t a

/-- Preorder view list of a subtree. -/
def Node.preV (t : Node) : List View := t.pre.map Node.view

/-- Preorder view list of a sibling list. -/
def Node.preVL (cs : List Node) : List View := (Node.preL cs).map Node.view

/-- View list of the descendants (the `find` search space). -/
def Node.descV (t : Node) : List View := t.descendants.map Node.view

/-- Uid of a view. -/
def View.uid? : View → Option Nat
  | .vtext _ => none
  | .velem u _ _ => some u

/-! ## Counting helpers used by several claims -/

/-- Number of exported-marker elements inside a node's subtree. -/
def markerCount (t : Node) : Nat := (t.descendants.filter Node.isMarker).length

/-- Number of permalink anchors inside a node's subtree. -/
def selfLinkCount (t : Node) : Nat := (t.descendants.filter Node.isSelfLink).length

/-- The identifier attribute values present on `dfn` elements, in the words
of the specification (including an empty `id=""`, which bs4's truthiness
filter drops from the index). -/
def dfnIdValuesPresent (root : Node) : List String :=
  root.descendants.filterMap fun n =>
    match n with
    | .elem _ tg a _ => if tg == "dfn" then a.id else none
    | _ => none

/-! ## Counterexample documents -/

/-- Counterexample document for C1: a matched panel holding two stale
exported markers and no backing `dfn`; the first run removes only one
marker, the second run removes the other. -/
def c1cxDoc : Node :=
  .elem 0 "[document]" {}
    [.elem 1 "div" { id := some "dfn-panel-for-x", classes := ["dfn-panel"] }
      [.elem 2 "div" {}
        [.elem 3 "a" { classes := ["self-link"] } [],
         .elem 4 "span" { classes := ["marker", "dfn-exported"] } [],
         .elem 5 "span" { classes := ["marker", "dfn-exported"] } []]]]

/-- Counterexample document for C2: a matched panel with two exported
markers whose definition does not resolve. -/
def c2cxDoc : Node :=
  .elem 0 "[document]" {}
    [.elem 1 "div" { id := some "dfn-panel-for-x", classes := ["dfn-panel"] }
      [.elem 2 "div" {} [.elem 3 "a" { classes := ["self-link"] } []],
       .elem 4 "span" { classes := ["marker", "dfn-exported"] } [],
       .elem 5 "span" { classes := ["marker", "dfn-exported"] } []]]

/-- Counterexample document for C3: a matched panel holding two permalink
anchors. -/
def c3cxDoc : Node :=
  .elem 0 "[document]" {}
    [.elem 1 "div" { id := some "dfn-panel-for-x", classes := ["dfn-panel"] }
      [.elem 2 "a" { classes := ["self-link"] } [],
       .elem 3 "a" { classes := ["self-link"] } []]]

/-- Counterexample document for C4: an unmatched panel nested inside a
matched panel as its first `div` descendant; the matched panel's missing
anchor is created inside the unmatched panel. -/
def c4cxDoc : Node :=
  .elem 0 "[document]" {}
    [.elem 1 "div" { id := some "dfn-panel-for-x", classes := ["dfn-panel"] }
      [.elem 2 "div" { id := some "random-widget", classes := ["dfn-panel"] } []]]

/-- Counterexample document for C6: exported definition, matched panel whose
anchor is the last child of the inner container, and panel content after the
inner container. -/
def c6cxDoc : Node :=
  .elem 0 "[document]" {}
    [.elem 1 "dfn" { id := some "dfn-x", classes := ["export"] } [],
     .elem 2 "div" { id := some "dfn-panel-for-x", classes := ["dfn-panel"] }
      [.elem 3 "div" {} [.elem 4 "a" { classes := ["self-link"] } []],
       .elem 5 "p" {} [.text "tail"]]]

/-- Counterexample document for C7: a matched panel with neither a permalink
anchor nor any `div` descendant (`panel.div` is `None`). -/
def c7cxDoc : Node :=
  .elem 0 "[document]" {}
    [.elem 1 "div" { id := some "dfn-panel-for-x", classes := ["dfn-panel"] } []]

/-- Counterexample document for C8: a `dfn` carrying the identifier
attribute value `""`, which bs4 truthiness drops from the index. -/
def c8cxDoc : Node :=
  .elem 0 "[document]" {} [.elem 1 "dfn" { id := some "" } []]

/-- Counterexample document for C10: a matched, non-exported panel whose two
markers both sit inside the permalink anchor, whose contents the permalink
step replaces. -/
def c10cxDoc : Node :=
  .elem 0 "[document]" {}
    [.elem 1 "div" { id := some "dfn-panel-for-x", classes := ["dfn-panel"] }
      [.elem 2 "div" {}
        [.elem 3 "a" { classes := ["self-link"] }
          [.elem 4 "span" { classes := ["marker", "dfn-exported"] } [],
           .elem 5 "span" { classes := ["marker", "dfn-exported"] } []]]]]

/-! ## View-level predicates and transfer lemmas -/

/-- View-level form of `Node.isSelfLink`. -/
def View.isSelfLinkV : View → Bool
  | .velem _ t a => t == "a" && classMatch "self-link" a.classes
  | _ => false

/-- View-level form of `Node.isMarker`. -/
def View.isMarkerV : View → Bool
  | .velem _ t a => t == "span" && classMatch "marker dfn-exported" a.classes
  | _ => false

/-- View-level form of `Node.isDiv`. -/
def View.isDivV : View → Bool
  | .velem _ t _ => t == "div"
  | _ => false

/-- View-level form of `Node.isPanel`. -/
def View.isPanelV : View → Bool
  | .velem _ t a => t == "div" && classMatch "dfn-panel" a.classes
  | _ => false

/-- View-level form of `Node.isDfnWithId`. -/
def View.isDfnWithIdV : View → Bool
  | .velem _ t a => t == "dfn" && (a.id.getD "") != ""
  | _ => false

/-- Marker count of a view list. -/
def markerCountV (vs : List View) : Nat := (vs.filter View.isMarkerV).length

/-- Permalink-anchor count of a view list. -/
def selfLinkCountV (vs : List View) : Nat := (vs.filter View.isSelfLinkV).length

/-- Uids of the subtree hanging at identity `u` (empty if absent). -/
def subtreeUids (u : Nat) (t : Node) : List Nat :=
  ((findByUid u t).map Node.uids).getD []

/-! ## Cleanliness of markers and the permalink-anchor invariant -/

/-- No exported marker in the tree hides a permalink anchor, an inner
container, or another marker in its subtree.  Real panel markup satisfies
this: a marker only contains the text `exported`. -/
def markersClean (t : Node) : Bool :=
  (t.pre.filter Node.isMarker).all fun mk =>
    mk.descendants.all fun x => !x.isSelfLink && !x.isDiv && !x.isMarker

/-- Propositional form of `markersClean`. -/
def MCl (t : Node) : Prop :=
  ∀ mk ∈ t.pre, mk.isMarker = true →
    ∀ x ∈ mk.descendants,
      x.isSelfLink = false ∧ x.isDiv = false ∧ x.isMarker = false

/-- No permalink anchor in the tree hides an exported marker in its
subtree. -/
def selfLinksClean (t : Node) : Bool :=
  (t.pre.filter Node.isSelfLink).all fun a =>
    a.descendants.all fun x => !x.isMarker

/-- Structural condition under which the per-panel loop body cannot raise:
a matched panel must have an inner `div`, and no inner `div` may hide
inside a permalink anchor (where the anchor rewrite would destroy it).
Unmatched panels are always safe — they are skipped. -/
def panelSafe (panel : Node) : Bool :=
  match panelSuffix (panel.attrsD.id.getD "") with
  | none => true
  | some _ =>
    panel.descendants.any Node.isDiv &&
    ((panel.pre.filter Node.isSelfLink).all fun a =>
      a.descendants.all fun x => !x.isDiv)

/-- Every panel of the `panels` list is safe. -/
def panelsSafe (root : Node) : Bool :=
  (root.descendants.filter Node.isPanel).all panelSafe

/-! ## C1: the transform is idempotent on tidy documents -/

def View.attrsVD : View → Attrs
  | .vtext _ => {}
  | .velem _ _ a => a

/-- View-level `dfn_map` pairs. -/
def dfnPairsV (vs : List View) : List (String × View) :=
  (vs.filter View.isDfnWithIdV).map fun v => ((View.attrsVD v).id.getD "", v)

/-- View-level `dfn_map` lookup. -/
def dfnLookupV (vs : List View) (k : String) : Option View :=
  ((dfnPairsV vs).reverse.find? fun p => p.1 == k).map Prod.snd

/-- View-level export status. -/
def exportStatusV : Option View → Bool
  | some v => (View.attrsVD v).classes.contains "export" ||
      (View.attrsVD v).dataExport
  | none => false

/-- A tidy panel list: every panel carries at most one marker and at most
one permalink anchor, its markers are clean, and no panel hides another
panel or a definition element in its subtree. -/
def panelsTidy (root : Node) : Bool :=
  (root.descendants.filter Node.isPanel).all fun p =>
    decide (markerCount p ≤ 1) && decide (selfLinkCount p ≤ 1) &&
    markersClean p &&
    p.descendants.all fun x => !x.isPanel && !x.isDfnWithId

/-! ## Concrete witness documents -/

/-- A document holding an exported `dfn`, a non-exported `dfn`, a matched
panel with an existing self-link anchor, a matched panel with an existing
marker, and a mismatched panel. -/
def wDoc : Node :=
  .elem 0 "[document]" {}
    [.elem 1 "dfn" { id := some "dfn-a", classes := ["export"] } [],
     .elem 2 "dfn" { id := some "dfn-b" } [],
     .elem 3 "div" { id := some "dfn-panel-for-dfn-a", classes := ["dfn-panel"] }
       [.elem 4 "div" {}
         [.elem 5 "a" { classes := ["self-link"] } [], .text "x"]],
     .elem 6 "div" { id := some "dfn-panel-for-dfn-b", classes := ["dfn-panel"] }
       [.elem 7 "div" {}
         [.elem 8 "span" { classes := ["marker", "dfn-exported"] } [.text "exported"]]],
     .elem 9 "div" { id := some "random", classes := ["dfn-panel"] }
       [.text "keep"]]

/-- The result of transforming `wDoc`. -/
def wOut : Node := (transformDoc "Overview.html" wDoc).toOption.getD (Node.text "")

/-- The matched panel of `wDoc` whose `dfn` is exported. -/
def wPanelA : Node := (findByUid 3 wDoc).getD (Node.text "")

/-- The matched panel of `wDoc` whose `dfn` is not exported. -/
def wPanelB : Node := (findByUid 6 wDoc).getD (Node.text "")

/-- The mismatched panel of `wDoc`. -/
def wPanelC : Node := (findByUid 9 wDoc).getD (Node.text "")

/-- A document whose only panel has no backing `dfn` and already carries two
markers next to its self-link anchor. -/
def w10Doc : Node :=
  .elem 0 "[document]" {}
    [.elem 1 "div" { id := some "dfn-panel-for-x", classes := ["dfn-panel"] }
      [.elem 2 "div" {}
        [.elem 3 "a" { classes := ["self-link"] } [],
         .elem 4 "span" { classes := ["marker", "dfn-exported"] } [.text "exported"],
         .elem 5 "span" { classes := ["marker", "dfn-exported"] } [.text "exported"]]]]

/-- The result of transforming `w10Doc`. -/
def w10Out : Node := (transformDoc "Overview.html" w10Doc).toOption.getD (Node.text "")

/-- The doubly-marked panel of `w10Doc`. -/
def w10Panel : Node := (findByUid 1 w10Doc).getD (Node.text "")

/-- Induction over nodes through the nested `List Node` field. -/
theorem Node.ind {P : Node → Prop} {Q : List Node → Prop}
    (ht : ∀ s, P (.text s))
    (he : ∀ u t a cs, Q cs → P (.elem u t a cs))
    (hn : Q [])
    (hc : ∀ c cs, P c → Q cs → Q (c :: cs)) :
    ∀ n, P n :=
  fun n => Node.rec ht he hn hc n

/-- List form of `Node.ind`. -/
theorem Node.indL {P : Node → Prop} {Q : List Node → Prop}
    (ht : ∀ s, P (.text s))
    (he : ∀ u t a cs, Q cs → P (.elem u t a cs))
    (hn : Q [])
    (hc : ∀ c cs, P c → Q cs → Q (c :: cs)) :
    ∀ l, Q l := by
  intro l
  induction l with
  | nil => exact hn
  | cons c cs ih => exact hc c cs (Node.ind ht he hn hc c) ih

@[simp] theorem Node.pre_text (s : String) : (Node.text s).pre = [.text s] := rfl

@[simp] theorem Node.pre_elem (u : Nat) (t : String) (a : Attrs) (cs : List Node) :
    (Node.elem u t a cs).pre = .elem u t a cs :: Node.preL cs := rfl

@[simp] theorem Node.preL_nil : Node.preL [] = [] := rfl

@[simp] theorem Node.preL_cons (c : Node) (cs : List Node) :
    Node.preL (c :: cs) = c.pre ++ Node.preL cs := rfl

theorem Node.preL_append (xs ys : List Node) :
    Node.preL (xs ++ ys) = Node.preL xs ++ Node.preL ys := by
  induction xs with
  | nil => simp
  | cons c cs ih => simp [ih]

theorem Node.pre_eq_cons (t : Node) : t.pre = t :: t.descendants := by
  cases t <;> rfl

@[simp] theorem Node.uids_text (s : String) : (Node.text s).uids = [] := rfl

@[simp] theorem Node.uids_elem (u : Nat) (t : String) (a : Attrs) (cs : List Node) :
    (Node.elem u t a cs).uids = u :: Node.uidsL cs := rfl

@[simp] theorem Node.uidsL_nil : Node.uidsL [] = [] := rfl

@[simp] theorem Node.uidsL_cons (c : Node) (cs : List Node) :
    Node.uidsL (c :: cs) = c.uids ++ Node.uidsL cs := by
  simp [Node.uidsL, Node.uids, List.filterMap_append]

theorem Node.uidsL_append (xs ys : List Node) :
    Node.uidsL (xs ++ ys) = Node.uidsL xs ++ Node.uidsL ys := by
  simp [Node.uidsL, Node.preL_append, List.filterMap_append]

@[simp] theorem findByUid_text (u : Nat) (s : String) :
    findByUid u (.text s) = none := by
  simp [findByUid, Node.uid?]

theorem findByUid_elem (u w : Nat) (t : String) (a : Attrs) (cs : List Node) :
    findByUid u (.elem w t a cs) =
      if w = u then some (.elem w t a cs) else findByUidL u cs := by
  unfold findByUid
  rw [Node.pre_elem]
  by_cases h : w = u
  · rw [List.find?_cons_of_pos _ (by simp [Node.uid?, h]), if_pos h]
  · rw [List.find?_cons_of_neg _ (by simp [Node.uid?, h]), if_neg h]
    rfl

@[simp] theorem findByUidL_nil (u : Nat) : findByUidL u [] = none := rfl

theorem findByUidL_cons (u : Nat) (c : Node) (cs : List Node) :
    findByUidL u (c :: cs) = (findByUid u c).or (findByUidL u cs) := by
  simp [findByUidL, findByUid, List.find?_append]

@[simp] theorem Node.view_uid (n : Node) : n.view.uid? = n.uid? := by
  cases n <;> rfl

@[simp] theorem Node.preV_text (s : String) : (Node.text s).preV = [.vtext s] := rfl

theorem Node.preV_elem (u : Nat) (t : String) (a : Attrs) (cs : List Node) :
    (Node.elem u t a cs).preV = .velem u t a :: Node.preVL cs := rfl

@[simp] theorem Node.preVL_nil : Node.preVL [] = [] := rfl

@[simp] theorem Node.preVL_cons (c : Node) (cs : List Node) :
    Node.preVL (c :: cs) = c.preV ++ Node.preVL cs := by
  simp [Node.preVL, Node.preV]

theorem Node.preV_eq_cons (t : Node) : t.preV = t.view :: t.descV := by
  cases t <;> rfl

theorem View.uid_comp_view : View.uid? ∘ Node.view = Node.uid? := by
  funext n; cases n <;> rfl

theorem Node.uids_eq_preV (t : Node) : t.uids = t.preV.filterMap View.uid? := by
  simp [Node.uids, Node.preV, List.filterMap_map, View.uid_comp_view]

theorem Node.uidsL_eq_preVL (cs : List Node) :
    Node.uidsL cs = (Node.preVL cs).filterMap View.uid? := by
  simp [Node.uidsL, Node.preVL, List.filterMap_map, View.uid_comp_view]

theorem findByUid_eq_preV (u : Nat) (t : Node) :
    (findByUid u t).map Node.view = t.preV.find? fun v => v.uid? == some u := by
  have hc : ((fun v : View => v.uid? == some u) ∘ Node.view) =
      fun n : Node => n.uid? == some u := by
    funext n; cases n <;> rfl
  simp [findByUid, Node.preV, List.find?_map, hc]

theorem mem_uids_iff_findByUid (u : Nat) (t : Node) :
    u ∈ t.uids ↔ (findByUid u t).isSome := by
  simp only [Node.uids, List.mem_filterMap, findByUid, List.find?_isSome]
  constructor
  · rintro ⟨n, hn, hu⟩; exact ⟨n, hn, by simp [hu]⟩
  · rintro ⟨n, hn, hu⟩; exact ⟨n, hn, by simpa using hu⟩

theorem findByUid_eq_none (u : Nat) (t : Node) (h : u ∉ t.uids) :
    findByUid u t = none := by
  rw [mem_uids_iff_findByUid] at h
  cases hf : findByUid u t with
  | none => rfl
  | some n => rw [hf] at h; simp at h

theorem mem_uidsL_iff_findByUidL (u : Nat) (cs : List Node) :
    u ∈ Node.uidsL cs ↔ (findByUidL u cs).isSome := by
  simp only [Node.uidsL, List.mem_filterMap, findByUidL, List.find?_isSome]
  constructor
  · rintro ⟨n, hn, hu⟩; exact ⟨n, hn, by simp [hu]⟩
  · rintro ⟨n, hn, hu⟩; exact ⟨n, hn, by simpa using hu⟩

theorem findByUid_mem_uids (u : Nat) (t : Node) (n : Node)
    (h : findByUid u t = some n) : u ∈ t.uids := by
  rw [mem_uids_iff_findByUid, h]; rfl

theorem findByUid_spec (u : Nat) (t : Node) (n : Node)
    (h : findByUid u t = some n) : n ∈ t.pre ∧ n.uid? = some u := by
  refine ⟨List.mem_of_find?_eq_some h, ?_⟩
  have := List.find?_some h
  simpa using this

/-- A node whose subtree does not contain `u` is untouched by `updateByUid`. -/
theorem updateByUid_of_notMem (u : Nat) (f : Node → Node) :
    ∀ t : Node, u ∉ t.uids → updateByUid u f t = t := by
  refine Node.ind (Q := fun cs => u ∉ Node.uidsL cs → updateByUidL u f cs = cs)
    ?_ ?_ ?_ ?_
  · intro _ _; rfl
  · intro w tg a cs ih h
    simp only [Node.uids_elem, List.mem_cons] at h
    push_neg at h
    simp [updateByUid, Ne.symm h.1, ih h.2]
  · intro _; rfl
  · intro c cs ihc ihcs h
    simp only [Node.uidsL_cons, List.mem_append] at h
    push_neg at h
    simp [updateByUidL, ihc h.1, ihcs h.2]

/-- List form of `updateByUid_of_notMem`. -/
theorem updateByUidL_of_notMem (u : Nat) (f : Node → Node) :
    ∀ cs : List Node, u ∉ Node.uidsL cs → updateByUidL u f cs = cs := by
  intro cs
  induction cs with
  | nil => intro _; rfl
  | cons c cs ih =>
    intro h
    simp only [Node.uidsL_cons, List.mem_append] at h
    push_neg at h
    simp [updateByUidL, updateByUid_of_notMem u f c h.1, ih h.2]

theorem Node.uid_mem_uids (c : Node) (u : Nat) (h : c.uid? = some u) :
    u ∈ c.uids := by
  cases c with
  | text s => simp [Node.uid?] at h
  | elem w tg a cs =>
    simp only [Node.uid?, Option.some.injEq] at h
    simp [h]

/-- A sibling list without `u` is untouched by `insertAfterUidL`. -/
theorem insertAfterUidL_of_notMem (u : Nat) (m : Node) :
    ∀ cs : List Node, u ∉ Node.uidsL cs → insertAfterUidL u m cs = cs := by
  have main : ∀ t : Node, u ∉ t.uids → insertAfterUid u m t = t := by
    refine Node.ind (Q := fun cs => u ∉ Node.uidsL cs → insertAfterUidL u m cs = cs)
      ?_ ?_ ?_ ?_
    · intro _ _; rfl
    · intro w tg a cs ih h
      simp only [Node.uids_elem, List.mem_cons] at h
      push_neg at h
      simp [insertAfterUid, ih h.2]
    · intro _; rfl
    · intro c cs ihc ihcs h
      simp only [Node.uidsL_cons, List.mem_append] at h
      push_neg at h
      have hcu : ¬c.uid? = some u := fun hc => h.1 (Node.uid_mem_uids c u hc)
      simp [insertAfterUidL, hcu, ihc h.1, ihcs h.2]
  intro cs
  induction cs with
  | nil => intro _; rfl
  | cons c cs ih =>
    intro h
    simp only [Node.uidsL_cons, List.mem_append] at h
    push_neg at h
    have hcu : ¬c.uid? = some u := fun hc => h.1 (Node.uid_mem_uids c u hc)
    simp [insertAfterUidL, hcu, main c h.1, ih h.2]

/-- A node whose subtree does not contain `u` is untouched by `insertAfterUid`. -/
theorem insertAfterUid_of_notMem (u : Nat) (m : Node) (t : Node)
    (h : u ∉ t.uids) : insertAfterUid u m t = t := by
  cases t with
  | text s => rfl
  | elem w tg a cs =>
    simp only [Node.uids_elem, List.mem_cons] at h
    push_neg at h
    simp [insertAfterUid, insertAfterUidL_of_notMem u m cs h.2]

/-- A sibling list without `u` is untouched by `removeByUidL`. -/
theorem removeByUidL_of_notMem (u : Nat) :
    ∀ cs : List Node, u ∉ Node.uidsL cs → removeByUidL u cs = cs := by
  have main : ∀ t : Node, u ∉ t.uids → removeByUid u t = t := by
    refine Node.ind (Q := fun cs => u ∉ Node.uidsL cs → removeByUidL u cs = cs)
      ?_ ?_ ?_ ?_
    · intro _ _; rfl
    · intro w tg a cs ih h
      simp only [Node.uids_elem, List.mem_cons] at h
      push_neg at h
      simp [removeByUid, ih h.2]
    · intro _; rfl
    · intro c cs ihc ihcs h
      simp only [Node.uidsL_cons, List.mem_append] at h
      push_neg at h
      have hcu : ¬c.uid? = some u := fun hc => h.1 (Node.uid_mem_uids c u hc)
      simp [removeByUidL, hcu, ihc h.1, ihcs h.2]
  intro cs
  induction cs with
  | nil => intro _; rfl
  | cons c cs ih =>
    intro h
    simp only [Node.uidsL_cons, List.mem_append] at h
    push_neg at h
    have hcu : ¬c.uid? = some u := fun hc => h.1 (Node.uid_mem_uids c u hc)
    simp [removeByUidL, hcu, main c h.1, ih h.2]

/-- A node whose subtree does not contain `u` is untouched by `removeByUid`. -/
theorem removeByUid_of_notMem (u : Nat) (t : Node)
    (h : u ∉ t.uids) : removeByUid u t = t := by
  cases t with
  | text s => rfl
  | elem w tg a cs =>
    simp only [Node.uids_elem, List.mem_cons] at h
    push_neg at h
    simp [removeByUid, removeByUidL_of_notMem u cs h.2]

/-- Segment decomposition for in-place update: on a tree with unique uids,
rewriting the subtree at `u` rewrites exactly that segment of the preorder
view list, leaving the surrounding views unchanged. -/
theorem segment_updateByUid (u : Nat) (f : Node → Node) :
    ∀ t : Node, ∀ n, findByUid u t = some n → t.uids.Nodup →
    ∃ A B, t.preV = A ++ n.preV ++ B ∧
           (updateByUid u f t).preV = A ++ (f n).preV ++ B := by
  refine Node.ind
    (Q := fun cs => ∀ n, findByUidL u cs = some n → (Node.uidsL cs).Nodup →
      ∃ A B, Node.preVL cs = A ++ n.preV ++ B ∧
             Node.preVL (updateByUidL u f cs) = A ++ (f n).preV ++ B) ?_ ?_ ?_ ?_
  · intro s n h
    simp at h
  · intro w tg a cs ih n h hnd
    rw [findByUid_elem] at h
    by_cases hw : w = u
    · rw [if_pos hw, Option.some.injEq] at h
      subst h
      refine ⟨[], [], by simp, ?_⟩
      simp [updateByUid, hw]
    · rw [if_neg hw] at h
      have hnd' : (Node.uidsL cs).Nodup := by
        simpa using (List.nodup_cons.mp (by simpa using hnd)).2
      obtain ⟨A, B, h1, h2⟩ := ih n h hnd'
      refine ⟨.velem w tg a :: A, B, ?_, ?_⟩
      · simp [Node.preV_elem, h1]
      · simp [updateByUid, hw, Node.preV_elem, h2]
  · intro n h
    simp at h
  · intro c cs ihc ihcs n h hnd
    rw [findByUidL_cons] at h
    have hnd' := List.nodup_append.mp (by simpa using hnd)
    cases hc : findByUid u c with
    | some p =>
      rw [hc, Option.or_some, Option.some.injEq] at h
      obtain ⟨A, B, h1, h2⟩ := ihc p hc hnd'.1
      have hu : u ∈ c.uids := findByUid_mem_uids u c p hc
      have hcs : u ∉ Node.uidsL cs := fun hm => hnd'.2.2 hu hm
      subst h
      refine ⟨A, B ++ Node.preVL cs, ?_, ?_⟩
      · simp [h1]
      · simp [updateByUidL, h2, updateByUidL_of_notMem u f cs hcs]
    | none =>
      rw [hc, Option.none_or] at h
      have hcu : u ∉ c.uids := by
        rw [mem_uids_iff_findByUid, hc]
        simp
      obtain ⟨A, B, h1, h2⟩ := ihcs n h hnd'.2.1
      refine ⟨c.preV ++ A, B, ?_, ?_⟩
      · simp [h1]
      · simp [updateByUidL, updateByUid_of_notMem u f c hcu, h2]

/-- Segment decomposition for `insert_after`: the inserted node's views land
directly after the segment of the node at `u`. -/
theorem segment_insertAfterUid (u : Nat) (m : Node) :
    ∀ t : Node, ∀ n, findByUid u t = some n → t.uids.Nodup → t.uid? ≠ some u →
    ∃ A B, t.preV = A ++ n.preV ++ B ∧
           (insertAfterUid u m t).preV = A ++ n.preV ++ m.preV ++ B := by
  refine Node.ind
    (Q := fun cs => ∀ n, findByUidL u cs = some n → (Node.uidsL cs).Nodup →
      ∃ A B, Node.preVL cs = A ++ n.preV ++ B ∧
             Node.preVL (insertAfterUidL u m cs) = A ++ n.preV ++ m.preV ++ B) ?_ ?_ ?_ ?_
  · intro s n h
    simp at h
  · intro w tg a cs ih n h hnd hr
    rw [findByUid_elem] at h
    have hw : w ≠ u := by
      intro hwu
      exact hr (by simp [Node.uid?, hwu])
    rw [if_neg hw] at h
    have hnd' : (Node.uidsL cs).Nodup := by
      simpa using (List.nodup_cons.mp (by simpa using hnd)).2
    obtain ⟨A, B, h1, h2⟩ := ih n h hnd'
    refine ⟨.velem w tg a :: A, B, ?_, ?_⟩
    · simp [Node.preV_elem, h1]
    · simp [insertAfterUid, Node.preV_elem, h2]
  · intro n h
    simp at h
  · intro c cs ihc ihcs n h hnd
    rw [findByUidL_cons] at h
    have hnd' := List.nodup_append.mp (by simpa using hnd)
    cases hc : findByUid u c with
    | some p =>
      rw [hc, Option.or_some, Option.some.injEq] at h
      have hu : u ∈ c.uids := findByUid_mem_uids u c p hc
      have hcs : u ∉ Node.uidsL cs := fun hm => hnd'.2.2 hu hm
      by_cases hcu : c.uid? = some u
      · -- the head sibling is the node itself: insert right after it
        have hpc : p = c := by
          cases c with
          | text s => simp [Node.uid?] at hcu
          | elem w tg a cs' =>
            rw [findByUid_elem] at hc
            simp only [Node.uid?, Option.some.injEq] at hcu
            rw [if_pos hcu] at hc
            exact (Option.some.injEq _ _ ▸ hc.symm)
        subst h
        subst hpc
        refine ⟨[], Node.preVL cs, ?_, ?_⟩
        · simp
        · simp [insertAfterUidL, hcu, insertAfterUidL_of_notMem u m cs hcs]
      · obtain ⟨A, B, h1, h2⟩ := ihc p hc hnd'.1 hcu
        subst h
        refine ⟨A, B ++ Node.preVL cs, ?_, ?_⟩
        · simp [h1]
        · simp [insertAfterUidL, hcu, h2, insertAfterUidL_of_notMem u m cs hcs]
    | none =>
      rw [hc, Option.none_or] at h
      have hcu : u ∉ c.uids := by
        rw [mem_uids_iff_findByUid, hc]
        simp
      have hcu' : ¬c.uid? = some u := fun hh => hcu (Node.uid_mem_uids c u hh)
      obtain ⟨A, B, h1, h2⟩ := ihcs n h hnd'.2.1
      refine ⟨c.preV ++ A, B, ?_, ?_⟩
      · simp [h1]
      · simp [insertAfterUidL, hcu', insertAfterUid_of_notMem u m c hcu, h2]

/-- Segment decomposition for `decompose`: removing the subtree at `u`
removes exactly that segment of the preorder view list. -/
theorem segment_removeByUid (u : Nat) :
    ∀ t : Node, ∀ n, findByUid u t = some n → t.uids.Nodup → t.uid? ≠ some u →
    ∃ A B, t.preV = A ++ n.preV ++ B ∧
           (removeByUid u t).preV = A ++ B := by
  refine Node.ind
    (Q := fun cs => ∀ n, findByUidL u cs = some n → (Node.uidsL cs).Nodup →
      ∃ A B, Node.preVL cs = A ++ n.preV ++ B ∧
             Node.preVL (removeByUidL u cs) = A ++ B) ?_ ?_ ?_ ?_
  · intro s n h
    simp at h
  · intro w tg a cs ih n h hnd hr
    rw [findByUid_elem] at h
    have hw : w ≠ u := by
      intro hwu
      exact hr (by simp [Node.uid?, hwu])
    rw [if_neg hw] at h
    have hnd' : (Node.uidsL cs).Nodup := by
      simpa using (List.nodup_cons.mp (by simpa using hnd)).2
    obtain ⟨A, B, h1, h2⟩ := ih n h hnd'
    refine ⟨.velem w tg a :: A, B, ?_, ?_⟩
    · simp [Node.preV_elem, h1]
    · simp [removeByUid, Node.preV_elem, h2]
  · intro n h
    simp at h
  · intro c cs ihc ihcs n h hnd
    rw [findByUidL_cons] at h
    have hnd' := List.nodup_append.mp (by simpa using hnd)
    cases hc : findByUid u c with
    | some p =>
      rw [hc, Option.or_some, Option.some.injEq] at h
      have hu : u ∈ c.uids := findByUid_mem_uids u c p hc
      have hcs : u ∉ Node.uidsL cs := fun hm => hnd'.2.2 hu hm
      by_cases hcu : c.uid? = some u
      · have hpc : p = c := by
          cases c with
          | text s => simp [Node.uid?] at hcu
          | elem w tg a cs' =>
            rw [findByUid_elem] at hc
            simp only [Node.uid?, Option.some.injEq] at hcu
            rw [if_pos hcu] at hc
            exact (Option.some.injEq _ _ ▸ hc.symm)
        subst h
        subst hpc
        refine ⟨[], Node.preVL cs, ?_, ?_⟩
        · simp
        · simp [removeByUidL, hcu, removeByUidL_of_notMem u cs hcs]
      · obtain ⟨A, B, h1, h2⟩ := ihc p hc hnd'.1 hcu
        subst h
        refine ⟨A, B ++ Node.preVL cs, ?_, ?_⟩
        · simp [h1]
        · simp [removeByUidL, hcu, h2, removeByUidL_of_notMem u cs hcs]
    | none =>
      rw [hc, Option.none_or] at h
      have hcu : u ∉ c.uids := by
        rw [mem_uids_iff_findByUid, hc]
        simp
      have hcu' : ¬c.uid? = some u := fun hh => hcu (Node.uid_mem_uids c u hh)
      obtain ⟨A, B, h1, h2⟩ := ihcs n h hnd'.2.1
      refine ⟨c.preV ++ A, B, ?_, ?_⟩
      · simp [h1]
      · simp [removeByUidL, hcu', removeByUid_of_notMem u c hcu, h2]

/-! ## CLI driver: processing order and abort behaviour -/

theorem runFiles_completed_names (serialize : Node → String)
    (fs : String → Option (String × Node)) :
    ∀ files rs, runFiles serialize fs files = (rs, none) →
      rs.map Prod.fst = files := by
  intro files
  induction files with
  | nil =>
    intro rs h
    simp only [runFiles, Prod.mk.injEq] at h
    simp [← h.1]
  | cons g files ih =>
    intro rs h
    cases hg : fs g with
    | none => simp [runFiles, hg] at h
    | some pair =>
      obtain ⟨html, doc⟩ := pair
      cases hp : process_file serialize g html doc with
      | error e => simp [runFiles, hg, hp] at h
      | ok r =>
        rcases hrec : runFiles serialize fs files with ⟨rs1, err⟩
        cases err with
        | none =>
          simp only [runFiles, hg, hp, hrec, Prod.mk.injEq] at h
          rw [← h.1]
          simp [ih rs1 hrec]
        | some p =>
          simp only [runFiles, hg, hp, hrec, Prod.mk.injEq] at h
          exact absurd h.2 (by simp)

theorem runFiles_aborted_names (serialize : Node → String)
    (fs : String → Option (String × Node)) :
    ∀ files rs f e, runFiles serialize fs files = (rs, some (f, e)) →
      ∃ i, files[i]? = some f ∧ rs.map Prod.fst = files.take i := by
  intro files
  induction files with
  | nil =>
    intro rs f e h
    simp [runFiles] at h
  | cons g files ih =>
    intro rs f e h
    cases hg : fs g with
    | none =>
      simp only [runFiles, hg, Prod.mk.injEq, Option.some.injEq] at h
      obtain ⟨h1, h2, h3⟩ := h
      subst h2
      exact ⟨0, by simp, by simp [← h1]⟩
    | some pair =>
      obtain ⟨html, doc⟩ := pair
      cases hp : process_file serialize g html doc with
      | error e1 =>
        simp only [runFiles, hg, hp, Prod.mk.injEq, Option.some.injEq] at h
        obtain ⟨h1, h2, h3⟩ := h
        subst h2
        exact ⟨0, by simp, by simp [← h1]⟩
      | ok r =>
        rcases hrec : runFiles serialize fs files with ⟨rs1, err⟩
        cases err with
        | none =>
          simp only [runFiles, hg, hp, hrec, Prod.mk.injEq] at h
          exact absurd h.2 (by simp)
        | some p =>
          obtain ⟨f1, e1⟩ := p
          simp only [runFiles, hg, hp, hrec, Prod.mk.injEq, Option.some.injEq] at h
          obtain ⟨h1, h2, h3⟩ := h
          subst h2
          subst h1
          obtain ⟨i, hi, hnames⟩ := ih rs1 f1 e1 hrec
          exact ⟨i + 1, by simpa using hi, by simp [hnames]⟩

/-- C9.  Invoked with no file arguments, the program prints the usage message
and exits with code 2 without processing anything; otherwise the files are
processed strictly in argument order and the first failure terminates the
run: the processed files are exactly the argument-list entries before the
failing one, in order (so no later file is processed), and on a failure-free
run they are exactly the whole argument list in order. -/
theorem cli_usage_exit2_order_abort (serialize : Node → String)
    (fs : String → Option (String × Node)) (files : List String) :
    (files = [] → mainRun serialize fs files = .usageExit usageMsg ∧
      (mainRun serialize fs files).exitCode = 2) ∧
    (∀ rs f e, mainRun serialize fs files = .aborted rs f e →
      ∃ i, files[i]? = some f ∧ rs.map Prod.fst = files.take i) ∧
    (∀ rs, mainRun serialize fs files = .completed rs →
      rs.map Prod.fst = files) := by
  refine ⟨?_, ?_, ?_⟩
  · intro h
    subst h
    constructor <;> rfl
  · intro rs f e h
    unfold mainRun at h
    by_cases hf : files.isEmpty
    · rw [if_pos hf] at h
      cases h
    · rw [if_neg hf] at h
      rcases hrun : runFiles serialize fs files with ⟨rs1, err⟩
      rw [hrun] at h
      cases err with
      | none => cases h
      | some p =>
        obtain ⟨f1, e1⟩ := p
        cases h
        exact runFiles_aborted_names serialize fs files rs f e hrun
  · intro rs h
    unfold mainRun at h
    by_cases hf : files.isEmpty
    · rw [if_pos hf] at h
      cases h
    · rw [if_neg hf] at h
      rcases hrun : runFiles serialize fs files with ⟨rs1, err⟩
      rw [hrun] at h
      cases err with
      | none =>
        cases h
        exact runFiles_completed_names serialize fs files rs hrun
      | some p =>
        obtain ⟨f1, e1⟩ := p
        cases h

/-- Witness for C9 at concrete inputs: the empty invocation, and an aborting
two-file invocation where reading the first file fails. -/
theorem cli_usage_exit2_order_abort_witness :
    (mainRun (fun _ => "") (fun _ => none) [] = .usageExit usageMsg ∧
      (mainRun (fun _ => "") (fun _ => none) []).exitCode = 2) ∧
    (∃ i, (["a.html", "b.html"] : List String)[i]? = some "a.html" ∧
      ([] : List (String × FileRun)).map Prod.fst = ["a.html", "b.html"].take i) := by
  constructor
  · exact (cli_usage_exit2_order_abort (fun _ => "") (fun _ => none) []).1 rfl
  · exact (cli_usage_exit2_order_abort (fun _ => "") (fun _ => none)
      ["a.html", "b.html"]).2.1 [] "a.html" RunErr.ioOrParse (by decide)

/-! ## C5: backup fidelity -/

/-- C5.  Whenever `process_file` completes on an input file `<stem>.html`,
its writes are exactly: first the backup `<stem>.html.bak` holding the
original bytes unchanged, then — strictly afterwards — the original path
overwritten with the serialized edited document. -/
theorem process_file_backup_first (serialize : Node → String)
    (stem fname html : String) (doc : Node) (r : FileRun)
    (hname : fname = stem ++ ".html")
    (hok : process_file serialize fname html doc = .ok r) :
    ∃ i j : Nat, ∃ content, i < j ∧
      r.writes[i]? = some (stem ++ ".html.bak", html) ∧
      r.writes[j]? = some (fname, content) ∧
      (∃ out, transformDoc fname doc = Except.ok out ∧ content = serialize out) ∧
      r.writes.length = 2 := by
  unfold process_file at hok
  cases htr : transformDoc fname doc with
  | error e => rw [htr] at hok; cases hok
  | ok out =>
    rw [htr] at hok
    cases hok
    refine ⟨0, 1, serialize out, by decide, ?_, by simp, ⟨out, rfl, rfl⟩, by simp⟩
    have : bakPath fname = stem ++ ".html.bak" := by
      rw [hname, bakPath, String.append_assoc]
      rfl
    simp [this]

/-- Witness for C5 at a concrete input (empty document, constant serializer). -/
theorem process_file_backup_first_witness :
    ∃ i j : Nat, ∃ content, i < j ∧
      ({ writes := [("a.html.bak", "H"), ("a.html", "OUT")],
         stdout := ["Processed a.html -> backup a.html.bak"] : FileRun }).writes[i]? =
        some ("a" ++ ".html.bak", "H") ∧
      ({ writes := [("a.html.bak", "H"), ("a.html", "OUT")],
         stdout := ["Processed a.html -> backup a.html.bak"] : FileRun }).writes[j]? =
        some ("a.html", content) ∧
      (∃ out, transformDoc "a.html" (.elem 0 "[document]" {} []) = Except.ok out ∧
        content = (fun _ : Node => "OUT") out) ∧
      ({ writes := [("a.html.bak", "H"), ("a.html", "OUT")],
         stdout := ["Processed a.html -> backup a.html.bak"] : FileRun }).writes.length = 2 :=
  process_file_backup_first (fun _ => "OUT") "a" "a.html" "H"
    (.elem 0 "[document]" {} [])
    { writes := [("a.html.bak", "H"), ("a.html", "OUT")],
      stdout := ["Processed a.html -> backup a.html.bak"] }
    rfl (by decide)

/-! ## Counterexample theorems -/

/-- C1 counterexample: on `c1cxDoc`, applying the transform twice does not
equal applying it once (the second run removes the marker the first run left
behind), refuting `transform(transform(D)) == transform(D)` for all D. -/
theorem transform_not_idempotent_cx :
    (transformDoc "f.html" c1cxDoc).bind (transformDoc "f.html") ≠
      transformDoc "f.html" c1cxDoc := by decide

/-- C2 counterexample: the panel of `c2cxDoc` resolves to no definition, so
the claim demands zero exported-marker children after the transform, but one
of the two stale markers survives. -/
theorem marker_zero_one_cx :
    exportStatus ((dfnLookup c2cxDoc (dfnIdOf "x")).orElse fun _ =>
      dfnLookup c2cxDoc "x") = false ∧
    ((transformDoc "f.html" c2cxDoc).toOption.bind (findByUid 1)).map markerCount =
      some 1 := by decide

/-- C3 counterexample: a matched panel entering with two permalink anchors
still holds two after the transform, not exactly one. -/
theorem permalink_exactly_one_cx :
    panelSuffix "dfn-panel-for-x" = some "x" ∧
    ((transformDoc "f.html" c3cxDoc).toOption.bind (findByUid 1)).map selfLinkCount =
      some 2 := by decide

/-- C4 counterexample: the nested panel with non-matching id `random-widget`
is modified by the transform (the outer matched panel's anchor is created
inside it, as it is the outer panel's first `div` descendant). -/
theorem skip_unmodified_cx :
    Node.isPanel (.elem 2 "div" { id := some "random-widget", classes := ["dfn-panel"] } []) = true ∧
    panelSuffix "random-widget" = none ∧
    ((transformDoc "f.html" c4cxDoc).toOption.bind (findByUid 2)) ≠
      some (.elem 2 "div" { id := some "random-widget", classes := ["dfn-panel"] } []) := by
  decide

/-- C6 counterexample: a marker is created (none before, one after) for an
anchor with no following sibling, but it is appended as the last child of
the inner container (uid 3), not of the panel (uid 2), whose last child is
still the trailing `p` element. -/
theorem marker_append_target_cx :
    nextSibTruthy 4 c6cxDoc = false ∧
    (findByUid 2 c6cxDoc).map markerCount = some 0 ∧
    ((transformDoc "f.html" c6cxDoc).toOption.bind (findByUid 2)).map markerCount =
      some 1 ∧
    ((transformDoc "f.html" c6cxDoc).toOption.bind (findByUid 2)).map
      (fun p => p.children.getLast?.map Node.isMarker) = some (some false) ∧
    ((transformDoc "f.html" c6cxDoc).toOption.bind (findByUid 3)).map
      (fun d => d.children.getLast?.map Node.isMarker) = some (some true) := by decide

/-- C7 counterexample: on the parseable document `c7cxDoc` the rewriter's
own per-panel logic fails (AttributeError on `panel.div`), refuting "for
every parseable document, processing completes without raising". -/
theorem process_raises_cx :
    transformDocLive "f.html" c7cxDoc = .error .attrError := by decide

/-- C8 counterexample: the value `""` is an identifier attribute value
present on a definition element, yet it is not a key of the index (bs4 drops
falsy ids), refuting "keys are exactly the identifier values present". -/
theorem dfn_index_keys_cx :
    "" ∈ dfnIdValuesPresent c8cxDoc ∧ "" ∉ dfnKeys c8cxDoc := by decide

/-- C10 counterexample: a matched non-exported panel entering with two
markers can end with zero (both sat inside the anchor, whose contents the
permalink step replaces), refuting "only the first marker is removed, so at
least one remains". -/
theorem double_marker_remains_cx :
    (findByUid 1 c10cxDoc).map markerCount = some 2 ∧
    exportStatus ((dfnLookup c10cxDoc (dfnIdOf "x")).orElse fun _ =>
      dfnLookup c10cxDoc "x") = false ∧
    ((transformDoc "f.html" c10cxDoc).toOption.bind (findByUid 1)).map markerCount =
      some 0 := by decide

/-! ## C8 amended: index keys and last-write-wins -/

theorem find?_fst_filter_head (k : String) :
    ∀ rs : List Node,
      ((((rs.filter Node.isDfnWithId).map fun n => (n.attrsD.id.getD "", n)).find?
          fun p => p.1 == k).map Prod.snd) =
      (rs.filter fun n => n.isDfnWithId && (n.attrsD.id.getD "" == k)).head? := by
  intro rs
  induction rs with
  | nil => rfl
  | cons n rs ih =>
    by_cases hp : Node.isDfnWithId n
    · by_cases hk : (n.attrsD.id.getD "" == k) = true
      · rw [List.filter_cons_of_pos hp, List.map_cons,
          List.find?_cons_of_pos _ (by simpa using hk),
          List.filter_cons_of_pos (by simp [hp, hk])]
        rfl
      · rw [List.filter_cons_of_pos hp, List.map_cons,
          List.find?_cons_of_neg _ (by simpa using hk),
          List.filter_cons_of_neg (by simp [hk]), ih]
    · rw [List.filter_cons_of_neg hp,
        List.filter_cons_of_neg (by simp [hp]), ih]

/-- C8 amended.  The keys of the definition index are exactly the non-empty
identifier attribute values present on `dfn` elements of the document (bs4's
truthiness filter drops `id=""`), and on duplicate identifiers the index
lookup returns the last matching `dfn` element in document order
(last-write-wins). -/
theorem dfn_index_keys_and_lastWins (root : Node) :
    (∀ s : String, s ∈ dfnKeys root ↔ s ≠ "" ∧ s ∈ dfnIdValuesPresent root) ∧
    (∀ k : String, dfnLookup root k =
      (root.descendants.filter fun n =>
        n.isDfnWithId && (n.attrsD.id.getD "" == k)).getLast?) := by
  constructor
  · intro s
    unfold dfnKeys dfnPairs dfnIdValuesPresent
    rw [List.mem_dedup, List.map_map, List.mem_map]
    constructor
    · rintro ⟨n, hn, hs⟩
      rw [List.mem_filter] at hn
      obtain ⟨hmem, hdfn⟩ := hn
      cases n with
      | text s' => simp [Node.isDfnWithId] at hdfn
      | elem u tg a cs =>
        simp only [Node.isDfnWithId, Bool.and_eq_true, beq_iff_eq, bne_iff_ne] at hdfn
        obtain ⟨htg, hne⟩ := hdfn
        simp only [Function.comp, Node.attrsD] at hs
        cases hid : a.id with
        | none => rw [hid] at hne; simp at hne
        | some v =>
          rw [hid] at hne hs
          simp only [Option.getD_some] at hne hs
          subst hs
          refine ⟨hne, ?_⟩
          rw [List.mem_filterMap]
          exact ⟨.elem u tg a cs, hmem, by simp [htg, hid]⟩
    · rintro ⟨hne, hmem⟩
      rw [List.mem_filterMap] at hmem
      obtain ⟨n, hn, hf⟩ := hmem
      cases n with
      | text s' => simp at hf
      | elem u tg a cs =>
        simp only [] at hf
        by_cases htg : (tg == "dfn") = true
        · rw [if_pos htg] at hf
          refine ⟨.elem u tg a cs, ?_, ?_⟩
          · rw [List.mem_filter]
            exact ⟨hn, by simp [Node.isDfnWithId, htg, Node.attrsD, hf, hne]⟩
          · simp [Function.comp, Node.attrsD, hf]
        · rw [if_neg htg] at hf
          cases hf
  · intro k
    unfold dfnLookup dfnPairs
    rw [← List.map_reverse, ← List.filter_reverse, find?_fst_filter_head,
      List.filter_reverse, List.head?_reverse]

/-! ## Node-level lookup toolkit -/

theorem find?_uid_of_mem (w : Nat) :
    ∀ l : List Node, (l.filterMap Node.uid?).Nodup →
      ∀ n ∈ l, n.uid? = some w → l.find? (fun x => x.uid? == some w) = some n := by
  intro l
  induction l with
  | nil => intro _ n hn; cases hn
  | cons c l ih =>
    intro hnd n hn hw
    rcases List.mem_cons.mp hn with h | h
    · subst h
      exact List.find?_cons_of_pos _ (by simp [hw])
    · by_cases hc : c.uid? = some w
      · exfalso
        have h1 : w ∈ l.filterMap Node.uid? :=
          List.mem_filterMap.mpr ⟨n, h, hw⟩
        have h2 : (l.filterMap Node.uid?).Nodup ∧ w ∉ l.filterMap Node.uid? := by
          have := hnd
          rw [List.filterMap_cons, hc] at this
          exact ⟨this.of_cons, (List.nodup_cons.mp this).1⟩
        exact h2.2 h1
      · rw [List.find?_cons_of_neg _ (by simp [hc])]
        refine ih ?_ n h hw
        rcases hu : c.uid? with _ | v
        · rw [List.filterMap_cons, hu] at hnd
          exact hnd
        · rw [List.filterMap_cons, hu] at hnd
          exact hnd.of_cons

/-- With unique uids, a subtree member with uid `w` is the lookup result. -/
theorem findByUid_of_mem_pre (w : Nat) (t n : Node)
    (hnd : t.uids.Nodup) (hn : n ∈ t.pre) (hw : n.uid? = some w) :
    findByUid w t = some n :=
  find?_uid_of_mem w t.pre hnd n hn hw

/-- Membership in preorder lists is transitive through subtrees. -/
theorem mem_pre_trans :
    ∀ t m x : Node, m ∈ t.pre → x ∈ m.pre → x ∈ t.pre := by
  have main : ∀ t : Node, ∀ m x : Node, m ∈ t.pre → x ∈ m.pre → x ∈ t.pre := by
    refine Node.ind
      (Q := fun cs => ∀ m x : Node, m ∈ Node.preL cs → x ∈ m.pre → x ∈ Node.preL cs)
      ?_ ?_ ?_ ?_
    · intro s m x hm hx
      simp only [Node.pre_text, List.mem_singleton] at hm
      subst hm
      simpa using hx
    · intro u tg a cs ih m x hm hx
      rw [Node.pre_elem] at hm ⊢
      rcases List.mem_cons.mp hm with h | h
      · subst h
        rw [Node.pre_elem] at hx
        exact hx
      · exact List.mem_cons_of_mem _ (ih m x h hx)
    · intro m x hm
      cases hm
    · intro c cs ihc ihcs m x hm hx
      rw [Node.preL_cons] at hm ⊢
      rcases List.mem_append.mp hm with h | h
      · exact List.mem_append_left _ (ihc m x h hx)
      · exact List.mem_append_right _ (ihcs m x h hx)
  exact main

/-- A lookup result inside a subtree member lifts to the whole tree. -/
theorem findByUid_trans (w : Nat) (t m n : Node)
    (hnd : t.uids.Nodup) (hm : m ∈ t.pre) (h : findByUid w m = some n) :
    findByUid w t = some n := by
  obtain ⟨hmem, hw⟩ := findByUid_spec w m n h
  exact findByUid_of_mem_pre w t n hnd (mem_pre_trans t m n hm hmem) hw

/-- Uid-level segment corollary of `segment_updateByUid`. -/
theorem uids_updateByUid (u : Nat) (f : Node → Node) (t n : Node)
    (h : findByUid u t = some n) (hnd : t.uids.Nodup) :
    ∃ A B, t.uids = A ++ n.uids ++ B ∧
           (updateByUid u f t).uids = A ++ (f n).uids ++ B := by
  obtain ⟨A, B, h1, h2⟩ := segment_updateByUid u f t n h hnd
  refine ⟨A.filterMap View.uid?, B.filterMap View.uid?, ?_, ?_⟩
  · rw [Node.uids_eq_preV, h1, List.filterMap_append, List.filterMap_append,
      Node.uids_eq_preV]
  · rw [Node.uids_eq_preV, h2, List.filterMap_append, List.filterMap_append,
      Node.uids_eq_preV]

/-- Uid-level segment corollary of `segment_insertAfterUid`. -/
theorem uids_insertAfterUid (u : Nat) (x : Node) (t n : Node)
    (h : findByUid u t = some n) (hnd : t.uids.Nodup) (hr : t.uid? ≠ some u) :
    ∃ A B, t.uids = A ++ n.uids ++ B ∧
           (insertAfterUid u x t).uids = A ++ n.uids ++ x.uids ++ B := by
  obtain ⟨A, B, h1, h2⟩ := segment_insertAfterUid u x t n h hnd hr
  refine ⟨A.filterMap View.uid?, B.filterMap View.uid?, ?_, ?_⟩
  · rw [Node.uids_eq_preV, h1]
    simp [List.filterMap_append, Node.uids_eq_preV]
  · rw [Node.uids_eq_preV, h2]
    simp [List.filterMap_append, Node.uids_eq_preV]

/-- Uid-level segment corollary of `segment_removeByUid`. -/
theorem uids_removeByUid (u : Nat) (t n : Node)
    (h : findByUid u t = some n) (hnd : t.uids.Nodup) (hr : t.uid? ≠ some u) :
    ∃ A B, t.uids = A ++ n.uids ++ B ∧ (removeByUid u t).uids = A ++ B := by
  obtain ⟨A, B, h1, h2⟩ := segment_removeByUid u t n h hnd hr
  refine ⟨A.filterMap View.uid?, B.filterMap View.uid?, ?_, ?_⟩
  · rw [Node.uids_eq_preV, h1]
    simp [List.filterMap_append, Node.uids_eq_preV]
  · rw [Node.uids_eq_preV, h2]
    simp [List.filterMap_append, Node.uids_eq_preV]

theorem findByUid_update_self (u : Nat) (f : Node → Node) :
    ∀ t : Node, ∀ n, t.uids.Nodup → findByUid u t = some n →
      (f n).uid? = some u → findByUid u (updateByUid u f t) = some (f n) := by
  refine Node.ind
    (Q := fun cs => ∀ n, (Node.uidsL cs).Nodup → findByUidL u cs = some n →
      (f n).uid? = some u → findByUidL u (updateByUidL u f cs) = some (f n)) ?_ ?_ ?_ ?_
  · intro s n _ h
    simp at h
  · intro w tg a cs ih n hnd h hf
    rw [findByUid_elem] at h
    by_cases hw : w = u
    · rw [if_pos hw, Option.some.injEq] at h
      subst h
      unfold findByUid
      rw [updateByUid, if_pos hw, Node.pre_eq_cons,
        List.find?_cons_of_pos _ (by simp [hf])]
    · rw [if_neg hw] at h
      have hnd' : (Node.uidsL cs).Nodup := by
        simpa using (List.nodup_cons.mp (by simpa using hnd)).2
      rw [updateByUid, if_neg hw, findByUid_elem, if_neg hw]
      exact ih n hnd' h hf
  · intro n _ h
    simp at h
  · intro c cs ihc ihcs n hnd h hf
    rw [findByUidL_cons] at h
    have hnd' := List.nodup_append.mp (by simpa using hnd)
    cases hc : findByUid u c with
    | some p =>
      rw [hc, Option.or_some, Option.some.injEq] at h
      subst h
      have hu : u ∈ c.uids := findByUid_mem_uids u c p hc
      have hcs : u ∉ Node.uidsL cs := fun hm => hnd'.2.2 hu hm
      rw [updateByUidL, updateByUidL_of_notMem u f cs hcs, findByUidL_cons,
        ihc p hnd'.1 hc hf, Option.or_some]
    | none =>
      rw [hc, Option.none_or] at h
      have hcu : u ∉ c.uids := by
        rw [mem_uids_iff_findByUid, hc]
        simp
      rw [updateByUidL, updateByUid_of_notMem u f c hcu, findByUidL_cons, hc,
        Option.none_or]
      exact ihcs n hnd'.2.1 h hf

theorem findByUid_insertAfter_self (u : Nat) (x : Node) :
    ∀ t : Node, ∀ n, t.uids.Nodup → findByUid u t = some n → u ∉ x.uids →
      findByUid u (insertAfterUid u x t) = some n := by
  refine Node.ind
    (Q := fun cs => ∀ n, (Node.uidsL cs).Nodup → findByUidL u cs = some n →
      u ∉ x.uids → findByUidL u (insertAfterUidL u x cs) = some n) ?_ ?_ ?_ ?_
  · intro s n _ h
    simp at h
  · intro w tg a cs ih n hnd h hx
    rw [findByUid_elem] at h
    by_cases hw : w = u
    · rw [if_pos hw, Option.some.injEq] at h
      have hcs : u ∉ Node.uidsL cs := by
        subst hw
        exact (List.nodup_cons.mp (by simpa using hnd)).1
      rw [insertAfterUid, insertAfterUidL_of_notMem u x cs hcs, findByUid_elem,
        if_pos hw, h]
    · rw [if_neg hw] at h
      have hnd' : (Node.uidsL cs).Nodup := by
        simpa using (List.nodup_cons.mp (by simpa using hnd)).2
      rw [insertAfterUid, findByUid_elem, if_neg hw]
      exact ih n hnd' h hx
  · intro n _ h
    simp at h
  · intro c cs ihc ihcs n hnd h hx
    rw [findByUidL_cons] at h
    have hnd' := List.nodup_append.mp (by simpa using hnd)
    cases hc : findByUid u c with
    | some p =>
      rw [hc, Option.or_some, Option.some.injEq] at h
      subst h
      have hu : u ∈ c.uids := findByUid_mem_uids u c p hc
      have hcs : u ∉ Node.uidsL cs := fun hm => hnd'.2.2 hu hm
      rw [insertAfterUidL, insertAfterUidL_of_notMem u x cs hcs]
      by_cases hcu : c.uid? = some u
      · rw [if_pos hcu, findByUidL_cons, hc, Option.or_some]
      · rw [if_neg hcu, findByUidL_cons, ihc p hnd'.1 hc hx, Option.or_some]
    | none =>
      rw [hc, Option.none_or] at h
      have hcu : u ∉ c.uids := by
        rw [mem_uids_iff_findByUid, hc]
        simp
      have hcu' : ¬c.uid? = some u := fun hh => hcu (Node.uid_mem_uids c u hh)
      rw [insertAfterUidL, if_neg hcu', insertAfterUid_of_notMem u x c hcu,
        findByUidL_cons, hc, Option.none_or]
      exact ihcs n hnd'.2.1 h hx

theorem findByUid_update_of_disjoint (u w : Nat) (f : Node → Node) :
    ∀ t : Node, ∀ n m, t.uids.Nodup → findByUid u t = some n →
      findByUid w t = some m → u ∉ m.uids → w ∉ n.uids → w ∉ (f n).uids →
      findByUid w (updateByUid u f t) = some m := by
  refine Node.ind
    (Q := fun cs => ∀ n m, (Node.uidsL cs).Nodup → findByUidL u cs = some n →
      findByUidL w cs = some m → u ∉ m.uids → w ∉ n.uids → w ∉ (f n).uids →
      findByUidL w (updateByUidL u f cs) = some m) ?_ ?_ ?_ ?_
  · intro s n m _ hu
    simp at hu
  · intro r tg a cs ih n m hnd hu hw hum hwn hfw
    have hwm : w ∈ (Node.elem r tg a cs).uids :=
      findByUid_mem_uids w _ m hw
    have hun : u ∈ (Node.elem r tg a cs).uids :=
      findByUid_mem_uids u _ n hu
    rw [findByUid_elem] at hu hw
    by_cases hru : r = u
    · rw [if_pos hru, Option.some.injEq] at hu
      subst hu
      exact absurd hwm hwn
    · by_cases hrw : r = w
      · rw [if_pos hrw, Option.some.injEq] at hw
        subst hw
        exact absurd hun hum
      · rw [if_neg hru] at hu
        rw [if_neg hrw] at hw
        have hnd' : (Node.uidsL cs).Nodup := by
          simpa using (List.nodup_cons.mp (by simpa using hnd)).2
        rw [updateByUid, if_neg hru, findByUid_elem, if_neg hrw]
        exact ih n m hnd' hu hw hum hwn hfw
  · intro n m _ hu
    simp at hu
  · intro c cs ihc ihcs n m hnd hu hw hum hwn hfw
    rw [findByUidL_cons] at hu hw
    have hnd' := List.nodup_append.mp (by simpa using hnd)
    cases hcu : findByUid u c with
    | some p =>
      rw [hcu, Option.or_some, Option.some.injEq] at hu
      subst hu
      have humem : u ∈ c.uids := findByUid_mem_uids u c p hcu
      have hucs : u ∉ Node.uidsL cs := fun hm => hnd'.2.2 humem hm
      cases hcw : findByUid w c with
      | some q =>
        rw [hcw, Option.or_some, Option.some.injEq] at hw
        subst hw
        rw [updateByUidL, updateByUidL_of_notMem u f cs hucs, findByUidL_cons,
          ihc p q hnd'.1 hcu hcw hum hwn hfw, Option.or_some]
      | none =>
        rw [hcw, Option.none_or] at hw
        have hwc : w ∉ c.uids := by
          rw [mem_uids_iff_findByUid, hcw]
          simp
        obtain ⟨A, B, hA, hB⟩ := uids_updateByUid u f c p hcu hnd'.1
        have hwupd : w ∉ (updateByUid u f c).uids := by
          rw [hB]
          intro hmem
          rw [hA] at hwc
          simp only [List.mem_append] at hmem hwc
          push_neg at hwc
          rcases hmem with (h1 | h1) | h1
          · exact hwc.1.1 h1
          · exact hfw h1
          · exact hwc.2 h1
        rw [updateByUidL, updateByUidL_of_notMem u f cs hucs, findByUidL_cons,
          findByUid_eq_none w _ hwupd, Option.none_or]
        exact hw
    | none =>
      rw [hcu, Option.none_or] at hu
      have hucn : u ∉ c.uids := by
        rw [mem_uids_iff_findByUid, hcu]
        simp
      rw [updateByUidL, updateByUid_of_notMem u f c hucn, findByUidL_cons]
      cases hcw : findByUid w c with
      | some q =>
        rw [hcw, Option.or_some, Option.some.injEq] at hw
        subst hw
        rw [Option.or_some]
      | none =>
        rw [hcw, Option.none_or] at hw
        rw [Option.none_or]
        exact ihcs n m hnd'.2.1 hu hw hum hwn hfw

theorem findByUid_insertAfter_of_disjoint (u w : Nat) (x : Node) :
    ∀ t : Node, ∀ n m, t.uids.Nodup → findByUid u t = some n →
      findByUid w t = some m → u ∉ m.uids → w ∉ x.uids →
      findByUid w (insertAfterUid u x t) = some m := by
  refine Node.ind
    (Q := fun cs => ∀ n m, (Node.uidsL cs).Nodup → findByUidL u cs = some n →
      findByUidL w cs = some m → u ∉ m.uids → w ∉ x.uids →
      findByUidL w (insertAfterUidL u x cs) = some m) ?_ ?_ ?_ ?_
  · intro s n m _ hu
    simp at hu
  · intro r tg a cs ih n m hnd hu hw hum hwx
    have hun : u ∈ (Node.elem r tg a cs).uids :=
      findByUid_mem_uids u _ n hu
    rw [findByUid_elem] at hu hw
    by_cases hru : r = u
    · have hcs : u ∉ Node.uidsL cs := by
        subst hru
        exact (List.nodup_cons.mp (by simpa using hnd)).1
      rw [insertAfterUid, insertAfterUidL_of_notMem u x cs hcs, findByUid_elem]
      rw [← findByUid_elem u] at hu
      rw [← findByUid_elem w] at hw
      rw [findByUid_elem] at hw
      exact hw
    · by_cases hrw : r = w
      · rw [if_pos hrw, Option.some.injEq] at hw
        subst hw
        exact absurd hun hum
      · rw [if_neg hru] at hu
        rw [if_neg hrw] at hw
        have hnd' : (Node.uidsL cs).Nodup := by
          simpa using (List.nodup_cons.mp (by simpa using hnd)).2
        rw [insertAfterUid, findByUid_elem, if_neg hrw]
        exact ih n m hnd' hu hw hum hwx
  · intro n m _ hu
    simp at hu
  · intro c cs ihc ihcs n m hnd hu hw hum hwx
    rw [findByUidL_cons] at hu hw
    have hnd' := List.nodup_append.mp (by simpa using hnd)
    cases hcu : findByUid u c with
    | some p =>
      rw [hcu, Option.or_some, Option.some.injEq] at hu
      subst hu
      have humem : u ∈ c.uids := findByUid_mem_uids u c p hcu
      have hucs : u ∉ Node.uidsL cs := fun hm => hnd'.2.2 humem hm
      cases hcw : findByUid w c with
      | some q =>
        rw [hcw, Option.or_some, Option.some.injEq] at hw
        subst hw
        rw [insertAfterUidL, insertAfterUidL_of_notMem u x cs hucs]
        by_cases hcuid : c.uid? = some u
        · rw [if_pos hcuid, findByUidL_cons, hcw, Option.or_some]
        · rw [if_neg hcuid, findByUidL_cons,
            ihc p q hnd'.1 hcu hcw hum hwx, Option.or_some]
      | none =>
        rw [hcw, Option.none_or] at hw
        have hwc : w ∉ c.uids := by
          rw [mem_uids_iff_findByUid, hcw]
          simp
        rw [insertAfterUidL, insertAfterUidL_of_notMem u x cs hucs]
        by_cases hcuid : c.uid? = some u
        · rw [if_pos hcuid, findByUidL_cons, hcw, Option.none_or, findByUidL_cons,
            findByUid_eq_none w x hwx, Option.none_or]
          exact hw
        · obtain ⟨A, B, hA, hB⟩ :=
            uids_insertAfterUid u x c p hcu hnd'.1 hcuid
          have hwins : w ∉ (insertAfterUid u x c).uids := by
            rw [hB]
            intro hmem
            rw [hA] at hwc
            simp only [List.mem_append] at hmem hwc
            push_neg at hwc
            rcases hmem with ((h1 | h1) | h1) | h1
            · exact hwc.1.1 h1
            · exact hwc.1.2 h1
            · exact hwx h1
            · exact hwc.2 h1
          rw [if_neg hcuid, findByUidL_cons, findByUid_eq_none w _ hwins,
            Option.none_or]
          exact hw
    | none =>
      rw [hcu, Option.none_or] at hu
      have hucn : u ∉ c.uids := by
        rw [mem_uids_iff_findByUid, hcu]
        simp
      have hcuid : ¬c.uid? = some u := fun hh => hucn (Node.uid_mem_uids c u hh)
      rw [insertAfterUidL, if_neg hcuid, insertAfterUid_of_notMem u x c hucn,
        findByUidL_cons]
      cases hcw : findByUid w c with
      | some q =>
        rw [hcw, Option.or_some, Option.some.injEq] at hw
        subst hw
        rw [Option.or_some]
      | none =>
        rw [hcw, Option.none_or] at hw
        rw [Option.none_or]
        exact ihcs n m hnd'.2.1 hu hw hum hwx

theorem findByUid_remove_of_disjoint (u w : Nat) :
    ∀ t : Node, ∀ n m, t.uids.Nodup → findByUid u t = some n →
      findByUid w t = some m → u ∉ m.uids → w ∉ n.uids →
      findByUid w (removeByUid u t) = some m := by
  refine Node.ind
    (Q := fun cs => ∀ n m, (Node.uidsL cs).Nodup → findByUidL u cs = some n →
      findByUidL w cs = some m → u ∉ m.uids → w ∉ n.uids →
      findByUidL w (removeByUidL u cs) = some m) ?_ ?_ ?_ ?_
  · intro s n m _ hu
    simp at hu
  · intro r tg a cs ih n m hnd hu hw hum hwn
    have hwm : w ∈ (Node.elem r tg a cs).uids :=
      findByUid_mem_uids w _ m hw
    have hun : u ∈ (Node.elem r tg a cs).uids :=
      findByUid_mem_uids u _ n hu
    rw [findByUid_elem] at hu hw
    by_cases hru : r = u
    · rw [if_pos hru, Option.some.injEq] at hu
      subst hu
      exact absurd hwm hwn
    · by_cases hrw : r = w
      · rw [if_pos hrw, Option.some.injEq] at hw
        subst hw
        exact absurd hun hum
      · rw [if_neg hru] at hu
        rw [if_neg hrw] at hw
        have hnd' : (Node.uidsL cs).Nodup := by
          simpa using (List.nodup_cons.mp (by simpa using hnd)).2
        rw [removeByUid, findByUid_elem, if_neg hrw]
        exact ih n m hnd' hu hw hum hwn
  · intro n m _ hu
    simp at hu
  · intro c cs ihc ihcs n m hnd hu hw hum hwn
    rw [findByUidL_cons] at hu hw
    have hnd' := List.nodup_append.mp (by simpa using hnd)
    cases hcu : findByUid u c with
    | some p =>
      rw [hcu, Option.or_some, Option.some.injEq] at hu
      subst hu
      have humem : u ∈ c.uids := findByUid_mem_uids u c p hcu
      have hucs : u ∉ Node.uidsL cs := fun hm => hnd'.2.2 humem hm
      by_cases hcuid : c.uid? = some u
      · have hpc : p = c := by
          cases c with
          | text s => simp [Node.uid?] at hcuid
          | elem r tg a cs' =>
            rw [findByUid_elem] at hcu
            simp only [Node.uid?, Option.some.injEq] at hcuid
            rw [if_pos hcuid] at hcu
            exact (Option.some.injEq _ _ ▸ hcu.symm)
        rw [hpc] at hwn
        cases hcw : findByUid w c with
        | some q =>
          exact absurd (findByUid_mem_uids w c q hcw) hwn
        | none =>
          rw [hcw, Option.none_or] at hw
          rw [removeByUidL, if_pos hcuid, removeByUidL_of_notMem u cs hucs]
          exact hw
      · cases hcw : findByUid w c with
        | some q =>
          rw [hcw, Option.or_some, Option.some.injEq] at hw
          subst hw
          rw [removeByUidL, if_neg hcuid, removeByUidL_of_notMem u cs hucs,
            findByUidL_cons, ihc p q hnd'.1 hcu hcw hum hwn, Option.or_some]
        | none =>
          rw [hcw, Option.none_or] at hw
          have hwc : w ∉ c.uids := by
            rw [mem_uids_iff_findByUid, hcw]
            simp
          obtain ⟨A, B, hA, hB⟩ := uids_removeByUid u c p hcu hnd'.1 hcuid
          have hwrem : w ∉ (removeByUid u c).uids := by
            rw [hB]
            intro hmem
            rw [hA] at hwc
            simp only [List.mem_append] at hmem hwc
            push_neg at hwc
            rcases hmem with h1 | h1
            · exact hwc.1.1 h1
            · exact hwc.2 h1
          rw [removeByUidL, if_neg hcuid, removeByUidL_of_notMem u cs hucs,
            findByUidL_cons, findByUid_eq_none w _ hwrem, Option.none_or]
          exact hw
    | none =>
      rw [hcu, Option.none_or] at hu
      have hucn : u ∉ c.uids := by
        rw [mem_uids_iff_findByUid, hcu]
        simp
      have hcuid : ¬c.uid? = some u := fun hh => hucn (Node.uid_mem_uids c u hh)
      rw [removeByUidL, if_neg hcuid, removeByUid_of_notMem u c hucn,
        findByUidL_cons]
      cases hcw : findByUid w c with
      | some q =>
        rw [hcw, Option.or_some, Option.some.injEq] at hw
        subst hw
        rw [Option.or_some]
      | none =>
        rw [hcw, Option.none_or] at hw
        rw [Option.none_or]
        exact ihcs n m hnd'.2.1 hu hw hum hwn

theorem isSelfLink_view (n : Node) : n.isSelfLink = View.isSelfLinkV n.view := by
  cases n <;> rfl

theorem isMarker_view (n : Node) : n.isMarker = View.isMarkerV n.view := by
  cases n <;> rfl

theorem isDiv_view (n : Node) : n.isDiv = View.isDivV n.view := by
  cases n <;> rfl

theorem isPanel_view (n : Node) : n.isPanel = View.isPanelV n.view := by
  cases n <;> rfl

theorem isDfnWithId_view (n : Node) : n.isDfnWithId = View.isDfnWithIdV n.view := by
  cases n <;> rfl

theorem find?_map_view (p : Node → Bool) (q : View → Bool)
    (hpq : ∀ n : Node, p n = q n.view) (l : List Node) :
    (l.find? p).map Node.view = (l.map Node.view).find? q := by
  induction l with
  | nil => rfl
  | cons c l ih =>
    by_cases hc : p c = true
    · rw [List.find?_cons_of_pos _ hc, List.map_cons,
        List.find?_cons_of_pos _ (by rw [← hpq]; exact hc)]
      rfl
    · rw [List.find?_cons_of_neg _ hc, List.map_cons,
        List.find?_cons_of_neg _ (by rw [← hpq]; simpa using hc), ih]

theorem length_filter_map_view (p : Node → Bool) (q : View → Bool)
    (hpq : ∀ n : Node, p n = q n.view) (l : List Node) :
    (l.filter p).length = ((l.map Node.view).filter q).length := by
  induction l with
  | nil => rfl
  | cons c l ih =>
    by_cases hc : p c = true
    · rw [List.filter_cons_of_pos hc, List.map_cons,
        List.filter_cons_of_pos (by rw [← hpq]; exact hc)]
      simp [ih]
    · rw [List.filter_cons_of_neg hc, List.map_cons,
        List.filter_cons_of_neg (by rw [← hpq]; simpa using hc), ih]

theorem markerCount_eq_V (t : Node) : markerCount t = markerCountV t.descV :=
  length_filter_map_view _ _ isMarker_view t.descendants

theorem selfLinkCount_eq_V (t : Node) : selfLinkCount t = selfLinkCountV t.descV :=
  length_filter_map_view _ _ isSelfLink_view t.descendants

/-! ## Case characterization of the per-panel loop body -/

/-- Exhaustive description of a successful `processPanel` run, following the
branches of lines 35-76: skip on regex mismatch; locate or create the
anchor; rewrite the anchor in place; then create, keep, or remove the
exported marker. -/
theorem processPanel_spec (fname : String) (lookup : String → Option Node)
    (fresh : Nat) (panel p2 : Node) (f2 : Nat)
    (h : processPanel fname lookup fresh panel = .ok (p2, f2)) :
    (panelSuffix (panel.attrsD.id.getD "") = none ∧ p2 = panel ∧ f2 = fresh) ∨
    ∃ sfx, panelSuffix (panel.attrsD.id.getD "") = some sfx ∧
    ∃ aUid panel1 f1,
      ((∃ a, panel.descendants.find? Node.isSelfLink = some a ∧ aUid = a.uidD ∧
          panel1 = panel ∧ f1 = fresh) ∨
       (panel.descendants.find? Node.isSelfLink = none ∧
        ∃ d, panel.descendants.find? Node.isDiv = some d ∧
          aUid = fresh ∧ panel1 = insertFirstUid d.uidD (newAnchor fresh) panel ∧
          f1 = fresh + 1)) ∧
      ((exportStatus ((lookup (dfnIdOf sfx)).orElse fun _ => lookup sfx) = true ∧
          (updateByUid aUid (setAnchor (dfnIdOf sfx)) panel1).descendants.find?
            Node.isMarker = none ∧
          ((nextSibTruthy aUid (updateByUid aUid (setAnchor (dfnIdOf sfx)) panel1) = true ∧
            p2 = insertAfterUid aUid (newMarker f1)
              (updateByUid aUid (setAnchor (dfnIdOf sfx)) panel1) ∧ f2 = f1 + 1) ∨
           (nextSibTruthy aUid (updateByUid aUid (setAnchor (dfnIdOf sfx)) panel1) = false ∧
            ∃ d2, (updateByUid aUid (setAnchor (dfnIdOf sfx)) panel1).descendants.find?
                Node.isDiv = some d2 ∧
              p2 = appendChildUid d2.uidD (newMarker f1)
                (updateByUid aUid (setAnchor (dfnIdOf sfx)) panel1) ∧ f2 = f1 + 1))) ∨
       (exportStatus ((lookup (dfnIdOf sfx)).orElse fun _ => lookup sfx) = true ∧
          (∃ mk, (updateByUid aUid (setAnchor (dfnIdOf sfx)) panel1).descendants.find?
            Node.isMarker = some mk) ∧
          p2 = updateByUid aUid (setAnchor (dfnIdOf sfx)) panel1 ∧ f2 = f1) ∨
       (exportStatus ((lookup (dfnIdOf sfx)).orElse fun _ => lookup sfx) = false ∧
          ((∃ mk, (updateByUid aUid (setAnchor (dfnIdOf sfx)) panel1).descendants.find?
              Node.isMarker = some mk ∧
            p2 = removeByUid mk.uidD
              (updateByUid aUid (setAnchor (dfnIdOf sfx)) panel1)) ∧ f2 = f1 ∨
           ((updateByUid aUid (setAnchor (dfnIdOf sfx)) panel1).descendants.find?
              Node.isMarker = none ∧
            p2 = updateByUid aUid (setAnchor (dfnIdOf sfx)) panel1 ∧ f2 = f1)))) := by
  unfold processPanel at h
  cases hps : panelSuffix (panel.attrsD.id.getD "") with
  | none =>
    simp only [hps, Except.ok.injEq, Prod.mk.injEq] at h
    exact .inl ⟨rfl, h.1.symm, h.2.symm⟩
  | some sfx =>
    refine .inr ⟨sfx, rfl, ?_⟩
    cases hfa : panel.descendants.find? Node.isSelfLink with
    | some a =>
      simp only [hps, hfa, Except.bind] at h
      refine ⟨a.uidD, panel, fresh, .inl ⟨a, rfl, rfl, rfl, rfl⟩, ?_⟩
      by_cases hexp :
          exportStatus ((lookup (dfnIdOf sfx)).orElse fun _ => lookup sfx) = true
      · rw [if_pos hexp] at h
        cases hmk : (updateByUid a.uidD (setAnchor (dfnIdOf sfx))
            panel).descendants.find? Node.isMarker with
        | none =>
          rw [hmk] at h
          by_cases hsib : nextSibTruthy a.uidD
              (updateByUid a.uidD (setAnchor (dfnIdOf sfx)) panel) = true
          · rw [if_pos hsib] at h
            simp only [Except.ok.injEq, Prod.mk.injEq] at h
            exact .inl ⟨hexp, rfl, .inl ⟨hsib, h.1.symm, h.2.symm⟩⟩
          · rw [if_neg hsib] at h
            cases hdv : (updateByUid a.uidD (setAnchor (dfnIdOf sfx))
                panel).descendants.find? Node.isDiv with
            | none => rw [hdv] at h; cases h
            | some d2 =>
              rw [hdv] at h
              simp only [Except.ok.injEq, Prod.mk.injEq] at h
              exact .inl ⟨hexp, rfl,
                .inr ⟨by simpa using hsib, d2, rfl, h.1.symm, h.2.symm⟩⟩
        | some mk =>
          rw [hmk] at h
          simp only [Except.ok.injEq, Prod.mk.injEq] at h
          exact .inr (.inl ⟨hexp, ⟨mk, rfl⟩, h.1.symm, h.2.symm⟩)
      · rw [if_neg hexp] at h
        cases hmk : (updateByUid a.uidD (setAnchor (dfnIdOf sfx))
            panel).descendants.find? Node.isMarker with
        | some mk =>
          rw [hmk] at h
          simp only [Except.ok.injEq, Prod.mk.injEq] at h
          exact .inr (.inr ⟨by simpa using hexp,
            .inl ⟨⟨mk, rfl, h.1.symm⟩, h.2.symm⟩⟩)
        | none =>
          rw [hmk] at h
          simp only [Except.ok.injEq, Prod.mk.injEq] at h
          exact .inr (.inr ⟨by simpa using hexp,
            .inr ⟨rfl, h.1.symm, h.2.symm⟩⟩)
    | none =>
      cases hfd : panel.descendants.find? Node.isDiv with
      | none =>
        simp only [hps, hfa, hfd, Except.bind] at h
        exact Except.noConfusion h
      | some d =>
        simp only [hps, hfa, hfd, Except.bind] at h
        refine ⟨fresh, insertFirstUid d.uidD (newAnchor fresh) panel, fresh + 1,
          .inr ⟨rfl, d, rfl, rfl, rfl, rfl⟩, ?_⟩
        by_cases hexp :
            exportStatus ((lookup (dfnIdOf sfx)).orElse fun _ => lookup sfx) = true
        · rw [if_pos hexp] at h
          cases hmk : (updateByUid fresh (setAnchor (dfnIdOf sfx))
              (insertFirstUid d.uidD (newAnchor fresh) panel)).descendants.find?
              Node.isMarker with
          | none =>
            rw [hmk] at h
            by_cases hsib : nextSibTruthy fresh
                (updateByUid fresh (setAnchor (dfnIdOf sfx))
                  (insertFirstUid d.uidD (newAnchor fresh) panel)) = true
            · rw [if_pos hsib] at h
              simp only [Except.ok.injEq, Prod.mk.injEq] at h
              exact .inl ⟨hexp, rfl, .inl ⟨hsib, h.1.symm, h.2.symm⟩⟩
            · rw [if_neg hsib] at h
              cases hdv : (updateByUid fresh (setAnchor (dfnIdOf sfx))
                  (insertFirstUid d.uidD (newAnchor fresh) panel)).descendants.find?
                  Node.isDiv with
              | none => rw [hdv] at h; cases h
              | some d2 =>
                rw [hdv] at h
                simp only [Except.ok.injEq, Prod.mk.injEq] at h
                exact .inl ⟨hexp, rfl,
                  .inr ⟨by simpa using hsib, d2, rfl, h.1.symm, h.2.symm⟩⟩
          | some mk =>
            rw [hmk] at h
            simp only [Except.ok.injEq, Prod.mk.injEq] at h
            exact .inr (.inl ⟨hexp, ⟨mk, rfl⟩, h.1.symm, h.2.symm⟩)
        · rw [if_neg hexp] at h
          cases hmk : (updateByUid fresh (setAnchor (dfnIdOf sfx))
              (insertFirstUid d.uidD (newAnchor fresh) panel)).descendants.find?
              Node.isMarker with
          | some mk =>
            rw [hmk] at h
            simp only [Except.ok.injEq, Prod.mk.injEq] at h
            exact .inr (.inr ⟨by simpa using hexp,
              .inl ⟨⟨mk, rfl, h.1.symm⟩, h.2.symm⟩⟩)
          | none =>
            rw [hmk] at h
            simp only [Except.ok.injEq, Prod.mk.injEq] at h
            exact .inr (.inr ⟨by simpa using hexp,
              .inr ⟨rfl, h.1.symm, h.2.symm⟩⟩)

/-! ## Helpers for per-panel reasoning -/

theorem uid_of_isSelfLink (n : Node) (h : n.isSelfLink = true) :
    n.uid? = some n.uidD := by
  cases n with
  | text s => simp [Node.isSelfLink] at h
  | elem u tg a cs => rfl

theorem uid_of_isDiv (n : Node) (h : n.isDiv = true) :
    n.uid? = some n.uidD := by
  cases n with
  | text s => simp [Node.isDiv] at h
  | elem u tg a cs => rfl

theorem uid_of_isMarker (n : Node) (h : n.isMarker = true) :
    n.uid? = some n.uidD := by
  cases n with
  | text s => simp [Node.isMarker] at h
  | elem u tg a cs => rfl

theorem find?_desc_found (p : Node → Bool) (t a : Node)
    (h : t.descendants.find? p = some a) : a ∈ t.pre ∧ p a = true := by
  refine ⟨?_, List.find?_some h⟩
  rw [Node.pre_eq_cons]
  exact List.mem_cons_of_mem _ (List.mem_of_find?_eq_some h)

/-- A descendant located by `find` can be located again by identity. -/
theorem findByUid_of_find?_desc (p : Node → Bool) (t a : Node)
    (hnd : t.uids.Nodup) (h : t.descendants.find? p = some a)
    (hu : a.uid? = some a.uidD) : findByUid a.uidD t = some a :=
  findByUid_of_mem_pre a.uidD t a hnd (find?_desc_found p t a h).1 hu

/-- A descendant's uid differs from the root's uid in a Nodup tree. -/
theorem desc_uid_ne_root (p : Node → Bool) (t a : Node)
    (hnd : t.uids.Nodup) (h : t.descendants.find? p = some a)
    (hu : a.uid? = some a.uidD) : t.uid? ≠ some a.uidD := by
  intro hr
  cases t with
  | text s => simp [Node.uid?] at hr
  | elem w tg at' cs =>
    simp only [Node.uid?, Option.some.injEq] at hr
    subst hr
    have hmem : a ∈ Node.preL cs := List.mem_of_find?_eq_some h
    have : a.uidD ∈ Node.uidsL cs := by
      rw [Node.uidsL]
      exact List.mem_filterMap.mpr ⟨a, hmem, hu⟩
    have hnd' := List.nodup_cons.mp (by simpa using hnd)
    exact hnd'.1 this

/-- A matched panel is an element node. -/
theorem matched_panel_elem (panel : Node) (sfx : String)
    (h : panelSuffix (panel.attrsD.id.getD "") = some sfx) :
    ∃ w tg a cs, panel = .elem w tg a cs := by
  cases panel with
  | text s =>
    have h0 : ((Node.text s).attrsD.id.getD "") = "" := rfl
    rw [h0] at h
    have : panelSuffix "" = none := by decide
    rw [this] at h
    cases h
  | elem w tg a cs => exact ⟨w, tg, a, cs, rfl⟩

@[simp] theorem newAnchor_uids (u : Nat) : (newAnchor u).uids = [u] := rfl

@[simp] theorem newMarker_uids (u : Nat) : (newMarker u).uids = [u] := rfl

@[simp] theorem newAnchor_uid (u : Nat) : (newAnchor u).uid? = some u := rfl

theorem setAnchor_uid (d : String) (w : Nat) (tg : String) (a : Attrs)
    (cs : List Node) : (setAnchor d (.elem w tg a cs)).uid? = some w := rfl

theorem setAnchor_uids (d : String) (w : Nat) (tg : String) (a : Attrs)
    (cs : List Node) : (setAnchor d (.elem w tg a cs)).uids = [w] := rfl

/-- Replacing the middle segment of a Nodup list with a Nodup list of
elements that are either old middle elements or entirely new. -/
theorem nodup_segment_replace {A X B Y : List Nat}
    (h : (A ++ X ++ B).Nodup) (h1 : Y.Nodup)
    (h2 : ∀ x ∈ Y, x ∈ X ∨ (x ∉ A ∧ x ∉ B)) : (A ++ Y ++ B).Nodup := by
  rw [List.append_assoc] at h ⊢
  rw [List.nodup_append] at h ⊢
  obtain ⟨hA, hXB, hdisj⟩ := h
  rw [List.nodup_append] at hXB
  obtain ⟨hX, hB, hdisj2⟩ := hXB
  refine ⟨hA, ?_, ?_⟩
  · rw [List.nodup_append]
    refine ⟨h1, hB, ?_⟩
    intro x hx hxB
    rcases h2 x hx with h3 | h3
    · exact hdisj2 h3 hxB
    · exact h3.2 hxB
  · intro x hxA hx
    rcases List.mem_append.mp hx with h3 | h3
    · rcases h2 x h3 with h4 | h4
      · exact hdisj hxA (List.mem_append_left _ h4)
      · exact h4.1 hxA
    · exact hdisj hxA (List.mem_append_right _ h3)

/-- One segment-replacement step of uid bookkeeping: Nodup and the
"old uid or fresh uid" bound are preserved. -/
theorem goodUids_step {orig : List Nat} {lo : Nat} (hor : ∀ x ∈ orig, x < lo)
    {cur A X B Y next : List Nat} {hi hi' : Nat}
    (hg : cur.Nodup ∧ ∀ x ∈ cur, x ∈ orig ∨ (lo ≤ x ∧ x < hi))
    (hlo : lo ≤ hi) (hhi : hi ≤ hi')
    (hcur : cur = A ++ X ++ B) (hnext : next = A ++ Y ++ B)
    (hY : Y.Nodup) (hYm : ∀ y ∈ Y, y ∈ X ∨ (hi ≤ y ∧ y < hi')) :
    next.Nodup ∧ ∀ x ∈ next, x ∈ orig ∨ (lo ≤ x ∧ x < hi') := by
  have hnew : ∀ y, hi ≤ y → y ∉ cur := by
    intro y hy hmem
    rcases hg.2 y hmem with h1 | h1
    · exact absurd (lt_of_lt_of_le (hor y h1) (le_trans hlo hy)) (lt_irrefl y)
    · exact absurd (lt_of_lt_of_le h1.2 hy) (lt_irrefl y)
  constructor
  · rw [hnext]
    refine nodup_segment_replace (hcur ▸ hg.1) hY ?_
    intro y hy
    rcases hYm y hy with h1 | h1
    · exact .inl h1
    · refine .inr ⟨?_, ?_⟩
      · intro hA
        exact hnew y h1.1 (by rw [hcur]; simp [hA])
      · intro hB
        exact hnew y h1.1 (by rw [hcur]; simp [hB])
  · intro x hx
    rw [hnext] at hx
    simp only [List.append_assoc, List.mem_append] at hx
    rcases hx with hA | hY' | hB
    · rcases hg.2 x (by rw [hcur]; simp [hA]) with h1 | h1
      · exact .inl h1
      · exact .inr ⟨h1.1, lt_of_lt_of_le h1.2 hhi⟩
    · rcases hYm x hY' with h1 | h1
      · rcases hg.2 x (by rw [hcur]; simp [h1]) with h2 | h2
        · exact .inl h2
        · exact .inr ⟨h2.1, lt_of_lt_of_le h2.2 hhi⟩
      · exact .inr ⟨le_trans hlo h1.1, h1.2⟩
    · rcases hg.2 x (by rw [hcur]; simp [hB]) with h1 | h1
      · exact .inl h1
      · exact .inr ⟨h1.1, lt_of_lt_of_le h1.2 hhi⟩

theorem view_update_ne (u : Nat) (f : Node → Node) (t : Node)
    (h : t.uid? ≠ some u) : (updateByUid u f t).view = t.view := by
  cases t with
  | text s => rfl
  | elem w tg a cs =>
    have : w ≠ u := fun hw => h (by simp [Node.uid?, hw])
    simp [updateByUid, this, Node.view]

theorem view_insertAfter (u : Nat) (x t : Node) :
    (insertAfterUid u x t).view = t.view := by
  cases t <;> rfl

theorem view_remove (u : Nat) (t : Node) :
    (removeByUid u t).view = t.view := by
  cases t <;> rfl

theorem elem_of_isSelfLink (n : Node) (h : n.isSelfLink = true) :
    ∃ w tg a cs, n = Node.elem w tg a cs := by
  cases n with
  | text s => simp [Node.isSelfLink] at h
  | elem w tg a cs => exact ⟨w, tg, a, cs, rfl⟩

theorem elem_of_isDiv (n : Node) (h : n.isDiv = true) :
    ∃ w tg a cs, n = Node.elem w tg a cs := by
  cases n with
  | text s => simp [Node.isDiv] at h
  | elem w tg a cs => exact ⟨w, tg, a, cs, rfl⟩

theorem elem_of_isMarker (n : Node) (h : n.isMarker = true) :
    ∃ w tg a cs, n = Node.elem w tg a cs := by
  cases n with
  | text s => simp [Node.isMarker] at h
  | elem w tg a cs => exact ⟨w, tg, a, cs, rfl⟩

theorem nodup_middle {A X B : List Nat} (h : (A ++ X ++ B).Nodup) : X.Nodup := by
  rw [List.append_assoc, List.nodup_append] at h
  exact (List.nodup_append.mp h.2.1).1

theorem nodup_cons_middle {w g : Nat} {xs : List Nat}
    (h : (w :: xs).Nodup) (hg : g ∉ w :: xs) : (w :: g :: xs).Nodup := by
  rw [List.nodup_cons] at h ⊢
  simp only [List.mem_cons] at hg
  push_neg at hg
  refine ⟨?_, ?_⟩
  · simp only [List.mem_cons]
    push_neg
    exact ⟨fun hw => hg.1 hw.symm, h.1⟩
  · rw [List.nodup_cons]
    exact ⟨hg.2, h.2⟩

/-- Facts established by the anchor phase (lines 50-54): the anchor exists
in `panel1` under its uid, is a permalink anchor, the panel root is
untouched, and uid bookkeeping holds. -/
theorem processPanel_anchor_facts (fresh : Nat) (panel : Node)
    (aUid : Nat) (panel1 : Node) (f1 : Nat)
    (hnd : panel.uids.Nodup) (hmax : ∀ x ∈ panel.uids, x < fresh)
    (hanch :
      (∃ a, panel.descendants.find? Node.isSelfLink = some a ∧ aUid = a.uidD ∧
         panel1 = panel ∧ f1 = fresh) ∨
      (panel.descendants.find? Node.isSelfLink = none ∧
       ∃ d, panel.descendants.find? Node.isDiv = some d ∧
         aUid = fresh ∧ panel1 = insertFirstUid d.uidD (newAnchor fresh) panel ∧
         f1 = fresh + 1)) :
    ∃ anchor1, findByUid aUid panel1 = some anchor1 ∧ anchor1.uid? = some aUid ∧
      anchor1.isSelfLink = true ∧
      panel1.view = panel.view ∧ panel1.uid? ≠ some aUid ∧
      fresh ≤ f1 ∧ aUid < f1 ∧
      panel1.uids.Nodup ∧
      (∀ x ∈ panel1.uids, x ∈ panel.uids ∨ (fresh ≤ x ∧ x < f1)) := by
  rcases hanch with ⟨a, hfa, haU, hp1, hf1⟩ | ⟨hfa, d, hfd, haU, hp1, hf1⟩
  · obtain ⟨hamem, hasel⟩ := find?_desc_found Node.isSelfLink panel a hfa
    have hauid : a.uid? = some a.uidD := uid_of_isSelfLink a hasel
    have hfind : findByUid a.uidD panel = some a :=
      findByUid_of_find?_desc Node.isSelfLink panel a hnd hfa hauid
    have hroot : panel.uid? ≠ some a.uidD :=
      desc_uid_ne_root Node.isSelfLink panel a hnd hfa hauid
    have haLt : a.uidD < fresh := by
      refine hmax a.uidD ?_
      rw [mem_uids_iff_findByUid, hfind]
      rfl
    rw [haU, hp1, hf1]
    exact ⟨a, hfind, hauid, hasel, rfl, hroot, le_refl _, haLt, hnd,
      fun x hx => .inl hx⟩
  · obtain ⟨hdmem, hddiv⟩ := find?_desc_found Node.isDiv panel d hfd
    obtain ⟨wd, tgd, ad, csd, hdeq⟩ := elem_of_isDiv d hddiv
    subst hdeq
    have hduid : (Node.elem wd tgd ad csd).uid? = some wd := rfl
    have hwd : (Node.elem wd tgd ad csd).uidD = wd := rfl
    have hfindd : findByUid wd panel = some (Node.elem wd tgd ad csd) := by
      have := findByUid_of_find?_desc Node.isDiv panel _ hnd hfd
        (uid_of_isDiv _ hddiv)
      rw [hwd] at this
      exact this
    have hrootd : panel.uid? ≠ some wd := by
      have := desc_uid_ne_root Node.isDiv panel _ hnd hfd (uid_of_isDiv _ hddiv)
      rw [hwd] at this
      exact this
    have hwmem : wd ∈ panel.uids := by
      rw [mem_uids_iff_findByUid, hfindd]
      rfl
    obtain ⟨A, B, hA, hB⟩ :=
      uids_updateByUid wd
        (fun n => match n with
          | .elem w t a cs => .elem w t a (newAnchor fresh :: cs)
          | n => n) panel _ hfindd hnd
    have hAcomp : panel.uids = A ++ (wd :: Node.uidsL csd) ++ B := hA
    have hBcomp : (insertFirstUid (Node.elem wd tgd ad csd).uidD
        (newAnchor fresh) panel).uids =
        A ++ (wd :: fresh :: Node.uidsL csd) ++ B := by
      rw [hwd, insertFirstUid]
      exact hB
    have hXnd : (wd :: Node.uidsL csd).Nodup :=
      nodup_middle (show (A ++ (wd :: Node.uidsL csd) ++ B).Nodup by
        rw [← hAcomp]; exact hnd)
    have hfreshX : fresh ∉ wd :: Node.uidsL csd := by
      intro hmem
      have hfm : fresh ∈ panel.uids := by
        rw [hAcomp]
        rcases List.mem_cons.mp hmem with h1 | h1
        · simp [h1]
        · simp [h1]
      exact lt_irrefl _ (hmax fresh hfm)
    have hgood : (insertFirstUid (Node.elem wd tgd ad csd).uidD
          (newAnchor fresh) panel).uids.Nodup ∧
        (∀ x ∈ (insertFirstUid (Node.elem wd tgd ad csd).uidD
          (newAnchor fresh) panel).uids,
          x ∈ panel.uids ∨ (fresh ≤ x ∧ x < fresh + 1)) := by
      refine goodUids_step hmax ⟨hnd, fun x hx => .inl hx⟩ (le_refl fresh)
        (Nat.le_succ fresh) hAcomp hBcomp
        (nodup_cons_middle hXnd hfreshX) ?_
      intro y hy
      rcases List.mem_cons.mp hy with hy1 | hy1
      · exact .inl (by simp [hy1])
      · rcases List.mem_cons.mp hy1 with hy2 | hy2
        · exact .inr ⟨le_of_eq hy2.symm, by rw [hy2]; exact Nat.lt_succ_self _⟩
        · exact .inl (by simp [hy2])
    have hself : findByUid wd (insertFirstUid (Node.elem wd tgd ad csd).uidD
        (newAnchor fresh) panel) = some
        (.elem wd tgd ad (newAnchor fresh :: csd)) := by
      rw [hwd, insertFirstUid]
      exact findByUid_update_self wd
        (fun n => match n with
          | .elem w t a cs => .elem w t a (newAnchor fresh :: cs)
          | n => n) panel _ hnd hfindd rfl
    have hwdne : wd ≠ fresh := by
      intro hwe
      exact hfreshX (by simp [hwe])
    have hanchIn : findByUid fresh
        (Node.elem wd tgd ad (newAnchor fresh :: csd)) = some (newAnchor fresh) := by
      rw [findByUid_elem, if_neg hwdne, findByUidL_cons,
        show findByUid fresh (newAnchor fresh) = some (newAnchor fresh) by
          rw [newAnchor, findByUid_elem, if_pos rfl]]
      rfl
    have hfind1 : findByUid fresh (insertFirstUid (Node.elem wd tgd ad csd).uidD
        (newAnchor fresh) panel) = some (newAnchor fresh) := by
      refine findByUid_trans fresh _ _ _ hgood.1 ?_ hanchIn
      exact (findByUid_spec wd _ _ hself).1
    have hv1 : (insertFirstUid (Node.elem wd tgd ad csd).uidD
        (newAnchor fresh) panel).view = panel.view := by
      rw [hwd, insertFirstUid]
      exact view_update_ne _ _ _ hrootd
    have hroot1 : (insertFirstUid (Node.elem wd tgd ad csd).uidD
        (newAnchor fresh) panel).uid? ≠ some fresh := by
      rw [show (insertFirstUid (Node.elem wd tgd ad csd).uidD
          (newAnchor fresh) panel).uid? = panel.uid? by
        rw [← Node.view_uid, ← Node.view_uid, hv1]]
      intro hc
      have : fresh ∈ panel.uids := Node.uid_mem_uids panel fresh hc
      exact lt_irrefl fresh (hmax fresh this)
    rw [haU, hp1, hf1]
    exact ⟨newAnchor fresh, hfind1, rfl,
      by simp [newAnchor, Node.isSelfLink, classMatch], hv1, hroot1,
      Nat.le_succ _, Nat.lt_succ_self _, hgood.1, hgood.2⟩

theorem nodup_append_fresh {xs : List Nat} {g : Nat}
    (h : xs.Nodup) (hg : g ∉ xs) : (xs ++ [g]).Nodup := by
  rw [List.nodup_append]
  refine ⟨h, List.nodup_singleton g, ?_⟩
  intro x hx hx2
  simp only [List.mem_singleton] at hx2
  subst hx2
  exact hg hx

/-- Uid bookkeeping across one `processPanel` run: the result has unique
uids, every uid is an old one or a fresh one below the returned counter, and
the panel's root element is untouched. -/
theorem processPanel_uids (fname : String) (lookup : String → Option Node)
    (fresh : Nat) (panel p2 : Node) (f2 : Nat)
    (h : processPanel fname lookup fresh panel = .ok (p2, f2))
    (hnd : panel.uids.Nodup) (hmax : ∀ x ∈ panel.uids, x < fresh) :
    p2.uids.Nodup ∧ fresh ≤ f2 ∧
    (∀ x ∈ p2.uids, x ∈ panel.uids ∨ (fresh ≤ x ∧ x < f2)) ∧
    p2.view = panel.view := by
  rcases processPanel_spec fname lookup fresh panel p2 f2 h with
    ⟨_, hp2, hf2⟩ | ⟨sfx, hps, aUid, panel1, f1, hanch, hmarker⟩
  · subst hp2 hf2
    exact ⟨hnd, le_refl _, fun x hx => .inl hx, rfl⟩
  · obtain ⟨anchor1, HF1, HU1, HS1, HV1, HR1, HLE1, HALT, HND1, HM1⟩ :=
      processPanel_anchor_facts fresh panel aUid panel1 f1 hnd hmax hanch
    obtain ⟨wa, tga, aa, csa, haeq⟩ := elem_of_isSelfLink anchor1 HS1
    have hwa : wa = aUid := by
      rw [haeq] at HU1
      simpa [Node.uid?] using HU1
    subst hwa
    have hsetuid : (setAnchor (dfnIdOf sfx) anchor1).uid? = some wa := by
      rw [haeq]
      rfl
    have hsetuids : (setAnchor (dfnIdOf sfx) anchor1).uids = [wa] := by
      rw [haeq]
      rfl
    have hanchuids : anchor1.uids = wa :: Node.uidsL csa := by
      rw [haeq]
      rfl
    obtain ⟨A1, B1, hA1, hB1⟩ :=
      uids_updateByUid wa (setAnchor (dfnIdOf sfx)) panel1 anchor1 HF1 HND1
    have hB1' : (updateByUid wa (setAnchor (dfnIdOf sfx)) panel1).uids =
        A1 ++ [wa] ++ B1 := by
      rw [hB1, hsetuids]
    have G2 : (updateByUid wa (setAnchor (dfnIdOf sfx)) panel1).uids.Nodup ∧
        (∀ x ∈ (updateByUid wa (setAnchor (dfnIdOf sfx)) panel1).uids,
          x ∈ panel.uids ∨ (fresh ≤ x ∧ x < f1)) := by
      refine goodUids_step hmax ⟨HND1, HM1⟩ HLE1 (le_refl f1)
        (show panel1.uids = A1 ++ (wa :: Node.uidsL csa) ++ B1 by
          rw [← hanchuids]; exact hA1) hB1' (List.nodup_singleton wa) ?_
      intro y hy
      simp only [List.mem_singleton] at hy
      subst hy
      exact .inl (by simp)
    have HF2 : findByUid wa (updateByUid wa (setAnchor (dfnIdOf sfx)) panel1) =
        some (setAnchor (dfnIdOf sfx) anchor1) :=
      findByUid_update_self wa _ panel1 anchor1 HND1 HF1 hsetuid
    have HV2 : (updateByUid wa (setAnchor (dfnIdOf sfx)) panel1).view =
        panel1.view := view_update_ne _ _ _ HR1
    have HR2 : (updateByUid wa (setAnchor (dfnIdOf sfx)) panel1).uid? ≠
        some wa := by
      rw [← Node.view_uid, HV2, Node.view_uid]
      exact HR1
    have hlt2 : ∀ x ∈ (updateByUid wa (setAnchor (dfnIdOf sfx)) panel1).uids,
        x < f1 := by
      intro x hx
      rcases G2.2 x hx with h1 | h1
      · exact lt_of_lt_of_le (hmax x h1) HLE1
      · exact h1.2
    rcases hmarker with ⟨_, hmk, hcreate⟩ | ⟨_, _, hp2, hf2⟩ |
      ⟨_, hrem⟩
    · -- a marker is created
      rcases hcreate with ⟨_, hp2, hf2⟩ | ⟨_, d2, hfd2, hp2, hf2⟩
      · -- inserted directly after the anchor
        obtain ⟨A2, B2, hA2, hB2⟩ :=
          uids_insertAfterUid wa (newMarker f1) _ _ HF2 G2.1 HR2
        rw [hsetuids] at hA2 hB2
        have hB2' : (insertAfterUid wa (newMarker f1)
            (updateByUid wa (setAnchor (dfnIdOf sfx)) panel1)).uids =
            A2 ++ [wa, f1] ++ B2 := by
          rw [hB2]
          simp
        have G3 := goodUids_step hmax G2 HLE1 (Nat.le_succ f1) hA2 hB2'
          (by simp [Nat.ne_of_lt HALT]) ?_
        · subst hp2 hf2
          refine ⟨G3.1, le_trans HLE1 (Nat.le_succ f1), G3.2, ?_⟩
          rw [view_insertAfter, HV2, HV1]
        · intro y hy
          rcases List.mem_cons.mp hy with hy1 | hy1
          · exact .inl (by simp [hy1])
          · simp only [List.mem_singleton] at hy1
            subst hy1
            exact .inr ⟨le_refl _, Nat.lt_succ_self _⟩
      · -- appended to the first div descendant
        obtain ⟨hd2mem, hd2div⟩ := find?_desc_found Node.isDiv _ d2 hfd2
        obtain ⟨w2, tg2, a2, cs2, hd2eq⟩ := elem_of_isDiv d2 hd2div
        subst hd2eq
        have hfind2 : findByUid w2
            (updateByUid wa (setAnchor (dfnIdOf sfx)) panel1) =
            some (Node.elem w2 tg2 a2 cs2) := by
          have := findByUid_of_find?_desc Node.isDiv _ _ G2.1 hfd2
            (uid_of_isDiv _ hd2div)
          exact this
        have hroot2 : (updateByUid wa (setAnchor (dfnIdOf sfx)) panel1).uid? ≠
            some w2 := by
          have := desc_uid_ne_root Node.isDiv _ _ G2.1 hfd2
            (uid_of_isDiv _ hd2div)
          exact this
        obtain ⟨A2, B2, hA2, hB2⟩ :=
          uids_updateByUid w2
            (fun n => match n with
              | .elem w t a cs => .elem w t a (cs ++ [newMarker f1])
              | n => n) _ _ hfind2 G2.1
        have hA2' : (updateByUid wa (setAnchor (dfnIdOf sfx)) panel1).uids =
            A2 ++ (w2 :: Node.uidsL cs2) ++ B2 := hA2
        have hB2' : (appendChildUid (Node.elem w2 tg2 a2 cs2).uidD
            (newMarker f1) (updateByUid wa (setAnchor (dfnIdOf sfx)) panel1)).uids =
            A2 ++ (w2 :: (Node.uidsL cs2 ++ [f1])) ++ B2 := by
          rw [appendChildUid]
          rw [show (Node.elem w2 tg2 a2 cs2).uidD = w2 from rfl, hB2]
          have : Node.uidsL (cs2 ++ [newMarker f1]) =
              Node.uidsL cs2 ++ [f1] := by
            rw [Node.uidsL_append]
            rfl
          simp [this]
        have hXnd : (w2 :: Node.uidsL cs2).Nodup :=
          nodup_middle (show (A2 ++ (w2 :: Node.uidsL cs2) ++ B2).Nodup by
            rw [← hA2']; exact G2.1)
        have hf1X : f1 ∉ w2 :: Node.uidsL cs2 := by
          intro hmem
          have hin : f1 ∈ (updateByUid wa (setAnchor (dfnIdOf sfx)) panel1).uids := by
            rw [hA2']
            rcases List.mem_cons.mp hmem with h1 | h1
            · simp [h1]
            · simp [h1]
          exact lt_irrefl _ (hlt2 f1 hin)
        have hYnd : (w2 :: (Node.uidsL cs2 ++ [f1])).Nodup := by
          rw [List.nodup_cons] at hXnd ⊢
          refine ⟨?_, nodup_append_fresh hXnd.2 ?_⟩
          · simp only [List.mem_append, List.mem_singleton]
            push_neg
            refine ⟨hXnd.1, ?_⟩
            intro hweq
            exact hf1X (by simp [hweq])
          · intro hmem
            exact hf1X (by simp [hmem])
        have G3 := goodUids_step hmax G2 HLE1 (Nat.le_succ f1) hA2' hB2' hYnd ?_
        · subst hp2 hf2
          refine ⟨G3.1, le_trans HLE1 (Nat.le_succ f1), G3.2, ?_⟩
          rw [appendChildUid,
            view_update_ne _ _ _ (by exact hroot2), HV2, HV1]
        · intro y hy
          rcases List.mem_cons.mp hy with hy1 | hy1
          · exact .inl (by simp [hy1])
          · rcases List.mem_append.mp hy1 with hy2 | hy2
            · exact .inl (by simp [hy2])
            · simp only [List.mem_singleton] at hy2
              subst hy2
              exact .inr ⟨le_refl _, Nat.lt_succ_self _⟩
    · -- marker already present, kept
      subst hp2 hf2
      refine ⟨G2.1, HLE1, G2.2, ?_⟩
      rw [HV2, HV1]
    · -- not exported: remove the first marker, or nothing
      rcases hrem with ⟨⟨mk, hfmk, hp2⟩, hf2⟩ | ⟨_, hp2, hf2⟩
      · obtain ⟨hmkmem, hmkmark⟩ := find?_desc_found Node.isMarker _ mk hfmk
        have hmkuid : mk.uid? = some mk.uidD := uid_of_isMarker mk hmkmark
        have hfindmk : findByUid mk.uidD
            (updateByUid wa (setAnchor (dfnIdOf sfx)) panel1) = some mk :=
          findByUid_of_find?_desc Node.isMarker _ mk G2.1 hfmk hmkuid
        have hrootmk : (updateByUid wa (setAnchor (dfnIdOf sfx)) panel1).uid? ≠
            some mk.uidD :=
          desc_uid_ne_root Node.isMarker _ mk G2.1 hfmk hmkuid
        obtain ⟨A3, B3, hA3, hB3⟩ :=
          uids_removeByUid mk.uidD _ mk hfindmk G2.1 hrootmk
        have hB3' : (removeByUid mk.uidD
            (updateByUid wa (setAnchor (dfnIdOf sfx)) panel1)).uids =
            A3 ++ [] ++ B3 := by
          rw [hB3]
          simp
        have G3 := goodUids_step hmax G2 HLE1 (le_refl f1) hA3 hB3'
          (List.nodup_nil) (fun y hy => absurd hy (List.not_mem_nil y))
        subst hp2 hf2
        refine ⟨G3.1, HLE1, G3.2, ?_⟩
        rw [view_remove, HV2, HV1]
      · subst hp2 hf2
        refine ⟨G2.1, HLE1, G2.2, ?_⟩
        rw [HV2, HV1]

/-! Descendant-view versions of the segment lemmas: when the rewritten node
is not the root, the replaced segment sits inside the descendant view list. -/

theorem descV_update (u : Nat) (f : Node → Node) (t n : Node)
    (hfind : findByUid u t = some n) (hnd : t.uids.Nodup)
    (hroot : t.uid? ≠ some u) :
    ∃ A B, t.descV = A ++ n.preV ++ B ∧
           (updateByUid u f t).descV = A ++ (f n).preV ++ B := by
  obtain ⟨A, B, h1, h2⟩ := segment_updateByUid u f t n hfind hnd
  have hnu : n.uid? = some u := (findByUid_spec u t n hfind).2
  cases A with
  | nil =>
    exfalso
    rw [Node.preV_eq_cons, Node.preV_eq_cons, List.nil_append] at h1
    obtain ⟨h1, -⟩ := List.cons.inj h1
    exact hroot (by rw [← Node.view_uid, h1, Node.view_uid, hnu])
  | cons a A' =>
    refine ⟨A', B, ?_, ?_⟩
    · rw [Node.preV_eq_cons, List.cons_append, List.cons_append] at h1
      exact (List.cons.inj h1).2
    · rw [Node.preV_eq_cons, view_update_ne u f t hroot,
        List.cons_append, List.cons_append] at h2
      exact (List.cons.inj h2).2

theorem descV_insertAfter (u : Nat) (m : Node) (t n : Node)
    (hfind : findByUid u t = some n) (hnd : t.uids.Nodup)
    (hroot : t.uid? ≠ some u) :
    ∃ A B, t.descV = A ++ n.preV ++ B ∧
           (insertAfterUid u m t).descV = A ++ n.preV ++ m.preV ++ B := by
  obtain ⟨A, B, h1, h2⟩ := segment_insertAfterUid u m t n hfind hnd hroot
  have hnu : n.uid? = some u := (findByUid_spec u t n hfind).2
  cases A with
  | nil =>
    exfalso
    rw [Node.preV_eq_cons, Node.preV_eq_cons, List.nil_append] at h1
    obtain ⟨h1, -⟩ := List.cons.inj h1
    exact hroot (by rw [← Node.view_uid, h1, Node.view_uid, hnu])
  | cons a A' =>
    refine ⟨A', B, ?_, ?_⟩
    · rw [Node.preV_eq_cons, List.cons_append, List.cons_append] at h1
      exact (List.cons.inj h1).2
    · rw [Node.preV_eq_cons, view_insertAfter,
        List.cons_append, List.cons_append, List.cons_append] at h2
      exact (List.cons.inj h2).2

theorem descV_remove (u : Nat) (t n : Node)
    (hfind : findByUid u t = some n) (hnd : t.uids.Nodup)
    (hroot : t.uid? ≠ some u) :
    ∃ A B, t.descV = A ++ n.preV ++ B ∧
           (removeByUid u t).descV = A ++ B := by
  obtain ⟨A, B, h1, h2⟩ := segment_removeByUid u t n hfind hnd hroot
  have hnu : n.uid? = some u := (findByUid_spec u t n hfind).2
  cases A with
  | nil =>
    exfalso
    rw [Node.preV_eq_cons, Node.preV_eq_cons, List.nil_append] at h1
    obtain ⟨h1, -⟩ := List.cons.inj h1
    exact hroot (by rw [← Node.view_uid, h1, Node.view_uid, hnu])
  | cons a A' =>
    refine ⟨A', B, ?_, ?_⟩
    · rw [Node.preV_eq_cons, List.cons_append, List.cons_append] at h1
      exact (List.cons.inj h1).2
    · rw [Node.preV_eq_cons, view_remove, List.cons_append] at h2
      exact (List.cons.inj h2).2

theorem subtreeUids_of_find (u : Nat) (t m : Node)
    (h : findByUid u t = some m) : subtreeUids u t = m.uids := by
  rw [subtreeUids, h]
  rfl

theorem mem_uids_of_subtree (t m : Node) (x : Nat)
    (hm : m ∈ t.pre) (hx : x ∈ m.uids) : x ∈ t.uids := by
  rw [Node.uids, List.mem_filterMap] at hx ⊢
  obtain ⟨nx, hnx, hxu⟩ := hx
  exact ⟨nx, mem_pre_trans t m nx hm hnx, hxu⟩

/-- Analysis of the per-panel loop (lines 33-76) on a document whose panel
subtrees are pairwise disjoint: every processed entry ends up, by identity,
as the `processPanel` image of its original subtree, every node whose
subtree is disjoint from all processed entries is untouched, uids stay
unique, and new uids are fresh. -/
theorem processPanels_spec (fname : String) (lookup : String → Option Node) :
    ∀ (us : List Nat) (fresh : Nat) (t out : Node),
      processPanels fname lookup us fresh t = .ok out →
      t.uids.Nodup →
      (∀ x ∈ t.uids, x < fresh) →
      us.Pairwise (fun u v => ∀ x ∈ subtreeUids u t, x ∉ subtreeUids v t) →
      (∀ u ∈ us, u ∈ t.uids) →
      out.uids.Nodup ∧
      (∀ u ∈ us, ∃ p p' f f', findByUid u t = some p ∧
         p.uids.Nodup ∧ (∀ x ∈ p.uids, x < f) ∧
         processPanel fname lookup f p = .ok (p', f') ∧
         findByUid u out = some p') ∧
      (∀ w m, findByUid w t = some m →
         (∀ u ∈ us, ∀ x ∈ m.uids, x ∉ subtreeUids u t) →
         findByUid w out = some m) ∧
      (∀ x ∈ out.uids, x ∈ t.uids ∨ fresh ≤ x) ∧
      (∀ q : View → Bool,
         (∀ u ∈ us, ∀ p, findByUid u t = some p → p.descV.filter q = []) →
         (∀ p p' f f', processPanel fname lookup f p = .ok (p', f') →
            p.uids.Nodup → (∀ x ∈ p.uids, x < f) →
            p.descV.filter q = [] → p'.descV.filter q = []) →
         out.descV.filter q = t.descV.filter q) := by
  intro us
  induction us with
  | nil =>
    intro fresh t out h hnd hmax hpw hmem
    simp only [processPanels, Except.ok.injEq] at h
    subst h
    exact ⟨hnd, fun u hu => absurd hu (List.not_mem_nil u),
      fun w m hw _ => hw, fun x hx => .inl hx, fun q _ _ => rfl⟩
  | cons u us ih =>
    intro fresh t out h hnd hmax hpw hmem
    cases hfind : findByUid u t with
    | none =>
      simp only [processPanels, hfind] at h
      exact Except.noConfusion h
    | some p =>
      cases hpp : processPanel fname lookup fresh p with
      | error e =>
        simp only [processPanels, hfind, hpp, Except.bind] at h
        exact Except.noConfusion h
      | ok pr =>
        obtain ⟨p', f'⟩ := pr
        simp only [processPanels, hfind, hpp, Except.bind] at h
        have hpuid : p.uid? = some u := (findByUid_spec u t p hfind).2
        obtain ⟨A, B, hA, hB⟩ := uids_updateByUid u (fun _ => p') t p hfind hnd
        have hndp : p.uids.Nodup :=
          nodup_middle (show (A ++ p.uids ++ B).Nodup by rw [← hA]; exact hnd)
        have hmaxp : ∀ x ∈ p.uids, x < fresh := fun x hx =>
          hmax x (by rw [hA]; simp [hx])
        obtain ⟨hndp', hle, hmemp', hview⟩ :=
          processPanel_uids fname lookup fresh p p' f' hpp hndp hmaxp
        have hp'uid : p'.uid? = some u := by
          rw [← Node.view_uid, hview, Node.view_uid]
          exact hpuid
        have hGood : (updateByUid u (fun _ => p') t).uids.Nodup ∧
            ∀ x ∈ (updateByUid u (fun _ => p') t).uids,
              x ∈ t.uids ∨ (fresh ≤ x ∧ x < f') :=
          goodUids_step hmax ⟨hnd, fun x hx => .inl hx⟩ (le_refl fresh) hle
            hA hB hndp' (fun y hy => hmemp' y hy)
        have hmax' : ∀ x ∈ (updateByUid u (fun _ => p') t).uids, x < f' :=
          fun x hx => (hGood.2 x hx).elim
            (fun h1 => lt_of_lt_of_le (hmax x h1) hle) (fun h1 => h1.2)
        rw [List.pairwise_cons] at hpw
        have hsubu : subtreeUids u t = p.uids := subtreeUids_of_find u t p hfind
        have hfinds : ∀ v ∈ us, findByUid v (updateByUid u (fun _ => p') t) =
            findByUid v t := by
          intro v hv
          have hvt : v ∈ t.uids := hmem v (List.mem_cons_of_mem _ hv)
          obtain ⟨mv, hmv⟩ :=
            Option.isSome_iff_exists.mp ((mem_uids_iff_findByUid v t).mp hvt)
          have hrel := hpw.1 v hv
          rw [hsubu, subtreeUids_of_find v t mv hmv] at hrel
          have hun : u ∉ mv.uids := hrel u (Node.uid_mem_uids p u hpuid)
          have hvp : v ∉ p.uids := fun hvpp =>
            (hrel v hvpp) (Node.uid_mem_uids mv v (findByUid_spec v t mv hmv).2)
          have hvp' : v ∉ p'.uids := by
            intro hvv
            rcases hmemp' v hvv with h1 | h1
            · exact hvp h1
            · exact absurd (hmax v hvt) (not_lt.mpr h1.1)
          rw [hmv]
          exact findByUid_update_of_disjoint u v (fun _ => p') t p mv hnd
            hfind hmv hun hvp hvp'
        have hmem' : ∀ v ∈ us, v ∈ (updateByUid u (fun _ => p') t).uids := by
          intro v hv
          rw [mem_uids_iff_findByUid, hfinds v hv, ← mem_uids_iff_findByUid]
          exact hmem v (List.mem_cons_of_mem _ hv)
        have hsub' : ∀ v ∈ us, subtreeUids v (updateByUid u (fun _ => p') t) =
            subtreeUids v t := by
          intro v hv
          rw [subtreeUids, hfinds v hv, subtreeUids]
        have hpw' : us.Pairwise (fun a b =>
            ∀ x ∈ subtreeUids a (updateByUid u (fun _ => p') t),
              x ∉ subtreeUids b (updateByUid u (fun _ => p') t)) := by
          refine hpw.2.imp_of_mem ?_
          intro a b ha hb hab
          rw [hsub' a ha, hsub' b hb]
          exact hab
        obtain ⟨hndo, hb, hc, hd, he⟩ := ih f' _ out h hGood.1 hmax' hpw' hmem'
        refine ⟨hndo, ?_, ?_, ?_, ?_⟩
        · intro v hv
          rcases List.mem_cons.mp hv with heq | hv'
          · subst heq
            refine ⟨p, p', fresh, f', hfind, hndp, hmaxp, hpp, ?_⟩
            have hu_t' : findByUid v (updateByUid v (fun _ => p') t) = some p' :=
              findByUid_update_self v (fun _ => p') t p hnd hfind hp'uid
            refine hc v p' hu_t' ?_
            intro v' hv' x hx
            rw [hsub' v' hv']
            have hvt : v' ∈ t.uids := hmem v' (List.mem_cons_of_mem _ hv')
            obtain ⟨mv, hmv⟩ :=
              Option.isSome_iff_exists.mp ((mem_uids_iff_findByUid v' t).mp hvt)
            rw [subtreeUids_of_find v' t mv hmv]
            rcases hmemp' x hx with h1 | h1
            · have hrel := hpw.1 v' hv'
              rw [hsubu, subtreeUids_of_find v' t mv hmv] at hrel
              exact hrel x h1
            · intro hxm
              have hxt : x ∈ t.uids :=
                mem_uids_of_subtree t mv x (findByUid_spec v' t mv hmv).1 hxm
              exact absurd (hmax x hxt) (not_lt.mpr h1.1)
          · obtain ⟨pp, pp', ff, ff', h1, h1a, h1b, h2, h3⟩ := hb v hv'
            rw [hfinds v hv'] at h1
            exact ⟨pp, pp', ff, ff', h1, h1a, h1b, h2, h3⟩
        · intro w m hw hcond
          have hcondu := hcond u (List.mem_cons_self u us)
          rw [hsubu] at hcondu
          have hum : u ∉ m.uids := fun humm =>
            (hcondu u humm) (Node.uid_mem_uids p u hpuid)
          have hwm : w ∈ m.uids :=
            Node.uid_mem_uids m w (findByUid_spec w t m hw).2
          have hwp : w ∉ p.uids := hcondu w hwm
          have hwt : w ∈ t.uids := findByUid_mem_uids w t m hw
          have hwp' : w ∉ p'.uids := fun hww => (hmemp' w hww).elim
            (fun h1 => hwp h1)
            (fun h1 => absurd (hmax w hwt) (not_lt.mpr h1.1))
          have hw' : findByUid w (updateByUid u (fun _ => p') t) = some m :=
            findByUid_update_of_disjoint u w (fun _ => p') t p m hnd
              hfind hw hum hwp hwp'
          refine hc w m hw' ?_
          intro v hv x hx
          rw [hsub' v hv]
          exact hcond v (List.mem_cons_of_mem _ hv) x hx
        · intro x hx
          rcases hd x hx with h1 | h1
          · rcases hGood.2 x h1 with h2 | h2
            · exact .inl h2
            · exact .inr h2.1
          · exact .inr (le_trans hle h1)
        · intro q hqfree hstep
          have hqfree' : ∀ v ∈ us, ∀ pp,
              findByUid v (updateByUid u (fun _ => p') t) = some pp →
              pp.descV.filter q = [] := by
            intro v hv pp hppv
            rw [hfinds v hv] at hppv
            exact hqfree v (List.mem_cons_of_mem _ hv) pp hppv
          have hout := he q hqfree' hstep
          have hpfree : p.descV.filter q = [] :=
            hqfree u (List.mem_cons_self u us) p hfind
          have hp'free : p'.descV.filter q = [] :=
            hstep p p' fresh f' hpp hndp hmaxp hpfree
          rw [hout]
          by_cases hroot : t.uid? = some u
          · have hpt : p = t := by
              have h2 : findByUid u t = some t :=
                findByUid_of_mem_pre u t t hnd
                  (by rw [Node.pre_eq_cons]; exact List.mem_cons_self _ _) hroot
              rw [hfind] at h2
              exact Option.some.inj h2
            obtain ⟨w, tg, a, cs, hte⟩ : ∃ w tg a cs, t = Node.elem w tg a cs := by
              cases t with
              | text s => simp [Node.uid?] at hroot
              | elem w tg a cs => exact ⟨w, tg, a, cs, rfl⟩
            have hwu : w = u := by
              rw [hte] at hroot
              simpa [Node.uid?] using hroot
            have ht' : updateByUid u (fun _ => p') t = p' := by
              rw [hte, updateByUid, if_pos hwu]
            rw [ht', hp'free, ← hpt, hpfree]
          · obtain ⟨A, B, hA, hB⟩ :=
              descV_update u (fun _ => p') t p hfind hnd hroot
            have hpv : p.preV = p.view :: p.descV := Node.preV_eq_cons p
            have hp'v : p'.preV = p.view :: p'.descV := by
              rw [Node.preV_eq_cons, hview]
            rw [hA, hB, hpv, hp'v]
            simp [List.filter_append, List.filter_cons, hpfree, hp'free]

/-! ## Node-level segment decompositions

The view-level segment lemmas say what happens to the *views*; for tracking
which actual nodes survive an edit we also need the node-level picture: the
preorder node list splits as `P ++ n.pre ++ S`, where `S` is untouched and
every node of `P` (the nodes strictly before the edited subtree, including
its ancestors) is mapped by the edit itself. -/

theorem map_id_of_mem {α : Type} {f : α → α} :
    ∀ {l : List α}, (∀ x ∈ l, f x = x) → l.map f = l := by
  intro l
  induction l with
  | nil => intro _; rfl
  | cons a l ih =>
    intro h
    simp only [List.map_cons, h a (List.mem_cons_self a l),
      ih fun x hx => h x (List.mem_cons_of_mem a hx)]

theorem nodeSegment_updateByUid (u : Nat) (f : Node → Node) :
    ∀ t : Node, ∀ n, findByUid u t = some n → t.uids.Nodup →
    ∃ P S, t.pre = P ++ n.pre ++ S ∧
      (updateByUid u f t).pre =
        P.map (updateByUid u f) ++ (f n).pre ++ S := by
  refine Node.ind
    (Q := fun cs => ∀ n, findByUidL u cs = some n → (Node.uidsL cs).Nodup →
      ∃ P S, Node.preL cs = P ++ n.pre ++ S ∧
        Node.preL (updateByUidL u f cs) =
          P.map (updateByUid u f) ++ (f n).pre ++ S) ?_ ?_ ?_ ?_
  · intro s n h
    simp at h
  · intro w tg a cs ih n h hnd
    rw [findByUid_elem] at h
    by_cases hw : w = u
    · rw [if_pos hw, Option.some.injEq] at h
      subst h
      refine ⟨[], [], by simp, ?_⟩
      simp [updateByUid, hw]
    · rw [if_neg hw] at h
      have hnd' : (Node.uidsL cs).Nodup := by
        simpa using (List.nodup_cons.mp (by simpa using hnd)).2
      obtain ⟨P, S, h1, h2⟩ := ih n h hnd'
      refine ⟨Node.elem w tg a cs :: P, S, ?_, ?_⟩
      · simp [h1]
      · simp [updateByUid, hw, h2]
  · intro n h
    simp at h
  · intro c cs ihc ihcs n h hnd
    rw [findByUidL_cons] at h
    have hnd' := List.nodup_append.mp (by simpa using hnd)
    cases hc : findByUid u c with
    | some p =>
      rw [hc, Option.or_some, Option.some.injEq] at h
      obtain ⟨P, S, h1, h2⟩ := ihc p hc hnd'.1
      have hu : u ∈ c.uids := findByUid_mem_uids u c p hc
      have hcs : u ∉ Node.uidsL cs := fun hm => hnd'.2.2 hu hm
      subst h
      refine ⟨P, S ++ Node.preL cs, ?_, ?_⟩
      · simp [h1]
      · simp [updateByUidL, h2, updateByUidL_of_notMem u f cs hcs]
    | none =>
      rw [hc, Option.none_or] at h
      have hcu : u ∉ c.uids := by
        rw [mem_uids_iff_findByUid, hc]
        simp
      obtain ⟨P, S, h1, h2⟩ := ihcs n h hnd'.2.1
      refine ⟨c.pre ++ P, S, ?_, ?_⟩
      · simp [h1]
      · have hmap : c.pre.map (updateByUid u f) = c.pre :=
          map_id_of_mem fun x hx =>
            updateByUid_of_notMem u f x fun hux =>
              hcu (mem_uids_of_subtree c x u hx hux)
        simp [updateByUidL, updateByUid_of_notMem u f c hcu, h2, hmap]

theorem nodeSegment_insertAfterUid (u : Nat) (m : Node) :
    ∀ t : Node, ∀ n, findByUid u t = some n → t.uids.Nodup →
      t.uid? ≠ some u →
    ∃ P S, t.pre = P ++ n.pre ++ S ∧
      (insertAfterUid u m t).pre =
        P.map (insertAfterUid u m) ++ n.pre ++ m.pre ++ S := by
  refine Node.ind
    (Q := fun cs => ∀ n, findByUidL u cs = some n → (Node.uidsL cs).Nodup →
      ∃ P S, Node.preL cs = P ++ n.pre ++ S ∧
        Node.preL (insertAfterUidL u m cs) =
          P.map (insertAfterUid u m) ++ n.pre ++ m.pre ++ S) ?_ ?_ ?_ ?_
  · intro s n h
    simp at h
  · intro w tg a cs ih n h hnd hr
    rw [findByUid_elem] at h
    have hw : w ≠ u := by
      intro hwu
      exact hr (by simp [Node.uid?, hwu])
    rw [if_neg hw] at h
    have hnd' : (Node.uidsL cs).Nodup := by
      simpa using (List.nodup_cons.mp (by simpa using hnd)).2
    obtain ⟨P, S, h1, h2⟩ := ih n h hnd'
    refine ⟨Node.elem w tg a cs :: P, S, ?_, ?_⟩
    · simp [h1]
    · simp [insertAfterUid, h2]
  · intro n h
    simp at h
  · intro c cs ihc ihcs n h hnd
    rw [findByUidL_cons] at h
    have hnd' := List.nodup_append.mp (by simpa using hnd)
    cases hc : findByUid u c with
    | some p =>
      rw [hc, Option.or_some, Option.some.injEq] at h
      have hu : u ∈ c.uids := findByUid_mem_uids u c p hc
      have hcs : u ∉ Node.uidsL cs := fun hm => hnd'.2.2 hu hm
      by_cases hcu : c.uid? = some u
      · have hpc : p = c := by
          cases c with
          | text s => simp [Node.uid?] at hcu
          | elem w tg a cs' =>
            rw [findByUid_elem] at hc
            simp only [Node.uid?, Option.some.injEq] at hcu
            rw [if_pos hcu] at hc
            exact (Option.some.injEq _ _ ▸ hc.symm)
        subst h
        subst hpc
        refine ⟨[], Node.preL cs, ?_, ?_⟩
        · simp
        · simp [insertAfterUidL, hcu, insertAfterUidL_of_notMem u m cs hcs]
      · obtain ⟨P, S, h1, h2⟩ := ihc p hc hnd'.1 hcu
        subst h
        refine ⟨P, S ++ Node.preL cs, ?_, ?_⟩
        · simp [h1]
        · simp [insertAfterUidL, hcu, h2,
            insertAfterUidL_of_notMem u m cs hcs]
    | none =>
      rw [hc, Option.none_or] at h
      have hcu : u ∉ c.uids := by
        rw [mem_uids_iff_findByUid, hc]
        simp
      have hcu' : ¬c.uid? = some u := fun hh => hcu (Node.uid_mem_uids c u hh)
      obtain ⟨P, S, h1, h2⟩ := ihcs n h hnd'.2.1
      refine ⟨c.pre ++ P, S, ?_, ?_⟩
      · simp [h1]
      · have hmap : c.pre.map (insertAfterUid u m) = c.pre :=
          map_id_of_mem fun x hx =>
            insertAfterUid_of_notMem u m x fun hux =>
              hcu (mem_uids_of_subtree c x u hx hux)
        simp [insertAfterUidL, hcu', insertAfterUid_of_notMem u m c hcu,
          h2, hmap]

theorem nodeSegment_removeByUid (u : Nat) :
    ∀ t : Node, ∀ n, findByUid u t = some n → t.uids.Nodup →
      t.uid? ≠ some u →
    ∃ P S, t.pre = P ++ n.pre ++ S ∧
      (removeByUid u t).pre = P.map (removeByUid u) ++ S := by
  refine Node.ind
    (Q := fun cs => ∀ n, findByUidL u cs = some n → (Node.uidsL cs).Nodup →
      ∃ P S, Node.preL cs = P ++ n.pre ++ S ∧
        Node.preL (removeByUidL u cs) = P.map (removeByUid u) ++ S) ?_ ?_ ?_ ?_
  · intro s n h
    simp at h
  · intro w tg a cs ih n h hnd hr
    rw [findByUid_elem] at h
    have hw : w ≠ u := by
      intro hwu
      exact hr (by simp [Node.uid?, hwu])
    rw [if_neg hw] at h
    have hnd' : (Node.uidsL cs).Nodup := by
      simpa using (List.nodup_cons.mp (by simpa using hnd)).2
    obtain ⟨P, S, h1, h2⟩ := ih n h hnd'
    refine ⟨Node.elem w tg a cs :: P, S, ?_, ?_⟩
    · simp [h1]
    · simp [removeByUid, h2]
  · intro n h
    simp at h
  · intro c cs ihc ihcs n h hnd
    rw [findByUidL_cons] at h
    have hnd' := List.nodup_append.mp (by simpa using hnd)
    cases hc : findByUid u c with
    | some p =>
      rw [hc, Option.or_some, Option.some.injEq] at h
      have hu : u ∈ c.uids := findByUid_mem_uids u c p hc
      have hcs : u ∉ Node.uidsL cs := fun hm => hnd'.2.2 hu hm
      by_cases hcu : c.uid? = some u
      · have hpc : p = c := by
          cases c with
          | text s => simp [Node.uid?] at hcu
          | elem w tg a cs' =>
            rw [findByUid_elem] at hc
            simp only [Node.uid?, Option.some.injEq] at hcu
            rw [if_pos hcu] at hc
            exact (Option.some.injEq _ _ ▸ hc.symm)
        subst h
        subst hpc
        refine ⟨[], Node.preL cs, ?_, ?_⟩
        · simp
        · simp [removeByUidL, hcu, removeByUidL_of_notMem u cs hcs]
      · obtain ⟨P, S, h1, h2⟩ := ihc p hc hnd'.1 hcu
        subst h
        refine ⟨P, S ++ Node.preL cs, ?_, ?_⟩
        · simp [h1]
        · simp [removeByUidL, hcu, h2, removeByUidL_of_notMem u cs hcs]
    | none =>
      rw [hc, Option.none_or] at h
      have hcu : u ∉ c.uids := by
        rw [mem_uids_iff_findByUid, hc]
        simp
      have hcu' : ¬c.uid? = some u := fun hh => hcu (Node.uid_mem_uids c u hh)
      obtain ⟨P, S, h1, h2⟩ := ihcs n h hnd'.2.1
      refine ⟨c.pre ++ P, S, ?_, ?_⟩
      · simp [h1]
      · have hmap : c.pre.map (removeByUid u) = c.pre :=
          map_id_of_mem fun x hx =>
            removeByUid_of_notMem u x fun hux =>
              hcu (mem_uids_of_subtree c x u hx hux)
        simp [removeByUidL, hcu', removeByUid_of_notMem u c hcu, h2, hmap]

/-- A node that is outside the rewritten subtree and does not contain it
keeps its exact identity (as a tree) under `updateByUid`. -/
theorem mem_pre_updateByUid_outside (u : Nat) (f : Node → Node)
    (t n x : Node) (w : Nat)
    (hnd : t.uids.Nodup) (hfind : findByUid u t = some n)
    (hx : x ∈ t.pre) (hxw : x.uid? = some w)
    (hxu : u ∉ x.uids) (hwn : w ∉ n.uids) :
    x ∈ (updateByUid u f t).pre := by
  obtain ⟨P, S, h1, h2⟩ := nodeSegment_updateByUid u f t n hfind hnd
  rw [h1] at hx
  rw [h2]
  rcases List.mem_append.mp hx with hx' | hx'
  · rcases List.mem_append.mp hx' with hx'' | hx''
    · have hfix : updateByUid u f x = x := updateByUid_of_notMem u f x hxu
      exact List.mem_append.mpr (.inl (List.mem_append.mpr
        (.inl (hfix ▸ List.mem_map_of_mem (updateByUid u f) hx''))))
    · exact absurd (mem_uids_of_subtree n x w hx'' (Node.uid_mem_uids x w hxw)) hwn
  · exact List.mem_append.mpr (.inr hx')

/-- Likewise for `decompose` of a disjoint subtree. -/
theorem mem_pre_removeByUid_outside (u : Nat)
    (t n x : Node) (w : Nat)
    (hnd : t.uids.Nodup) (hfind : findByUid u t = some n)
    (hroot : t.uid? ≠ some u)
    (hx : x ∈ t.pre) (hxw : x.uid? = some w)
    (hxu : u ∉ x.uids) (hwn : w ∉ n.uids) :
    x ∈ (removeByUid u t).pre := by
  obtain ⟨P, S, h1, h2⟩ := nodeSegment_removeByUid u t n hfind hnd hroot
  rw [h1] at hx
  rw [h2]
  rcases List.mem_append.mp hx with hx' | hx'
  · rcases List.mem_append.mp hx' with hx'' | hx''
    · have hfix : removeByUid u x = x := removeByUid_of_notMem u x hxu
      exact List.mem_append.mpr (.inl (hfix ▸ List.mem_map_of_mem (removeByUid u) hx''))
    · exact absurd (mem_uids_of_subtree n x w hx'' (Node.uid_mem_uids x w hxw)) hwn
  · exact List.mem_append.mpr (.inr hx')

/-- Likewise for `insert_after` next to a disjoint subtree. -/
theorem mem_pre_insertAfterUid_outside (u : Nat) (m : Node)
    (t n x : Node) (w : Nat)
    (hnd : t.uids.Nodup) (hfind : findByUid u t = some n)
    (hroot : t.uid? ≠ some u)
    (hx : x ∈ t.pre) (hxw : x.uid? = some w)
    (hxu : u ∉ x.uids) (hwn : w ∉ n.uids) :
    x ∈ (insertAfterUid u m t).pre := by
  obtain ⟨P, S, h1, h2⟩ := nodeSegment_insertAfterUid u m t n hfind hnd hroot
  rw [h1] at hx
  rw [h2]
  rcases List.mem_append.mp hx with hx' | hx'
  · rcases List.mem_append.mp hx' with hx'' | hx''
    · have hfix : insertAfterUid u m x = x := insertAfterUid_of_notMem u m x hxu
      simp only [List.append_assoc, List.mem_append]
      exact .inl (hfix ▸ List.mem_map_of_mem (insertAfterUid u m) hx'')
    · exact absurd (mem_uids_of_subtree n x w hx'' (Node.uid_mem_uids x w hxw)) hwn
  · simp only [List.append_assoc, List.mem_append]
    exact .inr (.inr (.inr hx'))

/-- `tag.append(child)` (line 73) keeps every node that does not contain
the extended element, even nodes *inside* it. -/
theorem mem_pre_appendChildUid (u : Nat) (m : Node)
    (t n x : Node)
    (hnd : t.uids.Nodup) (hfind : findByUid u t = some n)
    (hx : x ∈ t.pre) (hxu : u ∉ x.uids) :
    x ∈ (appendChildUid u m t).pre := by
  obtain ⟨P, S, h1, h2⟩ := nodeSegment_updateByUid u
    (fun nd => match nd with
      | .elem w2 t2 a2 cs2 => .elem w2 t2 a2 (cs2 ++ [m])
      | nd => nd) t n hfind hnd
  rw [h1] at hx
  rw [appendChildUid, h2]
  rcases List.mem_append.mp hx with hx' | hx'
  · rcases List.mem_append.mp hx' with hx'' | hx''
    · have hfix := updateByUid_of_notMem u
        (fun nd => match nd with
          | .elem w2 t2 a2 cs2 => .elem w2 t2 a2 (cs2 ++ [m])
          | nd => nd) x hxu
      exact List.mem_append.mpr (.inl (List.mem_append.mpr
        (.inl (hfix ▸ List.mem_map_of_mem _ hx''))))
    · -- x lies inside the extended element and is kept among its children
      have hnu : n.uid? = some u := (findByUid_spec u t n hfind).2
      obtain ⟨w2, t2, a2, cs2, hne⟩ : ∃ w2 t2 a2 cs2,
          n = Node.elem w2 t2 a2 cs2 := by
        cases n with
        | text s => simp [Node.uid?] at hnu
        | elem w2 t2 a2 cs2 => exact ⟨w2, t2, a2, cs2, rfl⟩
      have hw2 : w2 = u := by
        rw [hne] at hnu
        simpa [Node.uid?] using hnu
      have hxn : x ≠ n := by
        intro he
        rw [he, hne] at hxu
        exact hxu (by simp [hw2])
      rw [hne, Node.pre_elem] at hx''
      rcases List.mem_cons.mp hx'' with he | hx3
      · exact absurd (he.trans hne.symm) hxn
      · refine List.mem_append.mpr (.inl (List.mem_append.mpr (.inr ?_)))
        rw [hne]
        simp only [Node.pre_elem, Node.preL_append]
        exact List.mem_cons_of_mem _ (List.mem_append.mpr (.inl hx3))
  · exact List.mem_append.mpr (.inr hx')

/-- Replacing the subtree at `u` by itself is the identity: `updateByUid`
with a function that fixes the node found at `u` changes nothing. -/
theorem updateByUid_id_of_fix (u : Nat) (f : Node → Node) :
    ∀ t : Node, ∀ n, findByUid u t = some n → t.uids.Nodup →
      f n = n → updateByUid u f t = t := by
  refine Node.ind
    (Q := fun cs => ∀ n, findByUidL u cs = some n → (Node.uidsL cs).Nodup →
      f n = n → updateByUidL u f cs = cs) ?_ ?_ ?_ ?_
  · intro s n h
    simp at h
  · intro w tg a cs ih n h hnd hfx
    rw [findByUid_elem] at h
    by_cases hw : w = u
    · rw [if_pos hw, Option.some.injEq] at h
      subst h
      subst hw
      simp [updateByUid, hfx]
    · rw [if_neg hw] at h
      have hnd' : (Node.uidsL cs).Nodup := by
        simpa using (List.nodup_cons.mp (by simpa using hnd)).2
      simp [updateByUid, hw, ih n h hnd' hfx]
  · intro n h
    simp at h
  · intro c cs ihc ihcs n h hnd hfx
    rw [findByUidL_cons] at h
    have hnd' := List.nodup_append.mp (by simpa using hnd)
    cases hc : findByUid u c with
    | some p =>
      rw [hc, Option.or_some, Option.some.injEq] at h
      have hu : u ∈ c.uids := findByUid_mem_uids u c p hc
      have hcs : u ∉ Node.uidsL cs := fun hm => hnd'.2.2 hu hm
      subst h
      simp [updateByUidL, ihc p hc hnd'.1 hfx,
        updateByUidL_of_notMem u f cs hcs]
    | none =>
      rw [hc, Option.none_or] at h
      have hcu : u ∉ c.uids := by
        rw [mem_uids_iff_findByUid, hc]
        simp
      simp [updateByUidL, updateByUid_of_notMem u f c hcu,
        ihcs n h hnd'.2.1 hfx]

/-! ## Counting machinery for markers and permalink anchors -/

theorem isMarkerV_vtext (s : String) : View.isMarkerV (.vtext s) = false := rfl

theorem isSelfLinkV_vtext (s : String) :
    View.isSelfLinkV (.vtext s) = false := rfl

theorem Node.preVL_append (xs ys : List Node) :
    Node.preVL (xs ++ ys) = Node.preVL xs ++ Node.preVL ys := by
  simp [Node.preVL, Node.preL_append]

theorem isMarkerV_of_tag_a (u : Nat) (a : Attrs) :
    View.isMarkerV (View.velem u "a" a) = false := by
  have h : ("a" == "span") = false := by decide
  simp [View.isMarkerV, h]

theorem isSelfLinkV_of_tag_span (u : Nat) (a : Attrs) :
    View.isSelfLinkV (View.velem u "span" a) = false := by
  have h : ("span" == "a") = false := by decide
  simp [View.isSelfLinkV, h]

theorem newAnchor_preV (u : Nat) :
    (newAnchor u).preV = [View.velem u "a" { classes := ["self-link"] }] := rfl

theorem newMarker_preV (u : Nat) :
    (newMarker u).preV =
      [View.velem u "span"
        { classes := ["marker", "dfn-exported"]
          title := some "Definition can be referenced by other specifications" },
       View.vtext "exported"] := rfl

theorem setAnchor_preV (d : String) (w : Nat) (tg : String) (a : Attrs)
    (cs : List Node) :
    (setAnchor d (Node.elem w tg a cs)).preV =
      [View.velem w tg
        { a with
          href := some ("#" ++ d)
          ariaLabel := some ("Permalink for definition: " ++ d ++
            ". Activate to close this dialog.") },
       View.vtext "Permalink"] := rfl

theorem countP_marker_newAnchor (u : Nat) :
    ((newAnchor u).preV.countP View.isMarkerV) = 0 := by
  rw [newAnchor_preV]
  simp [List.countP_cons, isMarkerV_of_tag_a]

theorem countP_marker_newMarker (u : Nat) :
    ((newMarker u).preV.countP View.isMarkerV) = 1 := by
  rw [newMarker_preV]
  have h : View.isMarkerV (View.velem u "span"
      { classes := ["marker", "dfn-exported"]
        title := some "Definition can be referenced by other specifications" })
      = true := by
    simp only [View.isMarkerV]
    decide
  simp [List.countP_cons, h, isMarkerV_vtext]

theorem countP_selfLink_newAnchor (u : Nat) :
    ((newAnchor u).preV.countP View.isSelfLinkV) = 1 := by
  rw [newAnchor_preV]
  have h : View.isSelfLinkV (View.velem u "a" { classes := ["self-link"] })
      = true := by
    simp only [View.isSelfLinkV]
    decide
  simp [List.countP_cons, h]

theorem countP_selfLink_newMarker (u : Nat) :
    ((newMarker u).preV.countP View.isSelfLinkV) = 0 := by
  rw [newMarker_preV]
  simp [List.countP_cons, isSelfLinkV_of_tag_span, isSelfLinkV_vtext]

/-- Marker count as a `countP` over descendant views. -/
theorem countPV_marker_eq (t : Node) :
    t.descV.countP View.isMarkerV = markerCount t := by
  rw [markerCount_eq_V, markerCountV, List.countP_eq_length_filter]

theorem countPV_selfLink_eq (t : Node) :
    t.descV.countP View.isSelfLinkV = selfLinkCount t := by
  rw [selfLinkCount_eq_V, selfLinkCountV, List.countP_eq_length_filter]

theorem markerCount_eq_zero_of_find?_none (t : Node)
    (h : t.descendants.find? Node.isMarker = none) : markerCount t = 0 := by
  rw [markerCount, List.length_eq_zero]
  rw [List.find?_eq_none] at h
  rw [List.filter_eq_nil_iff]
  intro a ha
  simp [h a ha]

theorem markerCount_pos_of_find?_some (t mk : Node)
    (h : t.descendants.find? Node.isMarker = some mk) : 1 ≤ markerCount t := by
  have h1 : Node.isMarker mk = true := List.find?_some h
  have h2 : mk ∈ t.descendants := List.mem_of_find?_eq_some h
  have h3 : mk ∈ t.descendants.filter Node.isMarker :=
    List.mem_filter.mpr ⟨h2, h1⟩
  exact List.length_pos.mpr (List.ne_nil_of_mem h3)

theorem selfLinkCount_eq_zero_of_find?_none (t : Node)
    (h : t.descendants.find? Node.isSelfLink = none) : selfLinkCount t = 0 := by
  rw [selfLinkCount, List.length_eq_zero]
  rw [List.find?_eq_none] at h
  rw [List.filter_eq_nil_iff]
  intro a ha
  simp [h a ha]

theorem selfLinkCount_pos_of_find?_some (t a : Node)
    (h : t.descendants.find? Node.isSelfLink = some a) :
    1 ≤ selfLinkCount t := by
  have h1 : Node.isSelfLink a = true := List.find?_some h
  have h2 : a ∈ t.descendants := List.mem_of_find?_eq_some h
  have h3 : a ∈ t.descendants.filter Node.isSelfLink :=
    List.mem_filter.mpr ⟨h2, h1⟩
  exact List.length_pos.mpr (List.ne_nil_of_mem h3)

/-- Marker bookkeeping for one successful run of the per-panel loop body on
a matched panel that starts with at most one exported marker: afterwards the
panel has exactly one marker if the resolved definition is exported and none
otherwise (lines 60-76). -/
theorem processPanel_marker_count (fname : String)
    (lookup : String → Option Node)
    (fresh : Nat) (panel p2 : Node) (f2 : Nat) (sfx : String)
    (h : processPanel fname lookup fresh panel = .ok (p2, f2))
    (hps : panelSuffix (panel.attrsD.id.getD "") = some sfx)
    (hnd : panel.uids.Nodup) (hmax : ∀ x ∈ panel.uids, x < fresh)
    (hle : markerCount panel ≤ 1) :
    markerCount p2 =
      if exportStatus ((lookup (dfnIdOf sfx)).orElse fun _ => lookup sfx) = true
      then 1 else 0 := by
  rcases processPanel_spec fname lookup fresh panel p2 f2 h with
    ⟨hn, -, -⟩ | ⟨sfx', hps', aUid, panel1, f1, hanch, hbr⟩
  · rw [hps] at hn
    cases hn
  · have hsfx : sfx' = sfx := Option.some.inj (hps'.symm.trans hps)
    subst sfx'
    obtain ⟨anchor1, HF1, HU1, HS1, HV1, HR1, HLE1, HALT, HND1, HM1⟩ :=
      processPanel_anchor_facts fresh panel aUid panel1 f1 hnd hmax hanch
    obtain ⟨wa, tga, aa, csa, haeq⟩ := elem_of_isSelfLink anchor1 HS1
    subst haeq
    have hwa : wa = aUid := by simpa [Node.uid?] using HU1
    subst wa
    have htga : tga = "a" := by
      simp only [Node.isSelfLink, Bool.and_eq_true, beq_iff_eq] at HS1
      exact HS1.1
    subst tga
    -- stage 1 (locate or create the anchor) keeps the marker count
    have hcount1 : panel1.descV.countP View.isMarkerV =
        panel.descV.countP View.isMarkerV := by
      rcases hanch with ⟨a, hfa, haU, hp1, hf1⟩ | ⟨hfa, d, hfd, haU, hp1, hf1⟩
      · rw [hp1]
      · have hfound := find?_desc_found Node.isDiv panel d hfd
        have hduid : d.uid? = some d.uidD := uid_of_isDiv d hfound.2
        have hfind_d : findByUid d.uidD panel = some d :=
          findByUid_of_find?_desc Node.isDiv panel d hnd hfd hduid
        have hroot_d : panel.uid? ≠ some d.uidD :=
          desc_uid_ne_root Node.isDiv panel d hnd hfd hduid
        obtain ⟨wd, tgd, ad, csd, hde⟩ := elem_of_isDiv d hfound.2
        rw [hp1]
        simp only [insertFirstUid]
        obtain ⟨A1, B1, h1a, h1b⟩ := descV_update d.uidD
          (fun n => match n with
            | .elem w t a cs => .elem w t a (newAnchor fresh :: cs)
            | n => n) panel d hfind_d hnd hroot_d
        rw [h1a, h1b, hde]
        simp [List.countP_append, List.countP_cons, Node.preV_elem,
          Node.preVL_cons, countP_marker_newAnchor]
    -- stage 2 (rewrite the anchor in place) can only lose markers that sat
    -- inside the anchor
    obtain ⟨A2, B2, h2a, h2b⟩ := descV_update aUid (setAnchor (dfnIdOf sfx))
      panel1 _ HF1 HND1 HR1
    have hcount2 :
        (updateByUid aUid (setAnchor (dfnIdOf sfx)) panel1).descV.countP
            View.isMarkerV +
          (Node.preVL csa).countP View.isMarkerV =
        panel1.descV.countP View.isMarkerV := by
      rw [h2a, h2b, setAnchor_preV]
      simp [List.countP_append, List.countP_cons, Node.preV_elem,
        Node.preVL_cons, isMarkerV_of_tag_a, isMarkerV_vtext]
      omega
    -- Nodup and root facts for the post-anchor panel
    obtain ⟨A3, B3, hA3, hB3⟩ := uids_updateByUid aUid
      (setAnchor (dfnIdOf sfx)) panel1 _ HF1 HND1
    have hnd2 : (updateByUid aUid (setAnchor (dfnIdOf sfx)) panel1).uids.Nodup := by
      rw [hB3]
      refine nodup_segment_replace (hA3 ▸ HND1) ?_ ?_
      · rw [setAnchor_uids]
        exact List.nodup_singleton aUid
      · intro x hx
        rw [setAnchor_uids] at hx
        rcases List.mem_singleton.mp hx with rfl
        exact .inl (by simp)
    have hview2 : (updateByUid aUid (setAnchor (dfnIdOf sfx)) panel1).view
        = panel1.view := view_update_ne aUid _ panel1 HR1
    have hroot2 : (updateByUid aUid (setAnchor (dfnIdOf sfx)) panel1).uid?
        ≠ some aUid := by
      rw [← Node.view_uid, hview2, Node.view_uid]
      exact HR1
    have hfa2 : findByUid aUid (updateByUid aUid (setAnchor (dfnIdOf sfx)) panel1)
        = some (setAnchor (dfnIdOf sfx) (Node.elem aUid "a" aa csa)) :=
      findByUid_update_self aUid _ panel1 _ HND1 HF1 (setAnchor_uid _ _ _ _ _)
    have hple : panel.descV.countP View.isMarkerV ≤ 1 := by
      rw [countPV_marker_eq]
      exact hle
    rcases hbr with ⟨hexp, hmk, hplace⟩ | ⟨hexp, ⟨mk, hmk⟩, hp2, hf2⟩ |
      ⟨hexp, hcase⟩
    · -- exported, no marker yet: one is created
      rw [if_pos hexp]
      have h0 : (updateByUid aUid (setAnchor (dfnIdOf sfx)) panel1).descV.countP
          View.isMarkerV = 0 := by
        rw [countPV_marker_eq]
        exact markerCount_eq_zero_of_find?_none _ hmk
      rcases hplace with ⟨hsib, hp2, hf2⟩ | ⟨hsib, d2, hdv, hp2, hf2⟩
      · -- inserted directly after the anchor
        obtain ⟨A4, B4, h4a, h4b⟩ := descV_insertAfter aUid (newMarker f1)
          (updateByUid aUid (setAnchor (dfnIdOf sfx)) panel1) _ hfa2 hnd2 hroot2
        rw [← countPV_marker_eq, hp2, h4b]
        rw [h4a] at h0
        simp only [List.countP_append] at h0 ⊢
        rw [countP_marker_newMarker]
        omega
      · -- appended as last child of the first inner div
        have hfound2 := find?_desc_found Node.isDiv _ d2 hdv
        have hd2uid : d2.uid? = some d2.uidD := uid_of_isDiv d2 hfound2.2
        have hfind_d2 : findByUid d2.uidD
            (updateByUid aUid (setAnchor (dfnIdOf sfx)) panel1) = some d2 :=
          findByUid_of_find?_desc Node.isDiv _ d2 hnd2 hdv hd2uid
        have hroot_d2 : (updateByUid aUid (setAnchor (dfnIdOf sfx)) panel1).uid?
            ≠ some d2.uidD :=
          desc_uid_ne_root Node.isDiv _ d2 hnd2 hdv hd2uid
        obtain ⟨w2, tg2, a2, cs2, hd2e⟩ := elem_of_isDiv d2 hfound2.2
        rw [← countPV_marker_eq, hp2]
        simp only [appendChildUid]
        obtain ⟨A5, B5, h5a, h5b⟩ := descV_update d2.uidD
          (fun n => match n with
            | .elem w t a cs => .elem w t a (cs ++ [newMarker f1])
            | n => n) _ d2 hfind_d2 hnd2 hroot_d2
        rw [h5b, hd2e]
        rw [h5a, hd2e] at h0
        simp only [List.countP_append, Node.preV_elem, Node.preVL_append,
          Node.preVL_cons, Node.preVL_nil, List.countP_cons,
          List.countP_nil, List.append_nil] at h0 ⊢
        have hnm := countP_marker_newMarker f1
        omega
    · -- exported, marker already present: kept as-is
      rw [if_pos hexp, hp2, ← countPV_marker_eq]
      have hge : 1 ≤ (updateByUid aUid (setAnchor (dfnIdOf sfx)) panel1).descV.countP
          View.isMarkerV := by
        rw [countPV_marker_eq]
        exact markerCount_pos_of_find?_some _ mk hmk
      omega
    · -- not exported: remove the first marker if present
      rw [if_neg (by simp [hexp])]
      rcases hcase with ⟨⟨mk, hmk, hp2⟩, hf2⟩ | ⟨hmk, hp2, hf2⟩
      · have hmkP := find?_desc_found Node.isMarker _ mk hmk
        have hmkuid : mk.uid? = some mk.uidD := uid_of_isMarker mk hmkP.2
        have hfind_mk : findByUid mk.uidD
            (updateByUid aUid (setAnchor (dfnIdOf sfx)) panel1) = some mk :=
          findByUid_of_find?_desc Node.isMarker _ mk hnd2 hmk hmkuid
        have hroot_mk : (updateByUid aUid (setAnchor (dfnIdOf sfx)) panel1).uid?
            ≠ some mk.uidD :=
          desc_uid_ne_root Node.isMarker _ mk hnd2 hmk hmkuid
        obtain ⟨A6, B6, h6a, h6b⟩ := descV_remove mk.uidD _ mk hfind_mk hnd2 hroot_mk
        have hmkpre : 1 ≤ mk.preV.countP View.isMarkerV := by
          rw [Node.preV_eq_cons, List.countP_cons]
          have : View.isMarkerV mk.view = true := by
            rw [← isMarker_view]
            exact hmkP.2
          simp [this]
        rw [← countPV_marker_eq, hp2, h6b]
        rw [h6a] at hcount2
        simp only [List.countP_append] at hcount2 ⊢
        omega
      · rw [hp2, ← countPV_marker_eq]
        have h0 : (updateByUid aUid (setAnchor (dfnIdOf sfx)) panel1).descV.countP
            View.isMarkerV = 0 := by
          rw [countPV_marker_eq]
          exact markerCount_eq_zero_of_find?_none _ hmk
        omega

theorem MCl_of_markersClean (t : Node) (h : markersClean t = true) : MCl t := by
  intro mk hmk hisM x hx
  rw [markersClean, List.all_eq_true] at h
  have h1 := h mk (List.mem_filter.mpr ⟨hmk, hisM⟩)
  rw [List.all_eq_true] at h1
  have h2 := h1 x hx
  simp only [Bool.and_eq_true, Bool.not_eq_true'] at h2
  exact ⟨h2.1.1, h2.1.2, h2.2⟩

theorem isMarker_false_of_isSelfLink (n : Node) (h : n.isSelfLink = true) :
    n.isMarker = false := by
  obtain ⟨w, tg, a, cs, he⟩ := elem_of_isSelfLink n h
  subst he
  simp only [Node.isSelfLink, Bool.and_eq_true, beq_iff_eq] at h
  rw [Node.isMarker, h.1]
  simp

theorem isMarker_false_of_isDiv (n : Node) (h : n.isDiv = true) :
    n.isMarker = false := by
  obtain ⟨w, tg, a, cs, he⟩ := elem_of_isDiv n h
  subst he
  simp only [Node.isDiv, beq_iff_eq] at h
  rw [Node.isMarker, h]
  simp

theorem uids_decomp_of_pre (t : Node) (P M S : List Node)
    (h : t.pre = P ++ M ++ S) :
    t.uids = P.filterMap Node.uid? ++ M.filterMap Node.uid? ++
      S.filterMap Node.uid? := by
  rw [Node.uids, h, List.filterMap_append, List.filterMap_append]

/-- Rewriting the subtree at a protected node (a permalink anchor or an
inner container) preserves marker cleanliness, provided the replacement
subtree is itself clean. -/
theorem MCl_update (u : Nat) (f : Node → Node) (t n : Node)
    (hnd : t.uids.Nodup) (hfind : findByUid u t = some n)
    (hM : MCl t)
    (hprot : n.isSelfLink = true ∨ n.isDiv = true)
    (hnew : ∀ mk ∈ (f n).pre, mk.isMarker = true →
      ∀ x ∈ mk.descendants,
        x.isSelfLink = false ∧ x.isDiv = false ∧ x.isMarker = false) :
    MCl (updateByUid u f t) := by
  obtain ⟨P, S, h1, h2⟩ := nodeSegment_updateByUid u f t n hfind hnd
  have hnu : n.uid? = some u := (findByUid_spec u t n hfind).2
  have huidP : ∀ x ∈ P, x.uid? ≠ some u := by
    intro x hx hxu
    have hdecomp := uids_decomp_of_pre t P n.pre S h1
    have hu1 : u ∈ P.filterMap Node.uid? := List.mem_filterMap.mpr ⟨x, hx, hxu⟩
    have hu2 : u ∈ n.pre.filterMap Node.uid? := by
      refine List.mem_filterMap.mpr ⟨n, ?_, hnu⟩
      rw [Node.pre_eq_cons]
      exact List.mem_cons_self _ _
    rw [hdecomp] at hnd
    rw [List.append_assoc] at hnd
    have := (List.nodup_append.mp hnd).2.2
    exact this hu1 (List.mem_append.mpr (.inl hu2))
  intro mk hmk hisM x hx
  rw [h2] at hmk
  rcases List.mem_append.mp hmk with hmk' | hmk'
  · rcases List.mem_append.mp hmk' with hmk'' | hmk''
    · -- mk comes from the prefix: an original node, possibly with the
      -- rewritten subtree inside it
      obtain ⟨y, hy, hyeq⟩ := List.mem_map.mp hmk''
      by_cases hyu : u ∈ y.uids
      · -- y would be a marker ancestor of the protected node: impossible
        exfalso
        have hyuid : y.uid? ≠ some u := huidP y hy
        have hview : (updateByUid u f y).view = y.view := view_update_ne u f y hyuid
        have hisMy : y.isMarker = true := by
          rw [isMarker_view, ← hview, ← isMarker_view, hyeq]
          exact hisM
        have hyt : y ∈ t.pre := by
          rw [h1]
          exact List.mem_append.mpr (.inl (List.mem_append.mpr (.inl hy)))
        obtain ⟨z, hz⟩ := Option.isSome_iff_exists.mp
          ((mem_uids_iff_findByUid u y).mp hyu)
        have hzy : z ∈ y.pre := (findByUid_spec u y z hz).1
        have hzu : z.uid? = some u := (findByUid_spec u y z hz).2
        have hzt : z ∈ t.pre := mem_pre_trans t y z hyt hzy
        have hzn : z = n := by
          have h3 : findByUid u t = some z := findByUid_of_mem_pre u t z hnd hzt hzu
          rw [hfind] at h3
          exact (Option.some.inj h3).symm
        subst hzn
        have hnne : z ≠ y := fun he => hyuid (he ▸ hzu)
        have hzdesc : z ∈ y.descendants := by
          rw [Node.pre_eq_cons] at hzy
          rcases List.mem_cons.mp hzy with he | hd
          · exact absurd he hnne
          · exact hd
        have := hM y hyt hisMy z hzdesc
        rcases hprot with hp | hp
        · rw [this.1] at hp
          cases hp
        · rw [this.2.1] at hp
          cases hp
      · -- untouched original marker
        have hfix : updateByUid u f y = y := updateByUid_of_notMem u f y hyu
        have hmky : mk = y := by rw [← hyeq, hfix]
        rw [hmky] at hisM hx
        have hyt : y ∈ t.pre := by
          rw [h1]
          exact List.mem_append.mpr (.inl (List.mem_append.mpr (.inl hy)))
        exact hM y hyt hisM x hx
    · exact hnew mk hmk'' hisM x hx
  · have hmkt : mk ∈ t.pre := by
      rw [h1]
      exact List.mem_append.mpr (.inr hmk')
    exact hM mk hmkt hisM x hx

theorem eq_of_mem_filter_length_one {α : Type} {p : α → Bool} {l : List α}
    {a b : α}
    (hlen : (l.filter p).length = 1) (ha : a ∈ l) (hpa : p a = true)
    (hb : b ∈ l) (hpb : p b = true) : a = b := by
  obtain ⟨x, hx⟩ := List.length_eq_one.mp hlen
  have ha' : a ∈ l.filter p := List.mem_filter.mpr ⟨ha, hpa⟩
  have hb' : b ∈ l.filter p := List.mem_filter.mpr ⟨hb, hpb⟩
  rw [hx, List.mem_singleton] at ha' hb'
  rw [ha', hb']

theorem setAnchor_idem (d : String) (x : Node) :
    setAnchor d (setAnchor d x) = setAnchor d x := by
  cases x <;> rfl

theorem isSelfLink_false_of_isMarker (n : Node) (h : n.isMarker = true) :
    n.isSelfLink = false := by
  cases hsl : n.isSelfLink with
  | false => rfl
  | true =>
    rw [isMarker_false_of_isSelfLink n hsl] at h
    cases h

/-- Anchor bookkeeping for one successful run of the per-panel loop body on
a matched panel that starts with at most one permalink anchor and clean
markers: afterwards the panel has exactly one permalink anchor, it points to
the bare fragment for the computed definition id, reads `Permalink`, and is
a fixed point of the anchor rewrite (lines 49-58). -/
theorem processPanel_anchor_post (fname : String) (lookup : String → Option Node)
    (fresh : Nat) (panel p2 : Node) (f2 : Nat) (sfx : String)
    (h : processPanel fname lookup fresh panel = .ok (p2, f2))
    (hps : panelSuffix (panel.attrsD.id.getD "") = some sfx)
    (hnd : panel.uids.Nodup) (hmax : ∀ x ∈ panel.uids, x < fresh)
    (hsl : selfLinkCount panel ≤ 1)
    (hmc : markersClean panel = true) :
    selfLinkCount p2 = 1 ∧
    ∃ a2, a2 ∈ p2.descendants ∧ a2.isSelfLink = true ∧
      setAnchor (dfnIdOf sfx) a2 = a2 ∧
      a2.attrsD.href = some ("#" ++ dfnIdOf sfx) ∧
      a2.attrsD.ariaLabel = some ("Permalink for definition: " ++ dfnIdOf sfx ++
        ". Activate to close this dialog.") ∧
      a2.children = [Node.text "Permalink"] := by
  obtain ⟨-, -, -, hviewP2⟩ :=
    processPanel_uids fname lookup fresh panel p2 f2 h hnd hmax
  rcases processPanel_spec fname lookup fresh panel p2 f2 h with
    ⟨hn, -, -⟩ | ⟨sfx', hps', aUid, panel1, f1, hanch, hbr⟩
  · rw [hps] at hn
    cases hn
  · have hsfx : sfx' = sfx := Option.some.inj (hps'.symm.trans hps)
    subst sfx'
    obtain ⟨anchor1, HF1, HU1, HS1, HV1, HR1, HLE1, HALT, HND1, HM1⟩ :=
      processPanel_anchor_facts fresh panel aUid panel1 f1 hnd hmax hanch
    obtain ⟨wa, tga, aa, csa, haeq⟩ := elem_of_isSelfLink anchor1 HS1
    subst haeq
    have hwa : wa = aUid := by simpa [Node.uid?] using HU1
    subst wa
    have htga : tga = "a" := by
      have := HS1
      simp only [Node.isSelfLink, Bool.and_eq_true, beq_iff_eq] at this
      exact this.1
    subst tga
    have hclsm : classMatch "self-link" aa.classes = true := by
      have := HS1
      simp only [Node.isSelfLink, Bool.and_eq_true, beq_iff_eq] at this
      exact this.2
    have hM : MCl panel := MCl_of_markersClean panel hmc
    have hheadSL : View.isSelfLinkV (View.velem aUid "a" aa) = true := by
      have := HS1
      rw [isSelfLink_view] at this
      simpa [Node.view] using this
    -- stage 1: exactly one anchor, markers stay clean
    have hstage1 : panel1.descV.countP View.isSelfLinkV = 1 ∧ MCl panel1 := by
      rcases hanch with ⟨a, hfa, haU, hp1, hf1⟩ | ⟨hfa, d, hfd, haU, hp1, hf1⟩
      · constructor
        · rw [hp1, countPV_selfLink_eq]
          have := selfLinkCount_pos_of_find?_some panel a hfa
          omega
        · rw [hp1]
          exact hM
      · have hfound := find?_desc_found Node.isDiv panel d hfd
        have hduid : d.uid? = some d.uidD := uid_of_isDiv d hfound.2
        have hfind_d : findByUid d.uidD panel = some d :=
          findByUid_of_find?_desc Node.isDiv panel d hnd hfd hduid
        have hroot_d : panel.uid? ≠ some d.uidD :=
          desc_uid_ne_root Node.isDiv panel d hnd hfd hduid
        obtain ⟨wd, tgd, ad, csd, hde⟩ := elem_of_isDiv d hfound.2
        have htgd : tgd = "div" := by
          have := hfound.2
          rw [hde] at this
          simpa [Node.isDiv] using this
        have hsl0 : selfLinkCount panel = 0 :=
          selfLinkCount_eq_zero_of_find?_none panel hfa
      
        constructor
        · rw [hp1]
          simp only [insertFirstUid]
          obtain ⟨A1, B1, h1a, h1b⟩ := descV_update d.uidD
            (fun n => match n with
              | .elem w t a cs => .elem w t a (newAnchor fresh :: cs)
              | n => n) panel d hfind_d hnd hroot_d
          have hz : panel.descV.countP View.isSelfLinkV = 0 := by
            rw [countPV_selfLink_eq]
            exact hsl0
          rw [h1a, hde] at hz
          simp only [List.countP_append, Node.preV_elem, Node.preVL_cons,
            List.countP_cons] at hz
          rw [h1b, hde]
          have hna := countP_selfLink_newAnchor fresh
          simp [List.countP_append, Node.preV_elem, Node.preVL_cons,
            List.countP_cons, hna]
          omega
        · rw [hp1]
          simp only [insertFirstUid]
          refine MCl_update d.uidD _ panel d hnd hfind_d hM (.inr hfound.2) ?_
          intro mk hmk hisM x hx
          rw [hde] at hmk
          simp only [Node.pre_elem, Node.preL_cons] at hmk
          rcases List.mem_cons.mp hmk with he | hmk'
          · exfalso
            rw [he, htgd] at hisM
            have hq : ("div" == "span") = false := by decide
            simp [Node.isMarker, hq] at hisM
          · rcases List.mem_append.mp hmk' with hmk'' | hmk''
            · exfalso
              rw [newAnchor, Node.pre_elem] at hmk''
              rcases List.mem_cons.mp hmk'' with he | he
              · rw [he] at hisM
                have hq : ("a" == "span") = false := by decide
                simp [Node.isMarker, hq] at hisM
              · simp at he
            · have hdpanel : d ∈ panel.pre := (findByUid_spec _ _ _ hfind_d).1
              have hmkd : mk ∈ d.pre := by
                rw [hde, Node.pre_elem]
                exact List.mem_cons_of_mem _ hmk''
              exact hM mk (mem_pre_trans panel d mk hdpanel hmkd) hisM x hx
    -- stage 2
    obtain ⟨A2, B2, h2a, h2b⟩ := descV_update aUid (setAnchor (dfnIdOf sfx))
      panel1 _ HF1 HND1 HR1
    have hparts := hstage1.1
    rw [h2a] at hparts
    simp [List.countP_append, Node.preV_elem, Node.preVL_cons,
      List.countP_cons, hheadSL] at hparts
    have hheadSL' : View.isSelfLinkV (View.velem aUid "a"
        { aa with
          href := some ("#" ++ dfnIdOf sfx)
          ariaLabel := some ("Permalink for definition: " ++ dfnIdOf sfx ++
            ". Activate to close this dialog.") }) = true := hheadSL
    have hsl2 : (updateByUid aUid (setAnchor (dfnIdOf sfx)) panel1).descV.countP
        View.isSelfLinkV = 1 := by
      rw [h2b, setAnchor_preV]
      simp [List.countP_append, List.countP_cons, List.countP_nil,
        hheadSL', isSelfLinkV_vtext]
      omega
    have hM2 : MCl (updateByUid aUid (setAnchor (dfnIdOf sfx)) panel1) := by
      refine MCl_update aUid _ panel1 _ HND1 HF1 hstage1.2 (.inl HS1) ?_
      intro mk hmk hisM x hx
      exfalso
      simp only [setAnchor, Node.pre_elem, Node.preL_cons, Node.pre_text,
        Node.preL_nil] at hmk
      rcases List.mem_cons.mp hmk with he | hmk'
      · rw [he] at hisM
        have hq : ("a" == "span") = false := by decide
        simp [Node.isMarker, hq] at hisM
      · simp at hmk'
        rw [hmk'] at hisM
        simp [Node.isMarker] at hisM
    obtain ⟨A3, B3, hA3, hB3⟩ := uids_updateByUid aUid
      (setAnchor (dfnIdOf sfx)) panel1 _ HF1 HND1
    have hnd2 : (updateByUid aUid (setAnchor (dfnIdOf sfx)) panel1).uids.Nodup := by
      rw [hB3]
      refine nodup_segment_replace (hA3 ▸ HND1) ?_ ?_
      · rw [setAnchor_uids]
        exact List.nodup_singleton aUid
      · intro x hx
        rw [setAnchor_uids] at hx
        rcases List.mem_singleton.mp hx with rfl
        exact .inl (by simp)
    have hview2 : (updateByUid aUid (setAnchor (dfnIdOf sfx)) panel1).view
        = panel1.view := view_update_ne aUid _ panel1 HR1
    have hroot2 : (updateByUid aUid (setAnchor (dfnIdOf sfx)) panel1).uid?
        ≠ some aUid := by
      rw [← Node.view_uid, hview2, Node.view_uid]
      exact HR1
    have hfa2 : findByUid aUid (updateByUid aUid (setAnchor (dfnIdOf sfx)) panel1)
        = some (setAnchor (dfnIdOf sfx) (Node.elem aUid "a" aa csa)) :=
      findByUid_update_self aUid _ panel1 _ HND1 HF1 (setAnchor_uid _ _ _ _ _)
    have ha2mem2 : setAnchor (dfnIdOf sfx) (Node.elem aUid "a" aa csa) ∈
        (updateByUid aUid (setAnchor (dfnIdOf sfx)) panel1).pre :=
      (findByUid_spec _ _ _ hfa2).1
    have ha2uid : (setAnchor (dfnIdOf sfx) (Node.elem aUid "a" aa csa)).uid?
        = some aUid := setAnchor_uid _ _ _ _ _
    have ha2self : (setAnchor (dfnIdOf sfx) (Node.elem aUid "a" aa csa)).isSelfLink
        = true := by
      simp [setAnchor, Node.isSelfLink, hclsm]
    have ha2uids : (setAnchor (dfnIdOf sfx) (Node.elem aUid "a" aa csa)).uids
        = [aUid] := setAnchor_uids _ _ _ _ _
    have ha2marker : (setAnchor (dfnIdOf sfx) (Node.elem aUid "a" aa csa)).isMarker
        = false := isMarker_false_of_isSelfLink _ ha2self
    -- per-branch: the final tree keeps exactly one anchor, namely the
    -- rewritten one
    have hmain : p2.descV.countP View.isSelfLinkV = 1 ∧
        setAnchor (dfnIdOf sfx) (Node.elem aUid "a" aa csa) ∈ p2.pre := by
      rcases hbr with ⟨hexp, hmk, hplace⟩ | ⟨hexp, ⟨mk, hmk⟩, hp2, hf2⟩ |
        ⟨hexp, hcase⟩
      · rcases hplace with ⟨hsib, hp2, hf2⟩ | ⟨hsib, d2, hdv, hp2, hf2⟩
        · obtain ⟨A4, B4, h4a, h4b⟩ := descV_insertAfter aUid (newMarker f1)
            (updateByUid aUid (setAnchor (dfnIdOf sfx)) panel1) _ hfa2 hnd2 hroot2
          constructor
          · rw [hp2, h4b]
            rw [h4a] at hsl2
            simp only [List.countP_append] at hsl2 ⊢
            have hnm := countP_selfLink_newMarker f1
            omega
          · rw [hp2]
            have hne : aUid ∉ (newMarker f1).uids := by
              rw [newMarker_uids]
              intro hmem
              rcases List.mem_singleton.mp hmem with rfl
              exact lt_irrefl _ HALT
            have := findByUid_insertAfter_self aUid (newMarker f1)
              (updateByUid aUid (setAnchor (dfnIdOf sfx)) panel1) _ hnd2 hfa2 hne
            exact (findByUid_spec _ _ _ this).1
        · have hfound2 := find?_desc_found Node.isDiv _ d2 hdv
          have hd2uid : d2.uid? = some d2.uidD := uid_of_isDiv d2 hfound2.2
          have hfind_d2 : findByUid d2.uidD
              (updateByUid aUid (setAnchor (dfnIdOf sfx)) panel1) = some d2 :=
            findByUid_of_find?_desc Node.isDiv _ d2 hnd2 hdv hd2uid
          have hroot_d2 : (updateByUid aUid (setAnchor (dfnIdOf sfx)) panel1).uid?
              ≠ some d2.uidD :=
            desc_uid_ne_root Node.isDiv _ d2 hnd2 hdv hd2uid
          obtain ⟨w2, tg2, a2', cs2, hd2e⟩ := elem_of_isDiv d2 hfound2.2
          have hd2ne : d2.uidD ≠ aUid := by
            intro he
            rw [he] at hfind_d2
            rw [hfa2] at hfind_d2
            have heq := Option.some.inj hfind_d2
            have hself_d2 : d2.isSelfLink = true := by
              rw [← heq]
              exact ha2self
            have hdv2 := hfound2.2
            rw [hd2e] at hself_d2 hdv2
            simp only [Node.isDiv, beq_iff_eq] at hdv2
            rw [hdv2] at hself_d2
            have hq : ("div" == "a") = false := by decide
            simp [Node.isSelfLink, hq] at hself_d2
          constructor
          · rw [hp2]
            simp only [appendChildUid]
            obtain ⟨A5, B5, h5a, h5b⟩ := descV_update d2.uidD
              (fun n => match n with
                | .elem w t a cs => .elem w t a (cs ++ [newMarker f1])
                | n => n) _ d2 hfind_d2 hnd2 hroot_d2
            rw [h5b, hd2e]
            rw [h5a, hd2e] at hsl2
            have hnm := countP_selfLink_newMarker f1
            simp [List.countP_append, Node.preV_elem, Node.preVL_append,
              Node.preVL_cons, Node.preVL_nil, List.countP_cons,
              List.countP_nil, List.append_nil] at hsl2 ⊢
            omega
          · rw [hp2]
            refine mem_pre_appendChildUid d2.uidD (newMarker f1) _ d2 _
              hnd2 hfind_d2 ha2mem2 ?_
            rw [ha2uids]
            intro hmem
            exact hd2ne (List.mem_singleton.mp hmem)
      · constructor
        · rw [hp2]
          exact hsl2
        · rw [hp2]
          exact ha2mem2
      · rcases hcase with ⟨⟨mk, hmk, hp2⟩, hf2⟩ | ⟨hmk, hp2, hf2⟩
        · have hmkP := find?_desc_found Node.isMarker _ mk hmk
          have hmkuid : mk.uid? = some mk.uidD := uid_of_isMarker mk hmkP.2
          have hfind_mk : findByUid mk.uidD
              (updateByUid aUid (setAnchor (dfnIdOf sfx)) panel1) = some mk :=
            findByUid_of_find?_desc Node.isMarker _ mk hnd2 hmk hmkuid
          have hroot_mk : (updateByUid aUid (setAnchor (dfnIdOf sfx)) panel1).uid?
              ≠ some mk.uidD :=
            desc_uid_ne_root Node.isMarker _ mk hnd2 hmk hmkuid
          have hmkne : mk.uidD ≠ aUid := by
            intro he
            rw [he] at hfind_mk
            rw [hfa2] at hfind_mk
            have heq := Option.some.inj hfind_mk
            have hmarker_mk : mk.isMarker = false := by
              rw [← heq]
              exact ha2marker
            rw [hmkP.2] at hmarker_mk
            cases hmarker_mk
          have hanotin : aUid ∉ mk.uids := by
            intro hmem
            obtain ⟨z, hz⟩ := Option.isSome_iff_exists.mp
              ((mem_uids_iff_findByUid aUid mk).mp hmem)
            have hzmk : z ∈ mk.pre := (findByUid_spec _ _ _ hz).1
            have hzu : z.uid? = some aUid := (findByUid_spec _ _ _ hz).2
            have hmk2 : mk ∈ (updateByUid aUid (setAnchor (dfnIdOf sfx))
                panel1).pre := hmkP.1
            have hz2 : z ∈ (updateByUid aUid (setAnchor (dfnIdOf sfx))
                panel1).pre := mem_pre_trans _ mk z hmk2 hzmk
            have h3 : findByUid aUid (updateByUid aUid (setAnchor (dfnIdOf sfx))
                panel1) = some z := findByUid_of_mem_pre aUid _ z hnd2 hz2 hzu
            rw [hfa2] at h3
            have hza := Option.some.inj h3
            have hzne : z ≠ mk := by
              intro he
              rw [he] at hzu
              rw [hmkuid] at hzu
              exact hmkne (Option.some.inj hzu)
            have hzdesc : z ∈ mk.descendants := by
              rw [Node.pre_eq_cons] at hzmk
              rcases List.mem_cons.mp hzmk with he | hd
              · exact absurd he hzne
              · exact hd
            have hcopy := ha2self
            rw [hza] at hcopy
            rw [(hM2 mk hmk2 hmkP.2 z hzdesc).1] at hcopy
            cases hcopy
          obtain ⟨A6, B6, h6a, h6b⟩ := descV_remove mk.uidD _ mk hfind_mk
            hnd2 hroot_mk
          have hmkSLz : mk.preV.countP View.isSelfLinkV = 0 := by
            have hin : ∀ x ∈ mk.descendants, x.isSelfLink = false := by
              intro x hx
              exact (hM2 mk hmkP.1 hmkP.2 x hx).1
            have hnode : (mk.descendants.filter Node.isSelfLink).length = 0 := by
              rw [List.length_eq_zero, List.filter_eq_nil_iff]
              intro x hx
              simp [hin x hx]
            have hview : (mk.descV.filter View.isSelfLinkV).length = 0 := by
              rw [Node.descV] at *
              rw [← length_filter_map_view Node.isSelfLink View.isSelfLinkV
                isSelfLink_view mk.descendants]
              exact hnode
            rw [Node.preV_eq_cons, List.countP_cons]
            have hmkview : View.isSelfLinkV mk.view = false := by
              rw [← isSelfLink_view]
              exact isSelfLink_false_of_isMarker mk hmkP.2
            rw [List.countP_eq_length_filter]
            simp [hmkview, hview]
          constructor
          · rw [hp2, h6b]
            rw [h6a] at hsl2
            simp only [List.countP_append] at hsl2 ⊢
            omega
          · rw [hp2]
            refine mem_pre_removeByUid_outside mk.uidD _ mk _ aUid hnd2
              hfind_mk hroot_mk ha2mem2 ha2uid ?_ hanotin
            rw [ha2uids]
            intro hmem
            exact hmkne (List.mem_singleton.mp hmem)
        · constructor
          · rw [hp2]
            exact hsl2
          · rw [hp2]
            exact ha2mem2
    -- assemble
    refine ⟨?_, setAnchor (dfnIdOf sfx) (Node.elem aUid "a" aa csa), ?_,
      ha2self, setAnchor_idem _ _, ?_, ?_, ?_⟩
    · rw [← countPV_selfLink_eq]
      exact hmain.1
    · -- the rewritten anchor is a strict descendant of the final panel
      have hp2uid : p2.uid? ≠ some aUid := by
        rw [← Node.view_uid, hviewP2, Node.view_uid, ← Node.view_uid, ← HV1,
          Node.view_uid]
        exact HR1
      have := hmain.2
      rw [Node.pre_eq_cons] at this
      rcases List.mem_cons.mp this with he | hd
      · exfalso
        rw [← he] at hp2uid
        exact hp2uid ha2uid
      · exact hd
    · rfl
    · rfl
    · rfl

/-! ## Document-level consequences -/

theorem mem_le_foldr_max : ∀ {l : List Nat} {x : Nat}, x ∈ l →
    x ≤ l.foldr max 0 := by
  intro l
  induction l with
  | nil => intro x hx; cases hx
  | cons a l ih =>
    intro x hx
    rcases List.mem_cons.mp hx with rfl | hx'
    · exact le_max_left _ _
    · exact le_trans (ih hx') (le_max_right _ _)

theorem uid_lt_succ_maxUid (t : Node) : ∀ x ∈ t.uids, x < t.maxUid + 1 := by
  intro x hx
  have := mem_le_foldr_max hx
  rw [Node.maxUid]
  omega

theorem panelUids_mem_uids (root : Node) (u : Nat)
    (h : u ∈ panelUids root) : u ∈ root.uids := by
  rw [panelUids] at h
  obtain ⟨p, hp, hpu⟩ := List.mem_filterMap.mp h
  have hp' : p ∈ root.descendants := (List.mem_filter.mp hp).1
  rw [Node.uids, List.mem_filterMap]
  refine ⟨p, ?_, hpu⟩
  rw [Node.pre_eq_cons]
  exact List.mem_cons_of_mem _ hp'

/-- C4 (amended).  A panel of the `panels` list whose id does not match the
`dfn-panel-for-` pattern is skipped, and — provided the panel subtrees are
pairwise disjoint, so that no other panel's edits can reach inside it — the
node found at its identity after the transform is exactly the original
subtree.  (Without disjointness the claim fails: a mismatched panel nested
inside a matched panel's subtree can be edited, see the counterexample.) -/
theorem skip_mismatched_panel_preserved (fname : String) (root out : Node)
    (u : Nat) (panel : Node)
    (h : transformDoc fname root = .ok out)
    (hnd : root.uids.Nodup)
    (hpw : (panelUids root).Pairwise
      (fun a b => ∀ x ∈ subtreeUids a root, x ∉ subtreeUids b root))
    (hu : u ∈ panelUids root)
    (hfind : findByUid u root = some panel)
    (hps : panelSuffix (panel.attrsD.id.getD "") = none) :
    findByUid u out = some panel := by
  rw [transformDoc] at h
  obtain ⟨-, hb, -, -, -⟩ := processPanels_spec fname (dfnLookup root)
    (panelUids root) (root.maxUid + 1) root out h hnd
    (uid_lt_succ_maxUid root) hpw (fun v hv => panelUids_mem_uids root v hv)
  obtain ⟨p, p', f, f', h1, -, -, h2, h3⟩ := hb u hu
  rw [hfind] at h1
  have hp : p = panel := (Option.some.inj h1).symm
  subst hp
  rcases processPanel_spec fname (dfnLookup root) f p p' f' h2 with
    ⟨-, hp2, -⟩ | ⟨sfx', hps', -⟩
  · rw [hp2] at h3
    exact h3
  · rw [hps] at hps'
    cases hps'

/-- C2 (amended).  For a matched panel of a document with unique identities
and pairwise-disjoint panel subtrees that starts with at most one exported
marker: after the transform the subtree at the panel's identity has exactly
one exported marker if the resolved definition is exported (the `export`
class or the `data-export` attribute, resolved via the id-indexed map with
the raw-suffix fallback), and zero markers otherwise — including when no
definition was resolved. -/
theorem marker_sync_amended (fname : String) (root out : Node)
    (u : Nat) (panel : Node) (sfx : String)
    (h : transformDoc fname root = .ok out)
    (hnd : root.uids.Nodup)
    (hpw : (panelUids root).Pairwise
      (fun a b => ∀ x ∈ subtreeUids a root, x ∉ subtreeUids b root))
    (hu : u ∈ panelUids root)
    (hfind : findByUid u root = some panel)
    (hps : panelSuffix (panel.attrsD.id.getD "") = some sfx)
    (hle : markerCount panel ≤ 1) :
    ∃ p2, findByUid u out = some p2 ∧
      markerCount p2 =
        if exportStatus ((dfnLookup root (dfnIdOf sfx)).orElse
            fun _ => dfnLookup root sfx) = true then 1 else 0 := by
  rw [transformDoc] at h
  obtain ⟨-, hb, -, -, -⟩ := processPanels_spec fname (dfnLookup root)
    (panelUids root) (root.maxUid + 1) root out h hnd
    (uid_lt_succ_maxUid root) hpw (fun v hv => panelUids_mem_uids root v hv)
  obtain ⟨p, p', f, f', h1, hpnd, hpmax, h2, h3⟩ := hb u hu
  rw [hfind] at h1
  have hp : p = panel := (Option.some.inj h1).symm
  subst hp
  exact ⟨p', h3, processPanel_marker_count fname (dfnLookup root) f p p' f'
    sfx h2 hps hpnd hpmax hle⟩

/-- C3 (amended).  For a matched panel of a document with unique identities
and pairwise-disjoint panel subtrees that starts with at most one permalink
anchor and with clean markers: after the transform the subtree at the
panel's identity contains exactly one permalink anchor; its target is the
bare fragment `#` + the computed definition id (never filename-qualified),
its text is the literal `Permalink`, and its `aria-label` is the fixed
template — whether or not a backing definition exists. -/
theorem permalink_sync_amended (fname : String) (root out : Node)
    (u : Nat) (panel : Node) (sfx : String)
    (h : transformDoc fname root = .ok out)
    (hnd : root.uids.Nodup)
    (hpw : (panelUids root).Pairwise
      (fun a b => ∀ x ∈ subtreeUids a root, x ∉ subtreeUids b root))
    (hu : u ∈ panelUids root)
    (hfind : findByUid u root = some panel)
    (hps : panelSuffix (panel.attrsD.id.getD "") = some sfx)
    (hsl : selfLinkCount panel ≤ 1)
    (hmc : markersClean panel = true) :
    ∃ p2, findByUid u out = some p2 ∧ selfLinkCount p2 = 1 ∧
      ∃ a2, a2 ∈ p2.descendants ∧ a2.isSelfLink = true ∧
        a2.attrsD.href = some ("#" ++ dfnIdOf sfx) ∧
        a2.attrsD.ariaLabel = some ("Permalink for definition: " ++
          dfnIdOf sfx ++ ". Activate to close this dialog.") ∧
        a2.children = [Node.text "Permalink"] := by
  rw [transformDoc] at h
  obtain ⟨-, hb, -, -, -⟩ := processPanels_spec fname (dfnLookup root)
    (panelUids root) (root.maxUid + 1) root out h hnd
    (uid_lt_succ_maxUid root) hpw (fun v hv => panelUids_mem_uids root v hv)
  obtain ⟨p, p', f, f', h1, hpnd, hpmax, h2, h3⟩ := hb u hu
  rw [hfind] at h1
  have hp : p = panel := (Option.some.inj h1).symm
  subst hp
  obtain ⟨hcnt, a2, hmem, hself, -, hhref, haria, hch⟩ :=
    processPanel_anchor_post fname (dfnLookup root) f p p' f' sfx h2 hps
      hpnd hpmax hsl hmc
  exact ⟨p', h3, hcnt, a2, hmem, hself, hhref, haria, hch⟩

/-! ## C10: panels that start with several markers -/

theorem Node.self_mem_pre (t : Node) : t ∈ t.pre := by
  rw [Node.pre_eq_cons]
  exact List.mem_cons_self _ _

theorem selfLinksClean_spec (t : Node) (h : selfLinksClean t = true) :
    ∀ a ∈ t.pre, a.isSelfLink = true →
      ∀ x ∈ a.descendants, x.isMarker = false := by
  intro a ha hsl x hx
  rw [selfLinksClean, List.all_eq_true] at h
  have h1 := h a (List.mem_filter.mpr ⟨ha, hsl⟩)
  rw [List.all_eq_true] at h1
  have h2 := h1 x hx
  simpa using h2

theorem countPV_marker_zero_of_all (n : Node)
    (h : ∀ x ∈ n.descendants, x.isMarker = false) :
    n.descV.countP View.isMarkerV = 0 := by
  rw [List.countP_eq_length_filter, Node.descV,
    ← length_filter_map_view Node.isMarker View.isMarkerV isMarker_view]
  rw [List.length_eq_zero, List.filter_eq_nil_iff]
  intro x hx
  simp [h x hx]

/-- Marker bookkeeping on a matched, non-exported panel that starts with
two or more markers: exactly one marker (the first one found) is removed,
so at least one marker remains (lines 74-76). -/
theorem processPanel_double_marker (fname : String)
    (lookup : String → Option Node)
    (fresh : Nat) (panel p2 : Node) (f2 : Nat) (sfx : String)
    (h : processPanel fname lookup fresh panel = .ok (p2, f2))
    (hps : panelSuffix (panel.attrsD.id.getD "") = some sfx)
    (hnd : panel.uids.Nodup) (hmax : ∀ x ∈ panel.uids, x < fresh)
    (hexp : exportStatus ((lookup (dfnIdOf sfx)).orElse
      fun _ => lookup sfx) = false)
    (hge : 2 ≤ markerCount panel)
    (hmc : markersClean panel = true)
    (hsc : selfLinksClean panel = true) :
    markerCount p2 = markerCount panel - 1 ∧ 1 ≤ markerCount p2 := by
  rcases processPanel_spec fname lookup fresh panel p2 f2 h with
    ⟨hn, -, -⟩ | ⟨sfx', hps', aUid, panel1, f1, hanch, hbr⟩
  · rw [hps] at hn
    cases hn
  · have hsfx : sfx' = sfx := Option.some.inj (hps'.symm.trans hps)
    subst sfx'
    obtain ⟨anchor1, HF1, HU1, HS1, HV1, HR1, HLE1, HALT, HND1, HM1⟩ :=
      processPanel_anchor_facts fresh panel aUid panel1 f1 hnd hmax hanch
    obtain ⟨wa, tga, aa, csa, haeq⟩ := elem_of_isSelfLink anchor1 HS1
    subst haeq
    have hwa : wa = aUid := by simpa [Node.uid?] using HU1
    subst wa
    have htga : tga = "a" := by
      have := HS1
      simp only [Node.isSelfLink, Bool.and_eq_true, beq_iff_eq] at this
      exact this.1
    subst tga
    have hM : MCl panel := MCl_of_markersClean panel hmc
    -- stage 1: marker count preserved, markers stay clean, and the anchor
    -- has no markers inside it
    have hstage1 : panel1.descV.countP View.isMarkerV =
        panel.descV.countP View.isMarkerV ∧ MCl panel1 ∧
        (Node.preVL csa).countP View.isMarkerV = 0 := by
      rcases hanch with ⟨a, hfa, haU, hp1, hf1⟩ | ⟨hfa, d, hfd, haU, hp1, hf1⟩
      · refine ⟨by rw [hp1], by rw [hp1]; exact hM, ?_⟩
        have hmem : Node.elem aUid "a" aa csa ∈ panel.pre := by
          have := (findByUid_spec _ _ _ HF1).1
          rw [hp1] at this
          exact this
        have hall := selfLinksClean_spec panel hsc _ hmem HS1
        have := countPV_marker_zero_of_all (Node.elem aUid "a" aa csa) hall
        simpa [Node.descV, Node.preVL] using this
      · have hfound := find?_desc_found Node.isDiv panel d hfd
        have hduid : d.uid? = some d.uidD := uid_of_isDiv d hfound.2
        have hfind_d : findByUid d.uidD panel = some d :=
          findByUid_of_find?_desc Node.isDiv panel d hnd hfd hduid
        have hroot_d : panel.uid? ≠ some d.uidD :=
          desc_uid_ne_root Node.isDiv panel d hnd hfd hduid
        obtain ⟨wd, tgd, ad, csd, hde⟩ := elem_of_isDiv d hfound.2
        have htgd : tgd = "div" := by
          have := hfound.2
          rw [hde] at this
          simpa [Node.isDiv] using this
        have hcsa : csa = [] := by
          have hnewmem : newAnchor fresh ∈ panel1.pre := by
            rw [hp1]
            simp only [insertFirstUid]
            obtain ⟨P, S, hP, hQ⟩ := nodeSegment_updateByUid d.uidD
              (fun n => match n with
                | .elem w t a cs => .elem w t a (newAnchor fresh :: cs)
                | n => n) panel d hfind_d hnd
            rw [hQ, hde]
            refine List.mem_append.mpr (.inl (List.mem_append.mpr (.inr ?_)))
            show newAnchor fresh ∈
              (Node.elem wd tgd ad (newAnchor fresh :: csd)).pre
            rw [Node.pre_elem, Node.preL_cons]
            exact List.mem_cons_of_mem _
              (List.mem_append.mpr (.inl (Node.self_mem_pre _)))
          have hf : findByUid fresh panel1 = some (newAnchor fresh) :=
            findByUid_of_mem_pre fresh panel1 _ HND1 hnewmem (newAnchor_uid fresh)
          rw [haU] at HF1
          rw [hf] at HF1
          have := Option.some.inj HF1
          rw [newAnchor] at this
          exact (Node.elem.injEq _ _ _ _ _ _ _ _).mp this.symm |>.2.2.2
        constructor
        · rw [hp1]
          simp only [insertFirstUid]
          obtain ⟨A1, B1, h1a, h1b⟩ := descV_update d.uidD
            (fun n => match n with
              | .elem w t a cs => .elem w t a (newAnchor fresh :: cs)
              | n => n) panel d hfind_d hnd hroot_d
          rw [h1a, h1b, hde]
          simp [List.countP_append, List.countP_cons, Node.preV_elem,
            Node.preVL_cons, countP_marker_newAnchor]
        constructor
        · rw [hp1]
          simp only [insertFirstUid]
          refine MCl_update d.uidD _ panel d hnd hfind_d hM (.inr hfound.2) ?_
          intro mk hmk hisM x hx
          rw [hde] at hmk
          simp only [Node.pre_elem, Node.preL_cons] at hmk
          rcases List.mem_cons.mp hmk with he | hmk'
          · exfalso
            rw [he, htgd] at hisM
            have hq : ("div" == "span") = false := by decide
            simp [Node.isMarker, hq] at hisM
          · rcases List.mem_append.mp hmk' with hmk'' | hmk''
            · exfalso
              rw [newAnchor, Node.pre_elem] at hmk''
              rcases List.mem_cons.mp hmk'' with he | he
              · rw [he] at hisM
                have hq : ("a" == "span") = false := by decide
                simp [Node.isMarker, hq] at hisM
              · simp at he
            · have hdpanel : d ∈ panel.pre := (findByUid_spec _ _ _ hfind_d).1
              have hmkd : mk ∈ d.pre := by
                rw [hde, Node.pre_elem]
                exact List.mem_cons_of_mem _ hmk''
              exact hM mk (mem_pre_trans panel d mk hdpanel hmkd) hisM x hx
        · rw [hcsa]
          rfl
    -- stage 2: marker count preserved exactly, markers stay clean
    obtain ⟨A2, B2, h2a, h2b⟩ := descV_update aUid (setAnchor (dfnIdOf sfx))
      panel1 _ HF1 HND1 HR1
    have hcount2 :
        (updateByUid aUid (setAnchor (dfnIdOf sfx)) panel1).descV.countP
          View.isMarkerV = panel1.descV.countP View.isMarkerV := by
      rw [h2a, h2b, setAnchor_preV]
      have hz := hstage1.2.2
      simp [List.countP_append, List.countP_cons, List.countP_nil,
        Node.preV_elem, Node.preVL_cons, isMarkerV_of_tag_a,
        isMarkerV_vtext, hz]
    have hM2 : MCl (updateByUid aUid (setAnchor (dfnIdOf sfx)) panel1) := by
      refine MCl_update aUid _ panel1 _ HND1 HF1 hstage1.2.1 (.inl HS1) ?_
      intro mk hmk hisM x hx
      exfalso
      simp only [setAnchor, Node.pre_elem, Node.preL_cons, Node.pre_text,
        Node.preL_nil] at hmk
      rcases List.mem_cons.mp hmk with he | hmk'
      · rw [he] at hisM
        have hq : ("a" == "span") = false := by decide
        simp [Node.isMarker, hq] at hisM
      · simp at hmk'
        rw [hmk'] at hisM
        simp [Node.isMarker] at hisM
    obtain ⟨A3, B3, hA3, hB3⟩ := uids_updateByUid aUid
      (setAnchor (dfnIdOf sfx)) panel1 _ HF1 HND1
    have hnd2 : (updateByUid aUid (setAnchor (dfnIdOf sfx)) panel1).uids.Nodup := by
      rw [hB3]
      refine nodup_segment_replace (hA3 ▸ HND1) ?_ ?_
      · rw [setAnchor_uids]
        exact List.nodup_singleton aUid
      · intro x hx
        rw [setAnchor_uids] at hx
        rcases List.mem_singleton.mp hx with rfl
        exact .inl (by simp)
    have hcnt2 : (updateByUid aUid (setAnchor (dfnIdOf sfx)) panel1).descV.countP
        View.isMarkerV = panel.descV.countP View.isMarkerV := by
      rw [hcount2, hstage1.1]
    have hge' : 2 ≤ panel.descV.countP View.isMarkerV := by
      rw [countPV_marker_eq]
      exact hge
    rcases hbr with ⟨hexp', -⟩ | ⟨hexp', -⟩ | ⟨-, hcase⟩
    · rw [hexp'] at hexp
      cases hexp
    · rw [hexp'] at hexp
      cases hexp
    · rcases hcase with ⟨⟨mk, hmk, hp2⟩, hf2⟩ | ⟨hmk, hp2, hf2⟩
      · have hmkP := find?_desc_found Node.isMarker _ mk hmk
        have hmkuid : mk.uid? = some mk.uidD := uid_of_isMarker mk hmkP.2
        have hfind_mk : findByUid mk.uidD
            (updateByUid aUid (setAnchor (dfnIdOf sfx)) panel1) = some mk :=
          findByUid_of_find?_desc Node.isMarker _ mk hnd2 hmk hmkuid
        have hroot_mk : (updateByUid aUid (setAnchor (dfnIdOf sfx)) panel1).uid?
            ≠ some mk.uidD :=
          desc_uid_ne_root Node.isMarker _ mk hnd2 hmk hmkuid
        obtain ⟨A6, B6, h6a, h6b⟩ := descV_remove mk.uidD _ mk hfind_mk
          hnd2 hroot_mk
        have hmkcnt : mk.preV.countP View.isMarkerV = 1 := by
          have hin : ∀ x ∈ mk.descendants, x.isMarker = false := by
            intro x hx
            exact (hM2 mk hmkP.1 hmkP.2 x hx).2.2
          have hz := countPV_marker_zero_of_all mk hin
          rw [Node.preV_eq_cons, List.countP_cons]
          have hmkview : View.isMarkerV mk.view = true := by
            rw [← isMarker_view]
            exact hmkP.2
          simp [hmkview, hz]
        rw [← countPV_marker_eq, ← countPV_marker_eq, hp2, h6b]
        rw [h6a] at hcnt2
        simp only [List.countP_append] at hcnt2 ⊢
        omega
      · exfalso
        have h0 : (updateByUid aUid (setAnchor (dfnIdOf sfx)) panel1).descV.countP
            View.isMarkerV = 0 := by
          rw [countPV_marker_eq]
          exact markerCount_eq_zero_of_find?_none _ hmk
        omega

/-- C10 (amended).  A matched, non-exported panel that starts with two or
more exported markers loses exactly one of them (the first one found), so
at least one marker remains after the transform: the script does not
restore the at-most-one-marker property for inputs that violate it —
provided markers do not nest inside each other or hide anchors and inner
containers (a nested second marker would disappear together with the first,
see the counterexample). -/
theorem double_marker_partial_cleanup (fname : String) (root out : Node)
    (u : Nat) (panel : Node) (sfx : String)
    (h : transformDoc fname root = .ok out)
    (hnd : root.uids.Nodup)
    (hpw : (panelUids root).Pairwise
      (fun a b => ∀ x ∈ subtreeUids a root, x ∉ subtreeUids b root))
    (hu : u ∈ panelUids root)
    (hfind : findByUid u root = some panel)
    (hps : panelSuffix (panel.attrsD.id.getD "") = some sfx)
    (hexp : exportStatus ((dfnLookup root (dfnIdOf sfx)).orElse
      fun _ => dfnLookup root sfx) = false)
    (hge : 2 ≤ markerCount panel)
    (hmc : markersClean panel = true)
    (hsc : selfLinksClean panel = true) :
    ∃ p2, findByUid u out = some p2 ∧
      markerCount p2 = markerCount panel - 1 ∧ 1 ≤ markerCount p2 := by
  rw [transformDoc] at h
  obtain ⟨-, hb, -, -, -⟩ := processPanels_spec fname (dfnLookup root)
    (panelUids root) (root.maxUid + 1) root out h hnd
    (uid_lt_succ_maxUid root) hpw (fun v hv => panelUids_mem_uids root v hv)
  obtain ⟨p, p', f, f', h1, hpnd, hpmax, h2, h3⟩ := hb u hu
  rw [hfind] at h1
  have hp : p = panel := (Option.some.inj h1).symm
  subst hp
  exact ⟨p', h3, processPanel_double_marker fname (dfnLookup root) f p p' f'
    sfx h2 hps hpnd hpmax hexp hge hmc hsc⟩

/-! ## C6: where a freshly created marker lands -/

theorem Node.children_elem (w : Nat) (tg : String) (a : Attrs)
    (cs : List Node) : (Node.elem w tg a cs).children = cs := rfl

theorem mem_preL_of_mem : ∀ {cs : List Node} {c : Node}, c ∈ cs →
    c ∈ Node.preL cs := by
  intro cs
  induction cs with
  | nil => intro c hc; cases hc
  | cons d cs ih =>
    intro c hc
    rw [Node.preL_cons]
    rcases List.mem_cons.mp hc with rfl | hc'
    · exact List.mem_append.mpr (.inl (Node.self_mem_pre c))
    · exact List.mem_append.mpr (.inr (ih hc'))

theorem Node.mem_pre_of_child {c parent : Node}
    (h : c ∈ parent.children) : c ∈ parent.pre := by
  cases parent with
  | text s => cases h
  | elem w tg a cs =>
    rw [Node.pre_elem]
    exact List.mem_cons_of_mem _ (mem_preL_of_mem h)

/-- `insert_after` puts the new node directly after the target in the
target's parent's child list. -/
theorem insertAfter_position (u : Nat) (m : Node) :
    ∀ t : Node, u ∈ t.uids → t.uid? ≠ some u →
    ∃ parent, parent ∈ (insertAfterUid u m t).pre ∧
      ∃ i c, parent.children[i]? = some c ∧ c.uid? = some u ∧
        parent.children[i+1]? = some m := by
  refine Node.ind
    (Q := fun cs => u ∈ Node.uidsL cs →
      (∃ i c, (insertAfterUidL u m cs)[i]? = some c ∧ c.uid? = some u ∧
        (insertAfterUidL u m cs)[i+1]? = some m) ∨
      (∃ parent, parent ∈ Node.preL (insertAfterUidL u m cs) ∧
        ∃ i c, parent.children[i]? = some c ∧ c.uid? = some u ∧
          parent.children[i+1]? = some m)) ?_ ?_ ?_ ?_
  · intro s hu
    simp [Node.uids, Node.pre, Node.uid?] at hu
  · intro w tg a cs ih hu hroot
    have hw : w ≠ u := fun hwu => hroot (by simp [Node.uid?, hwu])
    have hu' : u ∈ Node.uidsL cs := by
      rcases List.mem_cons.mp (by simpa using hu) with he | h'
      · exact absurd he.symm hw
      · exact h'
    rcases ih hu' with ⟨i, c, h1, h2, h3⟩ | ⟨parent, hp, hrest⟩
    · refine ⟨Node.elem w tg a (insertAfterUidL u m cs), ?_, i, c, ?_, h2, ?_⟩
      · show _ ∈ (insertAfterUid u m (Node.elem w tg a cs)).pre
        rw [insertAfterUid, Node.pre_elem]
        exact List.mem_cons_self _ _
      · rw [Node.children_elem]
        exact h1
      · rw [Node.children_elem]
        exact h3
    · refine ⟨parent, ?_, hrest⟩
      show _ ∈ (insertAfterUid u m (Node.elem w tg a cs)).pre
      rw [insertAfterUid, Node.pre_elem]
      exact List.mem_cons_of_mem _ hp
  · intro hu
    simp at hu
  · intro c cs ihc ihcs hu
    by_cases hcu : c.uid? = some u
    · refine .inl ⟨0, c, ?_, hcu, ?_⟩
      · rw [insertAfterUidL, if_pos hcu]
        rfl
      · rw [insertAfterUidL, if_pos hcu]
        simp
    · rcases List.mem_append.mp (by simpa using hu) with h' | h'
      · rcases ihc h' (fun hh => hcu hh) with ⟨parent, hp, hrest⟩
        refine .inr ⟨parent, ?_, hrest⟩
        rw [insertAfterUidL, if_neg hcu, Node.preL_cons]
        exact List.mem_append.mpr (.inl hp)
      · rcases ihcs h' with ⟨i, d, h1, h2, h3⟩ | ⟨parent, hp, hrest⟩
        · refine .inl ⟨i + 1, d, ?_, h2, ?_⟩
          · rw [insertAfterUidL, if_neg hcu, List.getElem?_cons_succ]
            exact h1
          · rw [insertAfterUidL, if_neg hcu, List.getElem?_cons_succ]
            exact h3
        · refine .inr ⟨parent, ?_, hrest⟩
          rw [insertAfterUidL, if_neg hcu, Node.preL_cons]
          exact List.mem_append.mpr (.inr hp)

/-- Rewriting the subtree of the first inner `div` in place (keeping it a
`div`) leaves it the first inner `div`: the part of the preorder before it
holds no `div`, and the update preserves every view outside the rewritten
subtree. -/
theorem find?_div_update (g : Node → Node) (t d2 : Node)
    (hnd : t.uids.Nodup)
    (hfd : t.descendants.find? Node.isDiv = some d2)
    (hgdiv : (g d2).isDiv = true) :
    (updateByUid d2.uidD g t).descendants.find? Node.isDiv = some (g d2) := by
  have hfound := find?_desc_found Node.isDiv t d2 hfd
  have hduid : d2.uid? = some d2.uidD := uid_of_isDiv d2 hfound.2
  have hfind : findByUid d2.uidD t = some d2 :=
    findByUid_of_find?_desc Node.isDiv t d2 hnd hfd hduid
  have hroot : t.uid? ≠ some d2.uidD := desc_uid_ne_root Node.isDiv t d2 hnd hfd hduid
  obtain ⟨P, S, hPS, hPS2⟩ := nodeSegment_updateByUid d2.uidD g t d2 hfind hnd
  cases P with
  | nil =>
    exfalso
    rw [Node.pre_eq_cons t, Node.pre_eq_cons d2, List.nil_append] at hPS
    have ht : t = d2 := (List.cons.inj hPS).1
    exact hroot (ht ▸ hduid)
  | cons q P' =>
    have hq : q = t := by
      have := hPS
      rw [Node.pre_eq_cons t] at this
      exact ((List.cons.inj this).1).symm
    subst q
    have hdesc : t.descendants = P' ++ d2.pre ++ S := by
      have := hPS
      rw [Node.pre_eq_cons t] at this
      simpa using (List.cons.inj this).2
    -- members of the prefix carry a uid different from d2's
    have hP'uid : ∀ x ∈ P', x.uid? ≠ some d2.uidD := by
      have hdecomp := uids_decomp_of_pre t (t :: P') d2.pre S hPS
      intro x hx hxe
      have hmem1 : d2.uidD ∈ (t :: P').filterMap Node.uid? :=
        List.mem_filterMap.mpr ⟨x, List.mem_cons_of_mem _ hx, hxe⟩
      have hmem2 : d2.uidD ∈ d2.pre.filterMap Node.uid? := by
        rw [Node.pre_eq_cons d2]
        exact List.mem_filterMap.mpr ⟨d2, List.mem_cons_self _ _, hduid⟩
      have hnd2 := hdecomp ▸ hnd
      rw [List.append_assoc, List.nodup_append] at hnd2
      exact hnd2.2.2 hmem1 (List.mem_append.mpr (.inl hmem2))
    -- the prefix holds no div
    have hP'none : P'.find? Node.isDiv = none := by
      cases hy : P'.find? Node.isDiv with
      | none => rfl
      | some y =>
        exfalso
        have : (P' ++ d2.pre ++ S).find? Node.isDiv = some y := by
          rw [List.append_assoc, List.find?_append, hy]
          rfl
        rw [← hdesc, hfd] at this
        have hyd : d2 = y := Option.some.inj this
        subst hyd
        exact hP'uid d2 (List.mem_of_find?_eq_some hy) hduid
    -- the updated tree's descendant list
    have hdesc2 : (updateByUid d2.uidD g t).descendants =
        P'.map (updateByUid d2.uidD g) ++ (g d2).pre ++ S := by
      have := hPS2
      rw [List.map_cons, Node.pre_eq_cons (updateByUid d2.uidD g t)] at this
      simpa using (List.cons.inj this).2
    rw [hdesc2, List.append_assoc, List.find?_append]
    have hmapnone : (P'.map (updateByUid d2.uidD g)).find? Node.isDiv = none := by
      rw [List.find?_eq_none]
      intro y hy
      obtain ⟨x, hx, hxy⟩ := List.mem_map.mp hy
      subst hxy
      have hview : (updateByUid d2.uidD g x).view = x.view :=
        view_update_ne d2.uidD g x (hP'uid x hx)
      have hxdiv : x.isDiv = false := by
        have := List.find?_eq_none.mp hP'none x hx
        simpa using this
      rw [isDiv_view, hview, ← isDiv_view, hxdiv]
      simp
    rw [hmapnone, List.find?_append]
    rw [Node.pre_eq_cons (g d2), List.find?_cons_of_pos _ hgdiv]
    rfl

/-- Placement of a freshly created exported marker (lines 64-73), with the
branch tied to its condition: the marker goes directly after the permalink
anchor among its parent's children exactly when the anchor has a truthy
following sibling after the permalink step, and otherwise it is appended as
the last child of the panel's first inner `div` — not of the panel itself. -/
theorem processPanel_marker_placement (fname : String)
    (lookup : String → Option Node)
    (fresh : Nat) (panel p2 : Node) (f2 : Nat) (sfx : String)
    (h : processPanel fname lookup fresh panel = .ok (p2, f2))
    (hps : panelSuffix (panel.attrsD.id.getD "") = some sfx)
    (hnd : panel.uids.Nodup) (hmax : ∀ x ∈ panel.uids, x < fresh)
    (hexp : exportStatus ((lookup (dfnIdOf sfx)).orElse
      fun _ => lookup sfx) = true)
    (hzero : markerCount panel = 0) :
    ∃ aUid p1 f1, f2 = f1 + 1 ∧
      ((∃ a, panel.descendants.find? Node.isSelfLink = some a ∧ aUid = a.uidD ∧
          p1 = updateByUid aUid (setAnchor (dfnIdOf sfx)) panel ∧ f1 = fresh) ∨
       (panel.descendants.find? Node.isSelfLink = none ∧
        ∃ d, panel.descendants.find? Node.isDiv = some d ∧ aUid = fresh ∧
          p1 = updateByUid aUid (setAnchor (dfnIdOf sfx))
            (insertFirstUid d.uidD (newAnchor fresh) panel) ∧ f1 = fresh + 1)) ∧
      ((nextSibTruthy aUid p1 = true ∧
          p2 = insertAfterUid aUid (newMarker f1) p1 ∧
          ∃ parent, parent ∈ p2.pre ∧ ∃ i a2, parent.children[i]? = some a2 ∧
            a2.uid? = some aUid ∧ a2.isSelfLink = true ∧
            parent.children[i+1]? = some (newMarker f1)) ∨
       (nextSibTruthy aUid p1 = false ∧
          ∃ d2, p1.descendants.find? Node.isDiv = some d2 ∧
            p2 = appendChildUid d2.uidD (newMarker f1) p1 ∧
            ∃ d', p2.descendants.find? Node.isDiv = some d' ∧
              d'.children.getLast? = some (newMarker f1))) := by
  obtain ⟨hndP2, -, -, -⟩ :=
    processPanel_uids fname lookup fresh panel p2 f2 h hnd hmax
  rcases processPanel_spec fname lookup fresh panel p2 f2 h with
    ⟨hn, -, -⟩ | ⟨sfx', hps', aUid, panel1, f1, hanch, hbr⟩
  · rw [hps] at hn
    cases hn
  · have hsfx : sfx' = sfx := Option.some.inj (hps'.symm.trans hps)
    subst sfx'
    obtain ⟨anchor1, HF1, HU1, HS1, HV1, HR1, HLE1, HALT, HND1, HM1⟩ :=
      processPanel_anchor_facts fresh panel aUid panel1 f1 hnd hmax hanch
    obtain ⟨wa, tga, aa, csa, haeq⟩ := elem_of_isSelfLink anchor1 HS1
    subst haeq
    have hwa : wa = aUid := by simpa [Node.uid?] using HU1
    subst wa
    have htga : tga = "a" := by
      have := HS1
      simp only [Node.isSelfLink, Bool.and_eq_true, beq_iff_eq] at this
      exact this.1
    subst tga
    have hclsm : classMatch "self-link" aa.classes = true := by
      have := HS1
      simp only [Node.isSelfLink, Bool.and_eq_true, beq_iff_eq] at this
      exact this.2
    -- the marker count stays zero up to the marker stage
    have hcount1 : panel1.descV.countP View.isMarkerV =
        panel.descV.countP View.isMarkerV := by
      rcases hanch with ⟨a, hfa, haU, hp1, hf1⟩ | ⟨hfa, d, hfd, haU, hp1, hf1⟩
      · rw [hp1]
      · have hfound := find?_desc_found Node.isDiv panel d hfd
        have hduid : d.uid? = some d.uidD := uid_of_isDiv d hfound.2
        have hfind_d : findByUid d.uidD panel = some d :=
          findByUid_of_find?_desc Node.isDiv panel d hnd hfd hduid
        have hroot_d : panel.uid? ≠ some d.uidD :=
          desc_uid_ne_root Node.isDiv panel d hnd hfd hduid
        obtain ⟨wd, tgd, ad, csd, hde⟩ := elem_of_isDiv d hfound.2
        rw [hp1]
        simp only [insertFirstUid]
        obtain ⟨A1, B1, h1a, h1b⟩ := descV_update d.uidD
          (fun n => match n with
            | .elem w t a cs => .elem w t a (newAnchor fresh :: cs)
            | n => n) panel d hfind_d hnd hroot_d
        rw [h1a, h1b, hde]
        simp [List.countP_append, List.countP_cons, Node.preV_elem,
          Node.preVL_cons, countP_marker_newAnchor]
    obtain ⟨A2, B2, h2a, h2b⟩ := descV_update aUid (setAnchor (dfnIdOf sfx))
      panel1 _ HF1 HND1 HR1
    have hcount2 :
        (updateByUid aUid (setAnchor (dfnIdOf sfx)) panel1).descV.countP
            View.isMarkerV +
          (Node.preVL csa).countP View.isMarkerV =
        panel1.descV.countP View.isMarkerV := by
      rw [h2a, h2b, setAnchor_preV]
      simp [List.countP_append, List.countP_cons, Node.preV_elem,
        Node.preVL_cons, isMarkerV_of_tag_a, isMarkerV_vtext]
      omega
    obtain ⟨A3, B3, hA3, hB3⟩ := uids_updateByUid aUid
      (setAnchor (dfnIdOf sfx)) panel1 _ HF1 HND1
    have hnd2 : (updateByUid aUid (setAnchor (dfnIdOf sfx)) panel1).uids.Nodup := by
      rw [hB3]
      refine nodup_segment_replace (hA3 ▸ HND1) ?_ ?_
      · rw [setAnchor_uids]
        exact List.nodup_singleton aUid
      · intro x hx
        rw [setAnchor_uids] at hx
        rcases List.mem_singleton.mp hx with rfl
        exact .inl (by simp)
    have hview2 : (updateByUid aUid (setAnchor (dfnIdOf sfx)) panel1).view
        = panel1.view := view_update_ne aUid _ panel1 HR1
    have hroot2 : (updateByUid aUid (setAnchor (dfnIdOf sfx)) panel1).uid?
        ≠ some aUid := by
      rw [← Node.view_uid, hview2, Node.view_uid]
      exact HR1
    have hfa2 : findByUid aUid (updateByUid aUid (setAnchor (dfnIdOf sfx)) panel1)
        = some (setAnchor (dfnIdOf sfx) (Node.elem aUid "a" aa csa)) :=
      findByUid_update_self aUid _ panel1 _ HND1 HF1 (setAnchor_uid _ _ _ _ _)
    have ha2self : (setAnchor (dfnIdOf sfx) (Node.elem aUid "a" aa csa)).isSelfLink
        = true := by
      simp [setAnchor, Node.isSelfLink, hclsm]
    have hzero2 : (updateByUid aUid (setAnchor (dfnIdOf sfx)) panel1).descV.countP
        View.isMarkerV = 0 := by
      have hz : panel.descV.countP View.isMarkerV = 0 := by
        rw [countPV_marker_eq]
        exact hzero
      omega
    have hanchT : (∃ a, panel.descendants.find? Node.isSelfLink = some a ∧
        aUid = a.uidD ∧
        updateByUid aUid (setAnchor (dfnIdOf sfx)) panel1 =
          updateByUid aUid (setAnchor (dfnIdOf sfx)) panel ∧ f1 = fresh) ∨
        (panel.descendants.find? Node.isSelfLink = none ∧
         ∃ d, panel.descendants.find? Node.isDiv = some d ∧ aUid = fresh ∧
          updateByUid aUid (setAnchor (dfnIdOf sfx)) panel1 =
            updateByUid aUid (setAnchor (dfnIdOf sfx))
              (insertFirstUid d.uidD (newAnchor fresh) panel) ∧
          f1 = fresh + 1) := by
      rcases hanch with ⟨a, hfa, haU, hp1, hf1⟩ | ⟨hfa, d, hfd, haU, hp1, hf1⟩
      · exact .inl ⟨a, hfa, haU, by rw [hp1], hf1⟩
      · exact .inr ⟨hfa, d, hfd, haU, by rw [hp1], hf1⟩
    rcases hbr with ⟨hexp', hmk, hplace⟩ | ⟨hexp', ⟨mk, hmk⟩, hp2, hf2⟩ |
      ⟨hexp', -⟩
    · rcases hplace with ⟨hsib, hp2, hf2⟩ | ⟨hsib, d2, hdv, hp2, hf2⟩
      · -- sibling case: directly after the anchor
        refine ⟨aUid, updateByUid aUid (setAnchor (dfnIdOf sfx)) panel1, f1,
          hf2, hanchT, .inl ⟨hsib, hp2, ?_⟩⟩
        have haU2 : aUid ∈ (updateByUid aUid (setAnchor (dfnIdOf sfx))
            panel1).uids := findByUid_mem_uids aUid _ _ hfa2
        obtain ⟨parent, hpmem, i, c, hc1, hc2, hc3⟩ :=
          insertAfter_position aUid (newMarker f1) _ haU2 hroot2
        have hcp2 : c ∈ p2.pre := by
          rw [hp2]
          exact mem_pre_trans _ parent c hpmem (Node.mem_pre_of_child
            (List.getElem?_mem hc1))
        have hfc : findByUid aUid p2 = some c :=
          findByUid_of_mem_pre aUid p2 c hndP2 hcp2 hc2
        have hne : aUid ∉ (newMarker f1).uids := by
          rw [newMarker_uids]
          intro hmem
          rcases List.mem_singleton.mp hmem with rfl
          exact lt_irrefl _ HALT
        have hfa3 : findByUid aUid p2 =
            some (setAnchor (dfnIdOf sfx) (Node.elem aUid "a" aa csa)) := by
          rw [hp2]
          exact findByUid_insertAfter_self aUid (newMarker f1) _ _ hnd2 hfa2 hne
        rw [hfc] at hfa3
        have hceq := Option.some.inj hfa3
        refine ⟨parent, ?_, i, c, hc1, hc2, ?_, hc3⟩
        · rw [hp2]
          exact hpmem
        · rw [hceq]
          exact ha2self
      · -- no truthy sibling: appended to the first inner div
        refine ⟨aUid, updateByUid aUid (setAnchor (dfnIdOf sfx)) panel1, f1,
          hf2, hanchT, .inr ⟨hsib, d2, hdv, hp2, ?_⟩⟩
        have hfound2 := find?_desc_found Node.isDiv _ d2 hdv
        obtain ⟨w2, tg2, a2', cs2, hd2e⟩ := elem_of_isDiv d2 hfound2.2
        have htg2 : tg2 = "div" := by
          have := hfound2.2
          rw [hd2e] at this
          simpa [Node.isDiv] using this
        have hgdiv : ((fun n => match n with
            | Node.elem w t a cs => Node.elem w t a (cs ++ [newMarker f1])
            | n => n) d2).isDiv = true := by
          rw [hd2e]
          show (Node.elem w2 tg2 a2' (cs2 ++ [newMarker f1])).isDiv = true
          rw [Node.isDiv, htg2]
          simp
        have hkey := find?_div_update (fun n => match n with
            | Node.elem w t a cs => Node.elem w t a (cs ++ [newMarker f1])
            | n => n) (updateByUid aUid (setAnchor (dfnIdOf sfx)) panel1) d2
            hnd2 hdv hgdiv
        refine ⟨(fun n => match n with
            | Node.elem w t a cs => Node.elem w t a (cs ++ [newMarker f1])
            | n => n) d2, ?_, ?_⟩
        · rw [hp2]
          simp only [appendChildUid]
          exact hkey
        · rw [hd2e]
          show (Node.elem w2 tg2 a2' (cs2 ++ [newMarker f1])).children.getLast?
            = some (newMarker f1)
          rw [Node.children_elem]
          simp
    · -- a marker was found although the panel had none: impossible
      exfalso
      have := markerCount_pos_of_find?_some _ mk hmk
      rw [← countPV_marker_eq] at this
      omega
    · rw [hexp'] at hexp
      cases hexp

/-- C6 (amended).  When the transform creates an exported marker for a
matched, exported panel that had no marker, the branch taken is tied to its
condition: after the permalink step (which reuses the panel's existing
anchor, or creates one as first child of the panel's first inner `div`),
the marker is inserted directly after the permalink anchor among its
parent's children exactly if that anchor has a truthy following sibling,
and otherwise it is appended as the last child of the panel's first inner
`div` — not as the panel's own last child, which is what the specification
wrongly says (see the counterexample). -/
theorem marker_placement_amended (fname : String) (root out : Node)
    (u : Nat) (panel : Node) (sfx : String)
    (h : transformDoc fname root = .ok out)
    (hnd : root.uids.Nodup)
    (hpw : (panelUids root).Pairwise
      (fun a b => ∀ x ∈ subtreeUids a root, x ∉ subtreeUids b root))
    (hu : u ∈ panelUids root)
    (hfind : findByUid u root = some panel)
    (hps : panelSuffix (panel.attrsD.id.getD "") = some sfx)
    (hexp : exportStatus ((dfnLookup root (dfnIdOf sfx)).orElse
      fun _ => dfnLookup root sfx) = true)
    (hzero : markerCount panel = 0) :
    ∃ p2, findByUid u out = some p2 ∧
    ∃ f0 aUid p1 f1,
      ((∃ a, panel.descendants.find? Node.isSelfLink = some a ∧ aUid = a.uidD ∧
          p1 = updateByUid aUid (setAnchor (dfnIdOf sfx)) panel ∧ f1 = f0) ∨
       (panel.descendants.find? Node.isSelfLink = none ∧
        ∃ d, panel.descendants.find? Node.isDiv = some d ∧ aUid = f0 ∧
          p1 = updateByUid aUid (setAnchor (dfnIdOf sfx))
            (insertFirstUid d.uidD (newAnchor f0) panel) ∧ f1 = f0 + 1)) ∧
      ((nextSibTruthy aUid p1 = true ∧
          p2 = insertAfterUid aUid (newMarker f1) p1 ∧
          ∃ parent, parent ∈ p2.pre ∧ ∃ i a2, parent.children[i]? = some a2 ∧
            a2.uid? = some aUid ∧ a2.isSelfLink = true ∧
            parent.children[i+1]? = some (newMarker f1)) ∨
       (nextSibTruthy aUid p1 = false ∧
          ∃ d2, p1.descendants.find? Node.isDiv = some d2 ∧
            p2 = appendChildUid d2.uidD (newMarker f1) p1 ∧
            ∃ d', p2.descendants.find? Node.isDiv = some d' ∧
              d'.children.getLast? = some (newMarker f1))) := by
  rw [transformDoc] at h
  obtain ⟨-, hb, -, -, -⟩ := processPanels_spec fname (dfnLookup root)
    (panelUids root) (root.maxUid + 1) root out h hnd
    (uid_lt_succ_maxUid root) hpw (fun v hv => panelUids_mem_uids root v hv)
  obtain ⟨p, p', f, f', h1, hpnd, hpmax, h2, h3⟩ := hb u hu
  rw [hfind] at h1
  have hp : p = panel := (Option.some.inj h1).symm
  subst hp
  obtain ⟨aUid, p1, f1, -, hanchT, hbranch⟩ :=
    processPanel_marker_placement fname (dfnLookup root)
      f p p' f' sfx h2 hps hpnd hpmax hexp hzero
  exact ⟨p', h3, f, aUid, p1, f1, hanchT, hbranch⟩

/-! ## C7: when the per-panel logic cannot raise -/

theorem isDivV_of_tag_a (u : Nat) (a : Attrs) :
    View.isDivV (View.velem u "a" a) = false := by
  have h : ("a" == "div") = false := by decide
  simp [View.isDivV, h]

theorem isDivV_of_tag_span (u : Nat) (a : Attrs) :
    View.isDivV (View.velem u "span" a) = false := by
  have h : ("span" == "div") = false := by decide
  simp [View.isDivV, h]

theorem isDivV_vtext (s : String) : View.isDivV (.vtext s) = false := rfl

theorem countP_div_newAnchor (u : Nat) :
    ((newAnchor u).preV.countP View.isDivV) = 0 := by
  rw [newAnchor_preV]
  simp [List.countP_cons, isDivV_of_tag_a]

theorem countP_div_newMarker (u : Nat) :
    ((newMarker u).preV.countP View.isDivV) = 0 := by
  rw [newMarker_preV]
  simp [List.countP_cons, isDivV_of_tag_span, isDivV_vtext]

theorem countPV_div_eq (t : Node) :
    t.descV.countP View.isDivV = (t.descendants.filter Node.isDiv).length := by
  rw [List.countP_eq_length_filter, Node.descV,
    ← length_filter_map_view Node.isDiv View.isDivV isDiv_view]

theorem countPV_div_zero_of_all (n : Node)
    (h : ∀ x ∈ n.descendants, x.isDiv = false) :
    n.descV.countP View.isDivV = 0 := by
  rw [countPV_div_eq]
  rw [List.length_eq_zero, List.filter_eq_nil_iff]
  intro x hx
  simp [h x hx]

theorem find?_div_of_countP (t : Node)
    (h : 1 ≤ t.descV.countP View.isDivV) :
    ∃ d, t.descendants.find? Node.isDiv = some d := by
  rw [countPV_div_eq] at h
  have hne : t.descendants.filter Node.isDiv ≠ [] := by
    intro hnil
    rw [hnil] at h
    simp at h
  obtain ⟨x, hx⟩ := List.exists_mem_of_ne_nil _ hne
  have hx' := List.mem_filter.mp hx
  exact Option.isSome_iff_exists.mp
    (List.find?_isSome.mpr ⟨x, hx'.1, hx'.2⟩)

theorem panelSafe_matched (panel : Node) (sfx : String)
    (h : panelSafe panel = true)
    (hps : panelSuffix (panel.attrsD.id.getD "") = some sfx) :
    (∃ d ∈ panel.descendants, d.isDiv = true) ∧
    (∀ a ∈ panel.pre, a.isSelfLink = true →
      ∀ x ∈ a.descendants, x.isDiv = false) := by
  rw [panelSafe, hps, Bool.and_eq_true] at h
  constructor
  · obtain ⟨d, hd, hdd⟩ := List.any_eq_true.mp h.1
    exact ⟨d, hd, hdd⟩
  · intro a ha hsl x hx
    have h1 := List.all_eq_true.mp h.2 a (List.mem_filter.mpr ⟨ha, hsl⟩)
    have h2 := List.all_eq_true.mp h1 x hx
    simpa using h2

/-- On a safe matched panel, the post-anchor tree still has an inner `div`:
the anchor rewrite can only destroy nodes inside the anchor, and no div
hides there. -/
theorem div_in_panel2 (fresh : Nat) (panel : Node) (aUid : Nat)
    (panel1 : Node) (f1 : Nat) (sfx : String)
    (hnd : panel.uids.Nodup) (hmax : ∀ x ∈ panel.uids, x < fresh)
    (hanch :
      (∃ a, panel.descendants.find? Node.isSelfLink = some a ∧ aUid = a.uidD ∧
         panel1 = panel ∧ f1 = fresh) ∨
      (panel.descendants.find? Node.isSelfLink = none ∧
       ∃ d, panel.descendants.find? Node.isDiv = some d ∧
         aUid = fresh ∧ panel1 = insertFirstUid d.uidD (newAnchor fresh) panel ∧
         f1 = fresh + 1))
    (hdiv : ∃ d ∈ panel.descendants, d.isDiv = true)
    (hnodiv : ∀ a ∈ panel.pre, a.isSelfLink = true →
      ∀ x ∈ a.descendants, x.isDiv = false) :
    ∃ d2, (updateByUid aUid (setAnchor (dfnIdOf sfx)) panel1).descendants.find?
      Node.isDiv = some d2 := by
  obtain ⟨anchor1, HF1, HU1, HS1, HV1, HR1, HLE1, HALT, HND1, HM1⟩ :=
    processPanel_anchor_facts fresh panel aUid panel1 f1 hnd hmax hanch
  obtain ⟨wa, tga, aa, csa, haeq⟩ := elem_of_isSelfLink anchor1 HS1
  subst haeq
  have hwa : wa = aUid := by simpa [Node.uid?] using HU1
  subst wa
  have htga : tga = "a" := by
    have := HS1
    simp only [Node.isSelfLink, Bool.and_eq_true, beq_iff_eq] at this
    exact this.1
  subst tga
  have hcnt0 : 1 ≤ panel.descV.countP View.isDivV := by
    obtain ⟨d0, hd0, hd0div⟩ := hdiv
    rw [countPV_div_eq]
    have : d0 ∈ panel.descendants.filter Node.isDiv :=
      List.mem_filter.mpr ⟨hd0, hd0div⟩
    exact List.length_pos.mpr (List.ne_nil_of_mem this)
  -- stage 1 keeps the div count, and the anchor has no divs inside it
  have hstage1 : 1 ≤ panel1.descV.countP View.isDivV ∧
      (Node.preVL csa).countP View.isDivV = 0 := by
    rcases hanch with ⟨a, hfa, haU, hp1, hf1⟩ | ⟨hfa, d, hfd, haU, hp1, hf1⟩
    · constructor
      · rw [hp1]
        exact hcnt0
      · have hmem : Node.elem aUid "a" aa csa ∈ panel.pre := by
          have := (findByUid_spec _ _ _ HF1).1
          rw [hp1] at this
          exact this
        have hall := hnodiv _ hmem HS1
        have := countPV_div_zero_of_all (Node.elem aUid "a" aa csa) hall
        simpa [Node.descV, Node.preVL] using this
    · have hfound := find?_desc_found Node.isDiv panel d hfd
      have hduid : d.uid? = some d.uidD := uid_of_isDiv d hfound.2
      have hfind_d : findByUid d.uidD panel = some d :=
        findByUid_of_find?_desc Node.isDiv panel d hnd hfd hduid
      have hroot_d : panel.uid? ≠ some d.uidD :=
        desc_uid_ne_root Node.isDiv panel d hnd hfd hduid
      obtain ⟨wd, tgd, ad, csd, hde⟩ := elem_of_isDiv d hfound.2
      have hcsa : csa = [] := by
        have hnewmem : newAnchor fresh ∈ panel1.pre := by
          rw [hp1]
          simp only [insertFirstUid]
          obtain ⟨P, S, hP, hQ⟩ := nodeSegment_updateByUid d.uidD
            (fun n => match n with
              | .elem w t a cs => .elem w t a (newAnchor fresh :: cs)
              | n => n) panel d hfind_d hnd
          rw [hQ, hde]
          refine List.mem_append.mpr (.inl (List.mem_append.mpr (.inr ?_)))
          show newAnchor fresh ∈
            (Node.elem wd tgd ad (newAnchor fresh :: csd)).pre
          rw [Node.pre_elem, Node.preL_cons]
          exact List.mem_cons_of_mem _
            (List.mem_append.mpr (.inl (Node.self_mem_pre _)))
        have hf : findByUid fresh panel1 = some (newAnchor fresh) :=
          findByUid_of_mem_pre fresh panel1 _ HND1 hnewmem (newAnchor_uid fresh)
        rw [haU] at HF1
        rw [hf] at HF1
        have := Option.some.inj HF1
        rw [newAnchor] at this
        exact (Node.elem.injEq _ _ _ _ _ _ _ _).mp this.symm |>.2.2.2
      constructor
      · rw [hp1]
        simp only [insertFirstUid]
        obtain ⟨A1, B1, h1a, h1b⟩ := descV_update d.uidD
          (fun n => match n with
            | .elem w t a cs => .elem w t a (newAnchor fresh :: cs)
            | n => n) panel d hfind_d hnd hroot_d
        have hc := hcnt0
        rw [h1a, hde] at hc
        rw [h1b, hde]
        have hna := countP_div_newAnchor fresh
        simp only [List.countP_append, Node.preV_elem, Node.preVL_cons,
          List.countP_cons, hna] at hc ⊢
        omega
      · rw [hcsa]
        rfl
  obtain ⟨A2, B2, h2a, h2b⟩ := descV_update aUid (setAnchor (dfnIdOf sfx))
    panel1 _ HF1 HND1 HR1
  have hcnt2 : 1 ≤ (updateByUid aUid (setAnchor (dfnIdOf sfx))
      panel1).descV.countP View.isDivV := by
    have hc := hstage1.1
    rw [h2a] at hc
    rw [h2b, setAnchor_preV]
    have hz := hstage1.2
    simp only [List.countP_append, List.countP_cons, List.countP_nil,
      Node.preV_elem, Node.preVL_cons, isDivV_of_tag_a, isDivV_vtext,
      hz] at hc ⊢
    omega
  exact find?_div_of_countP _ hcnt2

/-- The per-panel loop body cannot raise on a safe panel. -/
theorem processPanel_ok (fname : String) (lookup : String → Option Node)
    (fresh : Nat) (panel : Node)
    (hnd : panel.uids.Nodup) (hmax : ∀ x ∈ panel.uids, x < fresh)
    (hsafe : panelSafe panel = true) :
    ∃ r, processPanel fname lookup fresh panel = .ok r := by
  cases hps : panelSuffix (panel.attrsD.id.getD "") with
  | none => exact ⟨(panel, fresh), by simp only [processPanel, hps]⟩
  | some sfx =>
    obtain ⟨hdiv, hnodiv⟩ := panelSafe_matched panel sfx hsafe hps
    cases hfa : panel.descendants.find? Node.isSelfLink with
    | some a =>
      by_cases hexp : exportStatus ((lookup (dfnIdOf sfx)).orElse
          fun _ => lookup sfx) = true
      · cases hmk : (updateByUid a.uidD (setAnchor (dfnIdOf sfx))
            panel).descendants.find? Node.isMarker with
        | none =>
          by_cases hsib : nextSibTruthy a.uidD
              (updateByUid a.uidD (setAnchor (dfnIdOf sfx)) panel) = true
          · refine ⟨(insertAfterUid a.uidD (newMarker fresh)
              (updateByUid a.uidD (setAnchor (dfnIdOf sfx)) panel),
              fresh + 1), ?_⟩
            simp [processPanel, hps, hfa, Except.bind, hexp, hmk, hsib]
          · have hsib' : nextSibTruthy a.uidD
                (updateByUid a.uidD (setAnchor (dfnIdOf sfx)) panel) = false := by
              cases h' : nextSibTruthy a.uidD
                  (updateByUid a.uidD (setAnchor (dfnIdOf sfx)) panel)
              · rfl
              · exact absurd h' hsib
            obtain ⟨d2, hdv⟩ := div_in_panel2 fresh panel a.uidD panel fresh
              sfx hnd hmax (.inl ⟨a, hfa, rfl, rfl, rfl⟩) hdiv hnodiv
            refine ⟨(appendChildUid d2.uidD (newMarker fresh)
              (updateByUid a.uidD (setAnchor (dfnIdOf sfx)) panel),
              fresh + 1), ?_⟩
            simp [processPanel, hps, hfa, Except.bind, hexp, hmk, hsib', hdv]
        | some mk =>
          refine ⟨(updateByUid a.uidD (setAnchor (dfnIdOf sfx)) panel,
            fresh), ?_⟩
          simp [processPanel, hps, hfa, Except.bind, hexp, hmk]
      · have hexp' : exportStatus ((lookup (dfnIdOf sfx)).orElse
            fun _ => lookup sfx) = false := by
          cases h' : exportStatus ((lookup (dfnIdOf sfx)).orElse
              fun _ => lookup sfx)
          · rfl
          · exact absurd h' hexp
        cases hmk : (updateByUid a.uidD (setAnchor (dfnIdOf sfx))
            panel).descendants.find? Node.isMarker with
        | some mk =>
          refine ⟨(removeByUid mk.uidD
            (updateByUid a.uidD (setAnchor (dfnIdOf sfx)) panel), fresh), ?_⟩
          simp [processPanel, hps, hfa, Except.bind, hexp', hmk]
        | none =>
          refine ⟨(updateByUid a.uidD (setAnchor (dfnIdOf sfx)) panel,
            fresh), ?_⟩
          simp [processPanel, hps, hfa, Except.bind, hexp', hmk]
    | none =>
      obtain ⟨d0, hd0, hd0div⟩ := hdiv
      obtain ⟨d, hfd⟩ := Option.isSome_iff_exists.mp
        (List.find?_isSome.mpr ⟨d0, hd0, hd0div⟩)
      by_cases hexp : exportStatus ((lookup (dfnIdOf sfx)).orElse
          fun _ => lookup sfx) = true
      · cases hmk : (updateByUid fresh (setAnchor (dfnIdOf sfx))
            (insertFirstUid d.uidD (newAnchor fresh) panel)).descendants.find?
            Node.isMarker with
        | none =>
          by_cases hsib : nextSibTruthy fresh
              (updateByUid fresh (setAnchor (dfnIdOf sfx))
                (insertFirstUid d.uidD (newAnchor fresh) panel)) = true
          · refine ⟨(insertAfterUid fresh (newMarker (fresh + 1))
              (updateByUid fresh (setAnchor (dfnIdOf sfx))
                (insertFirstUid d.uidD (newAnchor fresh) panel)),
              fresh + 1 + 1), ?_⟩
            simp [processPanel, hps, hfa, hfd, Except.bind, hexp, hmk, hsib]
          · have hsib' : nextSibTruthy fresh
                (updateByUid fresh (setAnchor (dfnIdOf sfx))
                  (insertFirstUid d.uidD (newAnchor fresh) panel)) = false := by
              cases h' : nextSibTruthy fresh
                  (updateByUid fresh (setAnchor (dfnIdOf sfx))
                    (insertFirstUid d.uidD (newAnchor fresh) panel))
              · rfl
              · exact absurd h' hsib
            obtain ⟨d2, hdv⟩ := div_in_panel2 fresh panel fresh
              (insertFirstUid d.uidD (newAnchor fresh) panel) (fresh + 1)
              sfx hnd hmax (.inr ⟨hfa, d, hfd, rfl, rfl, rfl⟩)
              ⟨d0, hd0, hd0div⟩ hnodiv
            refine ⟨(appendChildUid d2.uidD (newMarker (fresh + 1))
              (updateByUid fresh (setAnchor (dfnIdOf sfx))
                (insertFirstUid d.uidD (newAnchor fresh) panel)),
              fresh + 1 + 1), ?_⟩
            simp [processPanel, hps, hfa, hfd, Except.bind, hexp, hmk,
              hsib', hdv]
        | some mk =>
          refine ⟨(updateByUid fresh (setAnchor (dfnIdOf sfx))
            (insertFirstUid d.uidD (newAnchor fresh) panel), fresh + 1), ?_⟩
          simp [processPanel, hps, hfa, hfd, Except.bind, hexp, hmk]
      · have hexp' : exportStatus ((lookup (dfnIdOf sfx)).orElse
            fun _ => lookup sfx) = false := by
          cases h' : exportStatus ((lookup (dfnIdOf sfx)).orElse
              fun _ => lookup sfx)
          · rfl
          · exact absurd h' hexp
        cases hmk : (updateByUid fresh (setAnchor (dfnIdOf sfx))
            (insertFirstUid d.uidD (newAnchor fresh) panel)).descendants.find?
            Node.isMarker with
        | some mk =>
          refine ⟨(removeByUid mk.uidD
            (updateByUid fresh (setAnchor (dfnIdOf sfx))
              (insertFirstUid d.uidD (newAnchor fresh) panel)), fresh + 1), ?_⟩
          simp [processPanel, hps, hfa, hfd, Except.bind, hexp', hmk]
        | none =>
          refine ⟨(updateByUid fresh (setAnchor (dfnIdOf sfx))
            (insertFirstUid d.uidD (newAnchor fresh) panel), fresh + 1), ?_⟩
          simp [processPanel, hps, hfa, hfd, Except.bind, hexp', hmk]

/-- The whole per-panel loop cannot raise when the panel subtrees are
pairwise disjoint and every panel is safe. -/
theorem processPanels_ok (fname : String) (lookup : String → Option Node) :
    ∀ (us : List Nat) (fresh : Nat) (t : Node),
      t.uids.Nodup →
      (∀ x ∈ t.uids, x < fresh) →
      us.Pairwise (fun u v => ∀ x ∈ subtreeUids u t, x ∉ subtreeUids v t) →
      (∀ u ∈ us, u ∈ t.uids) →
      (∀ u ∈ us, ∀ p, findByUid u t = some p → panelSafe p = true) →
      ∃ out, processPanels fname lookup us fresh t = .ok out := by
  intro us
  induction us with
  | nil =>
    intro fresh t _ _ _ _ _
    exact ⟨t, rfl⟩
  | cons u us ih =>
    intro fresh t hnd hmax hpw hmem hsafe
    obtain ⟨p, hfind⟩ := Option.isSome_iff_exists.mp
      ((mem_uids_iff_findByUid u t).mp (hmem u (List.mem_cons_self u us)))
    have hpuid : p.uid? = some u := (findByUid_spec u t p hfind).2
    obtain ⟨A, B, hA, hB⟩ := uids_updateByUid u (fun _ => p) t p hfind hnd
    have hndp : p.uids.Nodup :=
      nodup_middle (show (A ++ p.uids ++ B).Nodup by rw [← hA]; exact hnd)
    have hmaxp : ∀ x ∈ p.uids, x < fresh := fun x hx =>
      hmax x (by rw [hA]; simp [hx])
    obtain ⟨⟨p', f'⟩, hpp⟩ := processPanel_ok fname lookup fresh p hndp hmaxp
      (hsafe u (List.mem_cons_self u us) p hfind)
    obtain ⟨hndp', hle, hmemp', hview⟩ :=
      processPanel_uids fname lookup fresh p p' f' hpp hndp hmaxp
    have hp'uid : p'.uid? = some u := by
      rw [← Node.view_uid, hview, Node.view_uid]
      exact hpuid
    obtain ⟨A', B', hA', hB'⟩ := uids_updateByUid u (fun _ => p') t p hfind hnd
    have hGood : (updateByUid u (fun _ => p') t).uids.Nodup ∧
        ∀ x ∈ (updateByUid u (fun _ => p') t).uids,
          x ∈ t.uids ∨ (fresh ≤ x ∧ x < f') :=
      goodUids_step hmax ⟨hnd, fun x hx => .inl hx⟩ (le_refl fresh) hle
        hA' hB' hndp' (fun y hy => hmemp' y hy)
    have hmax' : ∀ x ∈ (updateByUid u (fun _ => p') t).uids, x < f' :=
      fun x hx => (hGood.2 x hx).elim
        (fun h1 => lt_of_lt_of_le (hmax x h1) hle) (fun h1 => h1.2)
    rw [List.pairwise_cons] at hpw
    have hsubu : subtreeUids u t = p.uids := subtreeUids_of_find u t p hfind
    have hfinds : ∀ v ∈ us, findByUid v (updateByUid u (fun _ => p') t) =
        findByUid v t := by
      intro v hv
      have hvt : v ∈ t.uids := hmem v (List.mem_cons_of_mem _ hv)
      obtain ⟨mv, hmv⟩ :=
        Option.isSome_iff_exists.mp ((mem_uids_iff_findByUid v t).mp hvt)
      have hrel := hpw.1 v hv
      rw [hsubu, subtreeUids_of_find v t mv hmv] at hrel
      have hun : u ∉ mv.uids := hrel u (Node.uid_mem_uids p u hpuid)
      have hvp : v ∉ p.uids := fun hvpp =>
        (hrel v hvpp) (Node.uid_mem_uids mv v (findByUid_spec v t mv hmv).2)
      have hvp' : v ∉ p'.uids := by
        intro hvv
        rcases hmemp' v hvv with h1 | h1
        · exact hvp h1
        · exact absurd (hmax v hvt) (not_lt.mpr h1.1)
      rw [hmv]
      exact findByUid_update_of_disjoint u v (fun _ => p') t p mv hnd
        hfind hmv hun hvp hvp'
    have hmem' : ∀ v ∈ us, v ∈ (updateByUid u (fun _ => p') t).uids := by
      intro v hv
      rw [mem_uids_iff_findByUid, hfinds v hv, ← mem_uids_iff_findByUid]
      exact hmem v (List.mem_cons_of_mem _ hv)
    have hsub' : ∀ v ∈ us, subtreeUids v (updateByUid u (fun _ => p') t) =
        subtreeUids v t := by
      intro v hv
      rw [subtreeUids, hfinds v hv, subtreeUids]
    have hpw' : us.Pairwise (fun a b =>
        ∀ x ∈ subtreeUids a (updateByUid u (fun _ => p') t),
          x ∉ subtreeUids b (updateByUid u (fun _ => p') t)) := by
      refine hpw.2.imp_of_mem ?_
      intro a b ha hb hab
      rw [hsub' a ha, hsub' b hb]
      exact hab
    have hsafe' : ∀ v ∈ us, ∀ pp,
        findByUid v (updateByUid u (fun _ => p') t) = some pp →
        panelSafe pp = true := by
      intro v hv pp hppv
      rw [hfinds v hv] at hppv
      exact hsafe v (List.mem_cons_of_mem _ hv) pp hppv
    obtain ⟨out, hout⟩ := ih f' (updateByUid u (fun _ => p') t)
      hGood.1 hmax' hpw' hmem' hsafe'
    refine ⟨out, ?_⟩
    rw [processPanels, hfind]
    simp only [hpp, Except.bind]
    exact hout

theorem panelsSafe_spec (root : Node) (h : panelsSafe root = true)
    (hnd : root.uids.Nodup) :
    ∀ u ∈ panelUids root, ∀ p, findByUid u root = some p →
      panelSafe p = true := by
  intro u hu p hfind
  rw [panelUids] at hu
  obtain ⟨pq, hpq, hpqu⟩ := List.mem_filterMap.mp hu
  have hpq' := List.mem_filter.mp hpq
  have hpre : pq ∈ root.pre := by
    rw [Node.pre_eq_cons]
    exact List.mem_cons_of_mem _ hpq'.1
  have hfind2 : findByUid u root = some pq :=
    findByUid_of_mem_pre u root pq hnd hpre hpqu
  have hpe : pq = p := by
    rw [hfind] at hfind2
    exact (Option.some.inj hfind2).symm
  subst hpe
  exact List.all_eq_true.mp h pq hpq

theorem Node.attrsD_view (n : Node) : n.attrsD = View.attrsVD n.view := by
  cases n <;> rfl

theorem exportStatus_view (o : Option Node) :
    exportStatus o = exportStatusV (o.map Node.view) := by
  cases o with
  | none => rfl
  | some n => simp [exportStatus, exportStatusV, Node.attrsD_view]

theorem find?_map_pres {α β : Type} (g : α → β) (p : α → Bool) (q : β → Bool)
    (hpq : ∀ x : α, p x = q (g x)) (l : List α) :
    (l.find? p).map g = (l.map g).find? q := by
  induction l with
  | nil => rfl
  | cons c l ih =>
    by_cases hc : p c = true
    · rw [List.find?_cons_of_pos _ hc, List.map_cons,
        List.find?_cons_of_pos _ (by rw [← hpq]; exact hc)]
      rfl
    · rw [List.find?_cons_of_neg _ hc, List.map_cons,
        List.find?_cons_of_neg _ (by rw [← hpq]; simpa using hc), ih]

theorem dfnPairsV_eq (t : Node) :
    (dfnPairs t).map (fun pr => (pr.1, pr.2.view)) = dfnPairsV t.descV := by
  rw [dfnPairs, dfnPairsV, Node.descV, List.filter_map, List.map_map,
    List.map_map]
  have hf : List.filter (View.isDfnWithIdV ∘ Node.view) t.descendants =
      List.filter Node.isDfnWithId t.descendants := by
    refine List.filter_congr ?_
    intro x _
    simp only [Function.comp_apply]
    exact (isDfnWithId_view x).symm
  rw [hf]
  refine List.map_congr_left ?_
  intro n _
  simp only [Function.comp_apply]
  rw [Node.attrsD_view]

theorem dfnLookup_view (t : Node) (k : String) :
    (dfnLookup t k).map Node.view = dfnLookupV t.descV k := by
  rw [dfnLookup, dfnLookupV, ← dfnPairsV_eq, ← List.map_reverse,
    Option.map_map]
  rw [← find?_map_pres (fun pr => (pr.1, pr.2.view))
    (fun p => p.1 == k) (fun p => p.1 == k) (fun x => rfl)
    (dfnPairs t).reverse]
  rw [Option.map_map]
  rfl

theorem panelUids_eq_V (t : Node) :
    panelUids t = (t.descV.filter View.isPanelV).filterMap View.uid? := by
  rw [panelUids, Node.descV, List.filter_map, List.filterMap_map]
  have hf : List.filter (View.isPanelV ∘ Node.view) t.descendants =
      List.filter Node.isPanel t.descendants := by
    refine List.filter_congr ?_
    intro x _
    simp only [Function.comp_apply]
    exact (isPanel_view x).symm
  rw [hf]
  refine List.filterMap_congr ?_
  intro n _
  exact (congrFun View.uid_comp_view n).symm

theorem filter_nil_iff_countP {α : Type} (q : α → Bool) (l : List α) :
    l.filter q = [] ↔ l.countP q = 0 := by
  rw [List.countP_eq_length_filter, List.length_eq_zero]

/-- The per-panel loop body never creates a view satisfying a predicate
that is false on `a` elements, `span` elements and text — in particular it
creates no new panels and no new definition elements. -/
theorem processPanel_filter_free (q : View → Bool)
    (hqa : ∀ u a, q (View.velem u "a" a) = false)
    (hqspan : ∀ u a, q (View.velem u "span" a) = false)
    (hqt : ∀ s, q (View.vtext s) = false)
    (fname : String) (lookup : String → Option Node)
    (fresh : Nat) (panel p2 : Node) (f2 : Nat)
    (h : processPanel fname lookup fresh panel = .ok (p2, f2))
    (hnd : panel.uids.Nodup) (hmax : ∀ x ∈ panel.uids, x < fresh)
    (hfree : panel.descV.filter q = []) :
    p2.descV.filter q = [] := by
  rw [filter_nil_iff_countP] at hfree ⊢
  have hqMrk : ∀ u, ((newMarker u).preV.countP q) = 0 := by
    intro u
    rw [newMarker_preV]
    simp [List.countP_cons, hqspan, hqt]
  have hqAnc : ∀ u, ((newAnchor u).preV.countP q) = 0 := by
    intro u
    rw [newAnchor_preV]
    simp [List.countP_cons, hqa]
  rcases processPanel_spec fname lookup fresh panel p2 f2 h with
    ⟨-, hp2, -⟩ | ⟨sfx, hps, aUid, panel1, f1, hanch, hbr⟩
  · rw [hp2]
    exact hfree
  · obtain ⟨anchor1, HF1, HU1, HS1, HV1, HR1, HLE1, HALT, HND1, HM1⟩ :=
      processPanel_anchor_facts fresh panel aUid panel1 f1 hnd hmax hanch
    obtain ⟨wa, tga, aa, csa, haeq⟩ := elem_of_isSelfLink anchor1 HS1
    subst haeq
    have hwa : wa = aUid := by simpa [Node.uid?] using HU1
    subst wa
    have htga : tga = "a" := by
      have := HS1
      simp only [Node.isSelfLink, Bool.and_eq_true, beq_iff_eq] at this
      exact this.1
    subst tga
    have hcount1 : panel1.descV.countP q = 0 := by
      rcases hanch with ⟨a, hfa, haU, hp1, hf1⟩ | ⟨hfa, d, hfd, haU, hp1, hf1⟩
      · rw [hp1]
        exact hfree
      · have hfound := find?_desc_found Node.isDiv panel d hfd
        have hduid : d.uid? = some d.uidD := uid_of_isDiv d hfound.2
        have hfind_d : findByUid d.uidD panel = some d :=
          findByUid_of_find?_desc Node.isDiv panel d hnd hfd hduid
        have hroot_d : panel.uid? ≠ some d.uidD :=
          desc_uid_ne_root Node.isDiv panel d hnd hfd hduid
        obtain ⟨wd, tgd, ad, csd, hde⟩ := elem_of_isDiv d hfound.2
        rw [hp1]
        simp only [insertFirstUid]
        obtain ⟨A1, B1, h1a, h1b⟩ := descV_update d.uidD
          (fun n => match n with
            | .elem w t a cs => .elem w t a (newAnchor fresh :: cs)
            | n => n) panel d hfind_d hnd hroot_d
        have hz := hfree
        rw [h1a, hde] at hz
        rw [h1b, hde]
        have hna := hqAnc fresh
        simp only [List.countP_append, Node.preV_elem, Node.preVL_cons,
          List.countP_cons, hna] at hz ⊢
        omega
    obtain ⟨A2, B2, h2a, h2b⟩ := descV_update aUid (setAnchor (dfnIdOf sfx))
      panel1 _ HF1 HND1 HR1
    have hcount2 :
        (updateByUid aUid (setAnchor (dfnIdOf sfx)) panel1).descV.countP q
          = 0 := by
      have hz := hcount1
      rw [h2a] at hz
      rw [h2b, setAnchor_preV]
      simp only [List.countP_append, List.countP_cons, List.countP_nil,
        Node.preV_elem, Node.preVL_cons, hqa, hqt] at hz ⊢
      omega
    obtain ⟨A3, B3, hA3, hB3⟩ := uids_updateByUid aUid
      (setAnchor (dfnIdOf sfx)) panel1 _ HF1 HND1
    have hnd2 : (updateByUid aUid (setAnchor (dfnIdOf sfx)) panel1).uids.Nodup := by
      rw [hB3]
      refine nodup_segment_replace (hA3 ▸ HND1) ?_ ?_
      · rw [setAnchor_uids]
        exact List.nodup_singleton aUid
      · intro x hx
        rw [setAnchor_uids] at hx
        rcases List.mem_singleton.mp hx with rfl
        exact .inl (by simp)
    have hview2 : (updateByUid aUid (setAnchor (dfnIdOf sfx)) panel1).view
        = panel1.view := view_update_ne aUid _ panel1 HR1
    have hroot2 : (updateByUid aUid (setAnchor (dfnIdOf sfx)) panel1).uid?
        ≠ some aUid := by
      rw [← Node.view_uid, hview2, Node.view_uid]
      exact HR1
    have hfa2 : findByUid aUid (updateByUid aUid (setAnchor (dfnIdOf sfx)) panel1)
        = some (setAnchor (dfnIdOf sfx) (Node.elem aUid "a" aa csa)) :=
      findByUid_update_self aUid _ panel1 _ HND1 HF1 (setAnchor_uid _ _ _ _ _)
    rcases hbr with ⟨hexp, hmk, hplace⟩ | ⟨hexp, ⟨mk, hmk⟩, hp2, hf2⟩ |
      ⟨hexp, hcase⟩
    · rcases hplace with ⟨hsib, hp2, hf2⟩ | ⟨hsib, d2, hdv, hp2, hf2⟩
      · obtain ⟨A4, B4, h4a, h4b⟩ := descV_insertAfter aUid (newMarker f1)
          (updateByUid aUid (setAnchor (dfnIdOf sfx)) panel1) _ hfa2 hnd2 hroot2
        rw [hp2, h4b]
        rw [h4a] at hcount2
        have hnm := hqMrk f1
        simp only [List.countP_append] at hcount2 ⊢
        omega
      · have hfound2 := find?_desc_found Node.isDiv _ d2 hdv
        have hd2uid : d2.uid? = some d2.uidD := uid_of_isDiv d2 hfound2.2
        have hfind_d2 : findByUid d2.uidD
            (updateByUid aUid (setAnchor (dfnIdOf sfx)) panel1) = some d2 :=
          findByUid_of_find?_desc Node.isDiv _ d2 hnd2 hdv hd2uid
        have hroot_d2 : (updateByUid aUid (setAnchor (dfnIdOf sfx)) panel1).uid?
            ≠ some d2.uidD :=
          desc_uid_ne_root Node.isDiv _ d2 hnd2 hdv hd2uid
        obtain ⟨w2, tg2, a2', cs2, hd2e⟩ := elem_of_isDiv d2 hfound2.2
        rw [hp2]
        simp only [appendChildUid]
        obtain ⟨A5, B5, h5a, h5b⟩ := descV_update d2.uidD
          (fun n => match n with
            | .elem w t a cs => .elem w t a (cs ++ [newMarker f1])
            | n => n) _ d2 hfind_d2 hnd2 hroot_d2
        have hz := hcount2
        rw [h5a, hd2e] at hz
        rw [h5b, hd2e]
        have hnm := hqMrk f1
        simp only [List.countP_append, Node.preV_elem, Node.preVL_append,
          Node.preVL_cons, Node.preVL_nil, List.countP_cons,
          List.countP_nil, hnm] at hz ⊢
        omega
    · rw [hp2]
      exact hcount2
    · rcases hcase with ⟨⟨mk, hmk, hp2⟩, hf2⟩ | ⟨hmk, hp2, hf2⟩
      · have hmkP := find?_desc_found Node.isMarker _ mk hmk
        have hmkuid : mk.uid? = some mk.uidD := uid_of_isMarker mk hmkP.2
        have hfind_mk : findByUid mk.uidD
            (updateByUid aUid (setAnchor (dfnIdOf sfx)) panel1) = some mk :=
          findByUid_of_find?_desc Node.isMarker _ mk hnd2 hmk hmkuid
        have hroot_mk : (updateByUid aUid (setAnchor (dfnIdOf sfx)) panel1).uid?
            ≠ some mk.uidD :=
          desc_uid_ne_root Node.isMarker _ mk hnd2 hmk hmkuid
        obtain ⟨A6, B6, h6a, h6b⟩ := descV_remove mk.uidD _ mk hfind_mk
          hnd2 hroot_mk
        rw [hp2, h6b]
        rw [h6a] at hcount2
        simp only [List.countP_append] at hcount2 ⊢
        omega
      · rw [hp2]
        exact hcount2

/-- When every listed panel is a fixed point of the loop body, the whole
loop leaves the document unchanged. -/
theorem processPanels_stable (fname : String) (lookup : String → Option Node) :
    ∀ (us : List Nat) (f : Nat) (t : Node),
      t.uids.Nodup →
      (∀ u ∈ us, ∃ p, findByUid u t = some p ∧
        ∀ g, processPanel fname lookup g p = .ok (p, g)) →
      processPanels fname lookup us f t = .ok t := by
  intro us
  induction us with
  | nil => intro f t _ _; rfl
  | cons u us ih =>
    intro f t hnd hstab
    obtain ⟨p, hfind, hp⟩ := hstab u (List.mem_cons_self u us)
    rw [processPanels, hfind]
    simp only [hp f, Except.bind]
    rw [updateByUid_id_of_fix u (fun _ => p) t p hfind hnd rfl]
    exact ih f t hnd fun v hv => hstab v (List.mem_cons_of_mem _ hv)

/-- A panel that already carries exactly one rewritten anchor and the right
number of markers is a fixed point of the loop body. -/
theorem processPanel_stable_of_post (fname : String)
    (lookup2 : String → Option Node) (sfx : String) (p' : Node)
    (hps' : panelSuffix (p'.attrsD.id.getD "") = some sfx)
    (hnd' : p'.uids.Nodup)
    (hsl1 : selfLinkCount p' = 1)
    (ha2 : ∃ a2, a2 ∈ p'.descendants ∧ a2.isSelfLink = true ∧
       setAnchor (dfnIdOf sfx) a2 = a2)
    (hmk : markerCount p' = (if exportStatus ((lookup2 (dfnIdOf sfx)).orElse
        fun _ => lookup2 sfx) = true then 1 else 0)) :
    ∀ g, processPanel fname lookup2 g p' = .ok (p', g) := by
  obtain ⟨a2, hmem, hself, hfixA⟩ := ha2
  have hfa : p'.descendants.find? Node.isSelfLink = some a2 := by
    obtain ⟨a, ha⟩ := Option.isSome_iff_exists.mp
      (List.find?_isSome.mpr ⟨a2, hmem, hself⟩)
    have hamem := List.mem_of_find?_eq_some ha
    have hasel := List.find?_some ha
    have heq : a = a2 :=
      eq_of_mem_filter_length_one (by rw [← selfLinkCount]; exact hsl1)
        hamem hasel hmem hself
    rw [ha, heq]
  have hauid : a2.uid? = some a2.uidD := uid_of_isSelfLink a2 hself
  have hfind : findByUid a2.uidD p' = some a2 :=
    findByUid_of_find?_desc Node.isSelfLink p' a2 hnd' hfa hauid
  have hfix : updateByUid a2.uidD (setAnchor (dfnIdOf sfx)) p' = p' :=
    updateByUid_id_of_fix a2.uidD _ p' a2 hfind hnd' hfixA
  intro g
  by_cases hexp : exportStatus ((lookup2 (dfnIdOf sfx)).orElse
      fun _ => lookup2 sfx) = true
  · have hmk1 : markerCount p' = 1 := by rw [hmk, if_pos hexp]
    have hsome : ∃ mk, p'.descendants.find? Node.isMarker = some mk := by
      have hne : p'.descendants.filter Node.isMarker ≠ [] := by
        intro hnil
        rw [markerCount, hnil] at hmk1
        cases hmk1
      obtain ⟨x, hx⟩ := List.exists_mem_of_ne_nil _ hne
      have hx' := List.mem_filter.mp hx
      exact Option.isSome_iff_exists.mp
        (List.find?_isSome.mpr ⟨x, hx'.1, hx'.2⟩)
    obtain ⟨mk, hmks⟩ := hsome
    simp [processPanel, hps', hfa, Except.bind, hfix, hmks, hexp]
  · have hexp' : exportStatus ((lookup2 (dfnIdOf sfx)).orElse
        fun _ => lookup2 sfx) = false := by
      cases h' : exportStatus ((lookup2 (dfnIdOf sfx)).orElse
          fun _ => lookup2 sfx)
      · rfl
      · exact absurd h' hexp
    have hmk0 : markerCount p' = 0 := by
      rw [hmk, if_neg hexp]
    have hnone : p'.descendants.find? Node.isMarker = none := by
      rw [List.find?_eq_none]
      intro x hx hpx
      have : x ∈ p'.descendants.filter Node.isMarker :=
        List.mem_filter.mpr ⟨hx, hpx⟩
      rw [markerCount] at hmk0
      rw [List.length_eq_zero] at hmk0
      rw [hmk0] at this
      cases this
    simp [processPanel, hps', hfa, Except.bind, hfix, hnone, hexp']

theorem panelsTidy_spec (root : Node) (h : panelsTidy root = true)
    (hnd : root.uids.Nodup) (u : Nat) (hu : u ∈ panelUids root)
    (p : Node) (hfind : findByUid u root = some p) :
    markerCount p ≤ 1 ∧ selfLinkCount p ≤ 1 ∧ markersClean p = true ∧
    ∀ x ∈ p.descendants, x.isPanel = false ∧ x.isDfnWithId = false := by
  rw [panelUids] at hu
  obtain ⟨pq, hpq, hpqu⟩ := List.mem_filterMap.mp hu
  have hpq' := List.mem_filter.mp hpq
  have hpre : pq ∈ root.pre := by
    rw [Node.pre_eq_cons]
    exact List.mem_cons_of_mem _ hpq'.1
  have hfind2 : findByUid u root = some pq :=
    findByUid_of_mem_pre u root pq hnd hpre hpqu
  have hpe : pq = p := by
    rw [hfind] at hfind2
    exact (Option.some.inj hfind2).symm
  subst hpe
  rw [panelsTidy, List.all_eq_true] at h
  have h1 := h pq hpq
  simp only [Bool.and_eq_true, decide_eq_true_eq] at h1
  obtain ⟨⟨⟨hm, hs⟩, hc⟩, hrest⟩ := h1
  refine ⟨hm, hs, hc, ?_⟩
  intro x hx
  have h2 := List.all_eq_true.mp hrest x hx
  simp only [Bool.and_eq_true, Bool.not_eq_true'] at h2
  exact h2

theorem filterV_nil_of_all (p : Node → Bool) (qv : View → Bool)
    (hpq : ∀ n : Node, p n = qv n.view) (n : Node)
    (h : ∀ x ∈ n.descendants, p x = false) :
    n.descV.filter qv = [] := by
  rw [Node.descV, List.filter_eq_nil_iff]
  intro v hv
  obtain ⟨x, hx, rfl⟩ := List.mem_map.mp hv
  rw [← hpq]
  simp [h x hx]

/-- C1 (amended).  On a document with unique identities, pairwise-disjoint
panel subtrees and a tidy panel list, the transform is idempotent: running
it on its own output returns that output unchanged.  (On untidy documents
idempotence fails, see the counterexample.) -/
theorem transform_idempotent_amended (fname : String) (root out : Node)
    (h : transformDoc fname root = .ok out)
    (hnd : root.uids.Nodup)
    (hpw : (panelUids root).Pairwise
      (fun a b => ∀ x ∈ subtreeUids a root, x ∉ subtreeUids b root))
    (htidy : panelsTidy root = true) :
    transformDoc fname out = .ok out := by
  have h' := h
  rw [transformDoc] at h'
  obtain ⟨hndo, hb, hc, hd, he⟩ := processPanels_spec fname (dfnLookup root)
    (panelUids root) (root.maxUid + 1) root out h' hnd
    (uid_lt_succ_maxUid root) hpw (fun v hv => panelUids_mem_uids root v hv)
  have hfree1 : ∀ u ∈ panelUids root, ∀ p, findByUid u root = some p →
      p.descV.filter View.isPanelV = [] := by
    intro u hu p hfind
    obtain ⟨-, -, -, hall⟩ := panelsTidy_spec root htidy hnd u hu p hfind
    exact filterV_nil_of_all Node.isPanel View.isPanelV isPanel_view p
      (fun x hx => (hall x hx).1)
  have hfree2 : ∀ u ∈ panelUids root, ∀ p, findByUid u root = some p →
      p.descV.filter View.isDfnWithIdV = [] := by
    intro u hu p hfind
    obtain ⟨-, -, -, hall⟩ := panelsTidy_spec root htidy hnd u hu p hfind
    exact filterV_nil_of_all Node.isDfnWithId View.isDfnWithIdV
      isDfnWithId_view p (fun x hx => (hall x hx).2)
  have hq1 : out.descV.filter View.isPanelV =
      root.descV.filter View.isPanelV := by
    refine he View.isPanelV hfree1 ?_
    intro p p' f f' hpp hndp hmaxp hf
    refine processPanel_filter_free View.isPanelV ?_ ?_ ?_ fname
      (dfnLookup root) f p p' f' hpp hndp hmaxp hf
    · intro u a
      have hq : ("a" == "div") = false := by decide
      simp [View.isPanelV, hq]
    · intro u a
      have hq : ("span" == "div") = false := by decide
      simp [View.isPanelV, hq]
    · intro s
      rfl
  have hq2 : out.descV.filter View.isDfnWithIdV =
      root.descV.filter View.isDfnWithIdV := by
    refine he View.isDfnWithIdV hfree2 ?_
    intro p p' f f' hpp hndp hmaxp hf
    refine processPanel_filter_free View.isDfnWithIdV ?_ ?_ ?_ fname
      (dfnLookup root) f p p' f' hpp hndp hmaxp hf
    · intro u a
      have hq : ("a" == "dfn") = false := by decide
      simp [View.isDfnWithIdV, hq]
    · intro u a
      have hq : ("span" == "dfn") = false := by decide
      simp [View.isDfnWithIdV, hq]
    · intro s
      rfl
  have hpanels : panelUids out = panelUids root := by
    rw [panelUids_eq_V, panelUids_eq_V, hq1]
  have hlookV : ∀ k, (dfnLookup out k).map Node.view =
      (dfnLookup root k).map Node.view := by
    intro k
    rw [dfnLookup_view, dfnLookup_view, dfnLookupV, dfnLookupV,
      dfnPairsV, dfnPairsV, hq2]
  have horElse : ∀ (o o' : Option Node),
      ((o.orElse fun _ => o').map Node.view) =
      ((o.map Node.view).orElse fun _ => o'.map Node.view) := by
    intro o o'
    cases o <;> rfl
  have hexpEq : ∀ s1 s2 : String,
      exportStatus ((dfnLookup out s1).orElse fun _ => dfnLookup out s2) =
      exportStatus ((dfnLookup root s1).orElse fun _ => dfnLookup root s2) := by
    intro s1 s2
    rw [exportStatus_view, exportStatus_view, horElse, horElse,
      hlookV s1, hlookV s2]
  have hstab : ∀ u ∈ panelUids out, ∃ p', findByUid u out = some p' ∧
      ∀ g, processPanel fname (dfnLookup out) g p' = .ok (p', g) := by
    intro u hu
    rw [hpanels] at hu
    obtain ⟨p, p', f, f', h1, hpnd, hpmax, h2, h3⟩ := hb u hu
    refine ⟨p', h3, ?_⟩
    obtain ⟨hndp', -, -, hview⟩ :=
      processPanel_uids fname (dfnLookup root) f p p' f' h2 hpnd hpmax
    have hid : p'.attrsD = p.attrsD := by
      rw [Node.attrsD_view, Node.attrsD_view, hview]
    obtain ⟨hm1, hs1, hmc1, -⟩ := panelsTidy_spec root htidy hnd u hu p h1
    cases hps : panelSuffix (p.attrsD.id.getD "") with
    | none =>
      have hp'p : p' = p := by
        rcases processPanel_spec fname (dfnLookup root) f p p' f' h2 with
          ⟨-, hp2, -⟩ | ⟨sfx', hps', -⟩
        · exact hp2
        · rw [hps] at hps'
          cases hps'
      intro g
      subst hp'p
      simp [processPanel, hps]
    | some sfx =>
      have hps2 : panelSuffix (p'.attrsD.id.getD "") = some sfx := by
        rw [hid]
        exact hps
      have hcnt := processPanel_marker_count fname (dfnLookup root) f p p' f'
        sfx h2 hps hpnd hpmax hm1
      obtain ⟨hslp, a2, hmem, hself, hfixA, -, -, -⟩ :=
        processPanel_anchor_post fname (dfnLookup root) f p p' f' sfx h2 hps
          hpnd hpmax hs1 hmc1
      refine processPanel_stable_of_post fname (dfnLookup out) sfx p' hps2
        hndp' hslp ⟨a2, hmem, hself, hfixA⟩ ?_
      rw [hcnt, hexpEq (dfnIdOf sfx) sfx]
  rw [transformDoc]
  exact processPanels_stable fname (dfnLookup out) (panelUids out)
    (out.maxUid + 1) out hndo hstab

/-- Witness: `transform_idempotent_amended` applies to the concrete
document `wDoc`. -/
theorem transform_idempotent_amended_witness :
    transformDoc "Overview.html" wOut = .ok wOut :=
  transform_idempotent_amended "Overview.html" wDoc wOut
    (by decide) (by decide) (by decide) (by decide)

/-- Witness: `marker_sync_amended` applies to panel 6 of `wDoc`, whose
`dfn` is not exported. -/
theorem marker_sync_amended_witness :
    ∃ p2, findByUid 6 wOut = some p2 ∧
      markerCount p2 =
        if exportStatus ((dfnLookup wDoc (dfnIdOf "b")).orElse
            fun _ => dfnLookup wDoc "b") = true then 1 else 0 :=
  marker_sync_amended "Overview.html" wDoc wOut 6 wPanelB "b"
    (by decide) (by decide) (by decide) (by decide) (by decide) (by decide)
    (by decide)

/-- Witness: `permalink_sync_amended` applies to panel 3 of `wDoc`. -/
theorem permalink_sync_amended_witness :
    ∃ p2, findByUid 3 wOut = some p2 ∧ selfLinkCount p2 = 1 ∧
      ∃ a2, a2 ∈ p2.descendants ∧ a2.isSelfLink = true ∧
        a2.attrsD.href = some ("#" ++ dfnIdOf "a") ∧
        a2.attrsD.ariaLabel = some ("Permalink for definition: " ++
          dfnIdOf "a" ++ ". Activate to close this dialog.") ∧
        a2.children = [Node.text "Permalink"] :=
  permalink_sync_amended "Overview.html" wDoc wOut 3 wPanelA "a"
    (by decide) (by decide) (by decide) (by decide) (by decide) (by decide)
    (by decide) (by decide)

/-- Witness: `skip_mismatched_panel_preserved` applies to panel 9 of
`wDoc`, whose identifier does not match the pattern. -/
theorem skip_mismatched_panel_preserved_witness :
    findByUid 9 wOut = some wPanelC :=
  skip_mismatched_panel_preserved "Overview.html" wDoc wOut 9 wPanelC
    (by decide) (by decide) (by decide) (by decide) (by decide) (by decide)

/-- Witness: `marker_placement_amended` applies to panel 3 of `wDoc`,
whose `dfn` is exported and which holds no marker yet. -/
theorem marker_placement_amended_witness :
    ∃ p2, findByUid 3 wOut = some p2 ∧
    ∃ f0 aUid p1 f1,
      ((∃ a, wPanelA.descendants.find? Node.isSelfLink = some a ∧ aUid = a.uidD ∧
          p1 = updateByUid aUid (setAnchor (dfnIdOf "a")) wPanelA ∧ f1 = f0) ∨
       (wPanelA.descendants.find? Node.isSelfLink = none ∧
        ∃ d, wPanelA.descendants.find? Node.isDiv = some d ∧ aUid = f0 ∧
          p1 = updateByUid aUid (setAnchor (dfnIdOf "a"))
            (insertFirstUid d.uidD (newAnchor f0) wPanelA) ∧ f1 = f0 + 1)) ∧
      ((nextSibTruthy aUid p1 = true ∧
          p2 = insertAfterUid aUid (newMarker f1) p1 ∧
          ∃ parent, parent ∈ p2.pre ∧ ∃ i a2, parent.children[i]? = some a2 ∧
            a2.uid? = some aUid ∧ a2.isSelfLink = true ∧
            parent.children[i+1]? = some (newMarker f1)) ∨
       (nextSibTruthy aUid p1 = false ∧
          ∃ d2, p1.descendants.find? Node.isDiv = some d2 ∧
            p2 = appendChildUid d2.uidD (newMarker f1) p1 ∧
            ∃ d', p2.descendants.find? Node.isDiv = some d' ∧
              d'.children.getLast? = some (newMarker f1))) :=
  marker_placement_amended "Overview.html" wDoc wOut 3 wPanelA "a"
    (by decide) (by decide) (by decide) (by decide) (by decide) (by decide)
    (by decide) (by decide)

/-- Witness: `double_marker_partial_cleanup` applies to the doubly-marked
panel of `w10Doc`. -/
theorem double_marker_partial_cleanup_witness :
    ∃ p2, findByUid 1 w10Out = some p2 ∧
      markerCount p2 = markerCount w10Panel - 1 ∧ 1 ≤ markerCount p2 :=
  double_marker_partial_cleanup "Overview.html" w10Doc w10Out 1 w10Panel "x"
    (by decide) (by decide) (by decide) (by decide) (by decide) (by decide)
    (by decide) (by decide) (by decide) (by decide)

/-- A `dfn` kept by the dict comprehension is an element node. -/
theorem uid_of_isDfnWithId (n : Node) (h : n.isDfnWithId = true) :
    n.uid? = some n.uidD := by
  cases n with
  | text s => simp [Node.isDfnWithId] at h
  | elem w tg a cs => rfl

/-- Every `dfn_map` value is a `dfn` element of the loaded document. -/
theorem dfnLookup_mem (root : Node) (s : String) (n : Node)
    (h : dfnLookup root s = some n) :
    n ∈ root.descendants ∧ n.isDfnWithId = true := by
  unfold dfnLookup at h
  cases hf : (dfnPairs root).reverse.find? (fun p => p.1 == s) with
  | none => rw [hf] at h; cases h
  | some pr =>
    rw [hf] at h
    have hpr : pr.2 = n := Option.some.inj h
    have hmem : pr ∈ (dfnPairs root).reverse := List.mem_of_find?_eq_some hf
    rw [List.mem_reverse] at hmem
    unfold dfnPairs at hmem
    obtain ⟨m, hm, hme⟩ := List.mem_map.mp hmem
    rw [List.mem_filter] at hm
    subst hpr
    rw [← hme]
    exact ⟨hm.1, hm.2⟩

/-- Rewriting the located permalink anchor in place (lines 56-58) introduces
no new uid: the anchor keeps its uid and loses its old children. -/
theorem setAnchor_update_uids_sub (s : String) (aUid : Nat) (panel1 : Node)
    (hnd1 : panel1.uids.Nodup) (anchor1 : Node)
    (HF1 : findByUid aUid panel1 = some anchor1)
    (HU1 : anchor1.uid? = some aUid) (HS1 : anchor1.isSelfLink = true) :
    ∀ x ∈ (updateByUid aUid (setAnchor s) panel1).uids, x ∈ panel1.uids := by
  obtain ⟨wa, tga, aa, csa, haeq⟩ := elem_of_isSelfLink anchor1 HS1
  subst haeq
  have hwa : wa = aUid := by simpa [Node.uid?] using HU1
  subst hwa
  obtain ⟨A, B, hA, hB⟩ := uids_updateByUid wa (setAnchor s) panel1 _ HF1 hnd1
  intro x hx
  rw [hB, setAnchor_uids] at hx
  rw [hA]
  simp only [List.mem_append, List.mem_singleton] at hx ⊢
  rcases hx with (hxa | hxe) | hx2
  · exact .inl (.inl hxa)
  · subst hxe
    exact .inl (.inr (Node.uid_mem_uids _ x rfl))
  · exact .inr hx2

/-- When the panel's resolved `dfn` has not been destroyed, the live
per-panel body agrees with the snapshot one, returning the same panel and
fresh counter; the destroyed set can only grow by uids lying inside the
panel or freshly created. -/
theorem processPanelLive_eq (fname : String) (lookup : String → Option Node)
    (destroyed : List Nat) (fresh : Nat) (panel : Node)
    (hnd : panel.uids.Nodup) (hmax : ∀ x ∈ panel.uids, x < fresh)
    (hAv : ∀ sfx, panelSuffix (panel.attrsD.id.getD "") = some sfx →
      ∀ n, ((lookup (dfnIdOf sfx)).orElse fun _ => lookup sfx) = some n →
        n.uidD ∉ destroyed) :
    ∃ dOut, processPanelLive fname lookup destroyed fresh panel =
        Except.map (fun r => (r.1, r.2, dOut))
          (processPanel fname lookup fresh panel) ∧
      ∀ x ∈ dOut, x ∈ destroyed ∨ x ∈ panel.uids ∨ fresh ≤ x := by
  cases hps : panelSuffix (panel.attrsD.id.getD "") with
  | none =>
    refine ⟨destroyed, ?_, fun x hx => .inl hx⟩
    simp [processPanelLive, processPanel, hps, Except.map]
  | some sfx =>
    have hexpEq : exportStatusLive destroyed
        ((lookup (dfnIdOf sfx)).orElse fun _ => lookup sfx) =
        .ok (exportStatus ((lookup (dfnIdOf sfx)).orElse
          fun _ => lookup sfx)) := by
      cases hdt : (lookup (dfnIdOf sfx)).orElse fun _ => lookup sfx with
      | none => rfl
      | some n =>
        have hn := hAv sfx hps n hdt
        simp [exportStatusLive, exportStatus, hn]
    cases hfa : panel.descendants.find? Node.isSelfLink with
    | some a =>
      cases hexp : exportStatus ((lookup (dfnIdOf sfx)).orElse
          fun _ => lookup sfx) with
      | true =>
        cases hmk : (updateByUid a.uidD (setAnchor (dfnIdOf sfx))
            panel).descendants.find? Node.isMarker with
        | none =>
          by_cases hsib : nextSibTruthy a.uidD (updateByUid a.uidD
              (setAnchor (dfnIdOf sfx)) panel) = true
          · refine ⟨destroyed, ?_, fun x hx => .inl hx⟩
            simp [processPanelLive, processPanel, hps, hfa, hexpEq, hexp,
              hmk, hsib, Except.bind, Except.map]
          · cases hfd2 : (updateByUid a.uidD (setAnchor (dfnIdOf sfx))
                panel).descendants.find? Node.isDiv with
            | none =>
              refine ⟨destroyed, ?_, fun x hx => .inl hx⟩
              simp [processPanelLive, processPanel, hps, hfa, hexpEq, hexp,
                hmk, hsib, hfd2, Except.bind, Except.map]
            | some d2 =>
              refine ⟨destroyed, ?_, fun x hx => .inl hx⟩
              simp [processPanelLive, processPanel, hps, hfa, hexpEq, hexp,
                hmk, hsib, hfd2, Except.bind, Except.map]
        | some mk =>
          refine ⟨destroyed, ?_, fun x hx => .inl hx⟩
          simp [processPanelLive, processPanel, hps, hfa, hexpEq, hexp,
            hmk, Except.bind, Except.map]
      | false =>
        cases hmk : (updateByUid a.uidD (setAnchor (dfnIdOf sfx))
            panel).descendants.find? Node.isMarker with
        | none =>
          refine ⟨destroyed, ?_, fun x hx => .inl hx⟩
          simp [processPanelLive, processPanel, hps, hfa, hexpEq, hexp,
            hmk, Except.bind, Except.map]
        | some mk =>
          refine ⟨destroyed ++ mk.uids, ?_, ?_⟩
          · simp [processPanelLive, processPanel, hps, hfa, hexpEq, hexp,
              hmk, Except.bind, Except.map]
          · intro x hx
            rcases List.mem_append.mp hx with h1 | h2
            · exact .inl h1
            · obtain ⟨anchor1, HF1, HU1, HS1, -, -, -, -, HND1, -⟩ :=
                processPanel_anchor_facts fresh panel a.uidD panel fresh hnd
                  hmax (.inl ⟨a, hfa, rfl, rfl, rfl⟩)
              have hsub := setAnchor_update_uids_sub (dfnIdOf sfx) a.uidD
                panel hnd anchor1 HF1 HU1 HS1
              have hmkmem := (find?_desc_found Node.isMarker _ mk hmk).1
              have hxp2 : x ∈ (updateByUid a.uidD (setAnchor (dfnIdOf sfx))
                  panel).uids := mem_uids_of_subtree _ mk x hmkmem h2
              exact .inr (.inl (hsub x hxp2))
    | none =>
      cases hfd : panel.descendants.find? Node.isDiv with
      | none =>
        refine ⟨destroyed, ?_, fun x hx => .inl hx⟩
        simp [processPanelLive, processPanel, hps, hfa, hfd, Except.bind,
          Except.map]
      | some d =>
        cases hexp : exportStatus ((lookup (dfnIdOf sfx)).orElse
            fun _ => lookup sfx) with
        | true =>
          cases hmk : (updateByUid fresh (setAnchor (dfnIdOf sfx))
              (insertFirstUid d.uidD (newAnchor fresh)
                panel)).descendants.find? Node.isMarker with
          | none =>
            by_cases hsib : nextSibTruthy fresh (updateByUid fresh
                (setAnchor (dfnIdOf sfx)) (insertFirstUid d.uidD
                  (newAnchor fresh) panel)) = true
            · refine ⟨destroyed, ?_, fun x hx => .inl hx⟩
              simp [processPanelLive, processPanel, hps, hfa, hfd, hexpEq,
                hexp, hmk, hsib, Except.bind, Except.map]
            · cases hfd2 : (updateByUid fresh (setAnchor (dfnIdOf sfx))
                  (insertFirstUid d.uidD (newAnchor fresh)
                    panel)).descendants.find? Node.isDiv with
              | none =>
                refine ⟨destroyed, ?_, fun x hx => .inl hx⟩
                simp [processPanelLive, processPanel, hps, hfa, hfd, hexpEq,
                  hexp, hmk, hsib, hfd2, Except.bind, Except.map]
              | some d2 =>
                refine ⟨destroyed, ?_, fun x hx => .inl hx⟩
                simp [processPanelLive, processPanel, hps, hfa, hfd, hexpEq,
                  hexp, hmk, hsib, hfd2, Except.bind, Except.map]
          | some mk =>
            refine ⟨destroyed, ?_, fun x hx => .inl hx⟩
            simp [processPanelLive, processPanel, hps, hfa, hfd, hexpEq,
              hexp, hmk, Except.bind, Except.map]
        | false =>
          cases hmk : (updateByUid fresh (setAnchor (dfnIdOf sfx))
              (insertFirstUid d.uidD (newAnchor fresh)
                panel)).descendants.find? Node.isMarker with
          | none =>
            refine ⟨destroyed, ?_, fun x hx => .inl hx⟩
            simp [processPanelLive, processPanel, hps, hfa, hfd, hexpEq,
              hexp, hmk, Except.bind, Except.map]
          | some mk =>
            refine ⟨destroyed ++ mk.uids, ?_, ?_⟩
            · simp [processPanelLive, processPanel, hps, hfa, hfd, hexpEq,
                hexp, hmk, Except.bind, Except.map]
            · intro x hx
              rcases List.mem_append.mp hx with h1 | h2
              · exact .inl h1
              · obtain ⟨anchor1, HF1, HU1, HS1, -, -, -, -, HND1, HM1⟩ :=
                  processPanel_anchor_facts fresh panel fresh
                    (insertFirstUid d.uidD (newAnchor fresh) panel)
                    (fresh + 1) hnd hmax
                    (.inr ⟨hfa, d, hfd, rfl, rfl, rfl⟩)
                have hsub := setAnchor_update_uids_sub (dfnIdOf sfx) fresh
                  (insertFirstUid d.uidD (newAnchor fresh) panel) HND1
                  anchor1 HF1 HU1 HS1
                have hmkmem := (find?_desc_found Node.isMarker _ mk hmk).1
                have hxp2 : x ∈ (updateByUid fresh (setAnchor (dfnIdOf sfx))
                    (insertFirstUid d.uidD (newAnchor fresh) panel)).uids :=
                  mem_uids_of_subtree _ mk x hmkmem h2
                rcases HM1 x (hsub x hxp2) with h3 | h3
                · exact .inr (.inl h3)
                · exact .inr (.inr h3.1)

/-- The live per-panel loop completes when every panel is safe and no
`dfn_map` value lies inside any processed panel's subtree: then no
`decompose` can destroy a tag a later export check reads. -/
theorem processPanelsLive_ok (fname : String) (lookup : String → Option Node) :
    ∀ (us : List Nat) (fresh : Nat) (destroyed : List Nat) (t : Node),
      t.uids.Nodup →
      (∀ x ∈ t.uids, x < fresh) →
      us.Pairwise (fun u v => ∀ x ∈ subtreeUids u t, x ∉ subtreeUids v t) →
      (∀ u ∈ us, u ∈ t.uids) →
      (∀ u ∈ us, ∀ p, findByUid u t = some p → panelSafe p = true) →
      (∀ s n, lookup s = some n → n.uidD ∉ destroyed ∧ n.uidD < fresh ∧
        ∀ u ∈ us, n.uidD ∉ subtreeUids u t) →
      ∃ out, processPanelsLive fname lookup us fresh destroyed t = .ok out := by
  intro us
  induction us with
  | nil =>
    intro fresh destroyed t _ _ _ _ _ _
    exact ⟨t, rfl⟩
  | cons u us ih =>
    intro fresh destroyed t hnd hmax hpw hmem hsafe hA
    obtain ⟨p, hfind⟩ := Option.isSome_iff_exists.mp
      ((mem_uids_iff_findByUid u t).mp (hmem u (List.mem_cons_self u us)))
    have hpuid : p.uid? = some u := (findByUid_spec u t p hfind).2
    obtain ⟨A, B, hA0, hB0⟩ := uids_updateByUid u (fun _ => p) t p hfind hnd
    have hndp : p.uids.Nodup :=
      nodup_middle (show (A ++ p.uids ++ B).Nodup by rw [← hA0]; exact hnd)
    have hmaxp : ∀ x ∈ p.uids, x < fresh := fun x hx =>
      hmax x (by rw [hA0]; simp [hx])
    obtain ⟨⟨p', f'⟩, hpp⟩ := processPanel_ok fname lookup fresh p hndp hmaxp
      (hsafe u (List.mem_cons_self u us) p hfind)
    have hsubu : subtreeUids u t = p.uids := subtreeUids_of_find u t p hfind
    have hAvP : ∀ sfx, panelSuffix (p.attrsD.id.getD "") = some sfx →
        ∀ n, ((lookup (dfnIdOf sfx)).orElse fun _ => lookup sfx) = some n →
          n.uidD ∉ destroyed := by
      intro sfx _ n hdt
      cases hk : lookup (dfnIdOf sfx) with
      | some n1 =>
        rw [hk] at hdt
        have hn1 : n1 = n := Option.some.inj hdt
        subst hn1
        exact (hA _ n1 hk).1
      | none =>
        rw [hk] at hdt
        exact (hA sfx n hdt).1
    obtain ⟨dOut, hlivemap, hbound⟩ :=
      processPanelLive_eq fname lookup destroyed fresh p hndp hmaxp hAvP
    have hlive : processPanelLive fname lookup destroyed fresh p =
        .ok (p', f', dOut) := by
      rw [hlivemap, hpp]
      rfl
    obtain ⟨hndp', hle, hmemp', hview⟩ :=
      processPanel_uids fname lookup fresh p p' f' hpp hndp hmaxp
    have hp'uid : p'.uid? = some u := by
      rw [← Node.view_uid, hview, Node.view_uid]
      exact hpuid
    obtain ⟨A', B', hA', hB'⟩ := uids_updateByUid u (fun _ => p') t p hfind hnd
    have hGood : (updateByUid u (fun _ => p') t).uids.Nodup ∧
        ∀ x ∈ (updateByUid u (fun _ => p') t).uids,
          x ∈ t.uids ∨ (fresh ≤ x ∧ x < f') :=
      goodUids_step hmax ⟨hnd, fun x hx => .inl hx⟩ (le_refl fresh) hle
        hA' hB' hndp' (fun y hy => hmemp' y hy)
    have hmax' : ∀ x ∈ (updateByUid u (fun _ => p') t).uids, x < f' :=
      fun x hx => (hGood.2 x hx).elim
        (fun h1 => lt_of_lt_of_le (hmax x h1) hle) (fun h1 => h1.2)
    rw [List.pairwise_cons] at hpw
    have hfinds : ∀ v ∈ us, findByUid v (updateByUid u (fun _ => p') t) =
        findByUid v t := by
      intro v hv
      have hvt : v ∈ t.uids := hmem v (List.mem_cons_of_mem _ hv)
      obtain ⟨mv, hmv⟩ :=
        Option.isSome_iff_exists.mp ((mem_uids_iff_findByUid v t).mp hvt)
      have hrel := hpw.1 v hv
      rw [hsubu, subtreeUids_of_find v t mv hmv] at hrel
      have hun : u ∉ mv.uids := hrel u (Node.uid_mem_uids p u hpuid)
      have hvp : v ∉ p.uids := fun hvpp =>
        (hrel v hvpp) (Node.uid_mem_uids mv v (findByUid_spec v t mv hmv).2)
      have hvp' : v ∉ p'.uids := by
        intro hvv
        rcases hmemp' v hvv with h1 | h1
        · exact hvp h1
        · exact absurd (hmax v hvt) (not_lt.mpr h1.1)
      rw [hmv]
      exact findByUid_update_of_disjoint u v (fun _ => p') t p mv hnd
        hfind hmv hun hvp hvp'
    have hmem' : ∀ v ∈ us, v ∈ (updateByUid u (fun _ => p') t).uids := by
      intro v hv
      rw [mem_uids_iff_findByUid, hfinds v hv, ← mem_uids_iff_findByUid]
      exact hmem v (List.mem_cons_of_mem _ hv)
    have hsub' : ∀ v ∈ us, subtreeUids v (updateByUid u (fun _ => p') t) =
        subtreeUids v t := by
      intro v hv
      rw [subtreeUids, hfinds v hv, subtreeUids]
    have hpw' : us.Pairwise (fun a b =>
        ∀ x ∈ subtreeUids a (updateByUid u (fun _ => p') t),
          x ∉ subtreeUids b (updateByUid u (fun _ => p') t)) := by
      refine hpw.2.imp_of_mem ?_
      intro a b ha hb hab
      rw [hsub' a ha, hsub' b hb]
      exact hab
    have hsafe' : ∀ v ∈ us, ∀ pp,
        findByUid v (updateByUid u (fun _ => p') t) = some pp →
        panelSafe pp = true := by
      intro v hv pp hppv
      rw [hfinds v hv] at hppv
      exact hsafe v (List.mem_cons_of_mem _ hv) pp hppv
    have hA' : ∀ s n, lookup s = some n → n.uidD ∉ dOut ∧ n.uidD < f' ∧
        ∀ v ∈ us, n.uidD ∉ subtreeUids v (updateByUid u (fun _ => p') t) := by
      intro s n hsn
      obtain ⟨hd1, hd2, hd3⟩ := hA s n hsn
      refine ⟨?_, lt_of_lt_of_le hd2 hle, ?_⟩
      · intro hx
        rcases hbound _ hx with h1 | h2 | h3
        · exact hd1 h1
        · exact hd3 u (List.mem_cons_self u us) (hsubu ▸ h2)
        · exact absurd hd2 (not_lt.mpr h3)
      · intro v hv
        rw [hsub' v hv]
        exact hd3 v (List.mem_cons_of_mem _ hv)
    obtain ⟨out, hout⟩ := ih f' dOut (updateByUid u (fun _ => p') t)
      hGood.1 hmax' hpw' hmem' hsafe' hA'
    refine ⟨out, ?_⟩
    rw [processPanelsLive, hfind]
    simp only [hlive, Except.bind]
    exact hout

/-- On a document with unique identities whose panels hold no `dfn` with an
id, every `dfn_map` value is a live tag outside every panel subtree. -/
theorem dfnsOutsidePanels_spec (root : Node) (h : dfnsOutsidePanels root = true)
    (hnd : root.uids.Nodup) :
    ∀ s n, dfnLookup root s = some n → n.uidD ∉ ([] : List Nat) ∧
      n.uidD < root.maxUid + 1 ∧
      ∀ u ∈ panelUids root, n.uidD ∉ subtreeUids u root := by
  intro s n hsn
  obtain ⟨hmem, hdfn⟩ := dfnLookup_mem root s n hsn
  have hun : n.uid? = some n.uidD := uid_of_isDfnWithId n hdfn
  have hpre : n ∈ root.pre := by
    rw [Node.pre_eq_cons]
    exact List.mem_cons_of_mem _ hmem
  have hinU : n.uidD ∈ root.uids :=
    mem_uids_of_subtree root n n.uidD hpre (Node.uid_mem_uids n n.uidD hun)
  refine ⟨by simp, uid_lt_succ_maxUid root n.uidD hinU, ?_⟩
  intro u hu hin
  rw [panelUids] at hu
  obtain ⟨pq, hpq, hpqu⟩ := List.mem_filterMap.mp hu
  have hpq' := List.mem_filter.mp hpq
  have hppre : pq ∈ root.pre := by
    rw [Node.pre_eq_cons]
    exact List.mem_cons_of_mem _ hpq'.1
  have hfind2 : findByUid u root = some pq :=
    findByUid_of_mem_pre u root pq hnd hppre hpqu
  rw [subtreeUids_of_find u root pq hfind2] at hin
  obtain ⟨m, hm⟩ := Option.isSome_iff_exists.mp
    ((mem_uids_iff_findByUid n.uidD pq).mp hin)
  have hmn : m = n := by
    have h1 : findByUid n.uidD root = some m :=
      findByUid_trans n.uidD root pq m hnd hppre hm
    have h2 : findByUid n.uidD root = some n :=
      findByUid_of_mem_pre n.uidD root n hnd hpre hun
    rw [h1] at h2
    exact Option.some.inj h2
  subst hmn
  have hnpq : m ∈ pq.pre := (findByUid_spec m.uidD pq m hm).1
  have hpanel : pq.isPanel = true := hpq'.2
  rw [Node.pre_eq_cons] at hnpq
  rcases List.mem_cons.mp hnpq with he | hd
  · rw [he] at hdfn
    cases pq with
    | text s2 => simp [Node.isDfnWithId] at hdfn
    | elem w tg a cs =>
      simp only [Node.isDfnWithId, Bool.and_eq_true, beq_iff_eq] at hdfn
      simp only [Node.isPanel, Bool.and_eq_true, beq_iff_eq] at hpanel
      rw [hdfn.1] at hpanel
      exact absurd hpanel.1 (by decide)
  · have hall := List.all_eq_true.mp h pq hpq
    have hmemf : m ∈ pq.descendants.filter Node.isDfnWithId :=
      List.mem_filter.mpr ⟨hd, hdfn⟩
    rw [List.isEmpty_iff] at hall
    rw [hall] at hmemf
    cases hmemf

/-- C7 (amended).  The rewriter's own per-panel logic does raise on some
parseable documents: a matched panel with no inner `div` raises
`AttributeError` on `panel.div` (see the counterexample), and — because
`dfn_map` holds live references — so does an export check on a `dfn`
destroyed by an earlier panel's marker `decompose`.  It cannot raise when
the panel subtrees are pairwise disjoint, every panel either mismatches the
pattern or has an inner `div` not hidden inside a permalink anchor, and no
id-carrying `dfn` lies inside any panel. -/
theorem transform_no_raise_amended (fname : String) (root : Node)
    (hnd : root.uids.Nodup)
    (hpw : (panelUids root).Pairwise
      (fun a b => ∀ x ∈ subtreeUids a root, x ∉ subtreeUids b root))
    (hsafe : panelsSafe root = true)
    (hout : dfnsOutsidePanels root = true) :
    ∃ out, transformDocLive fname root = .ok out := by
  rw [transformDocLive]
  exact processPanelsLive_ok fname (dfnLookup root) (panelUids root)
    (root.maxUid + 1) [] root hnd (uid_lt_succ_maxUid root) hpw
    (fun v hv => panelUids_mem_uids root v hv)
    (panelsSafe_spec root hsafe hnd)
    (dfnsOutsidePanels_spec root hout hnd)

/-- On `crashDoc` the two readings diverge: with the load-time snapshot the
transform completes, with live references it raises — the live model is the
faithful one, since bs4 `decompose` clears the destroyed tag and a later
`dfn_tag.get('class')` on it raises `AttributeError`. -/
theorem snapshot_live_divergence :
    (∃ out, transformDoc "f.html" crashDoc = .ok out) ∧
    transformDocLive "f.html" crashDoc = .error .attrError :=
  ⟨⟨(transformDoc "f.html" crashDoc).toOption.getD (Node.text ""), by decide⟩,
    by decide⟩

/-- Witness: `transform_no_raise_amended` applies to `wDoc`. -/
theorem transform_no_raise_amended_witness :
    ∃ out, transformDocLive "Overview.html" wDoc = .ok out :=
  transform_no_raise_amended "Overview.html" wDoc
    (by decide) (by decide) (by decide) (by decide)
